import Mathlib

/-!
# Trie hasher (`trie/hasher.go`)

A shallow embedding of `hasher.hash`, `hasher.hashChildren` and `hasher.store`.

* Go's `Node` interface becomes the closed sum `Node` (with `Node.nil` for the
  nil interface value).
* The hasher's scratch buffer and digest state, the database behind the `db`
  pointer, and the sequence of externally visible calls (`Event`) are carried in
  an explicit `State`.
* A Go panic is the `Outcome.panic` result.
* The codec (`rlp.Encode`), the digest, `hexToCompact`, `common.BytesToHash` and
  the node method `canUnload` live outside `trie/hasher.go`; they are taken as
  the parameters bundled in `Deps`.
-/

namespace Trie

/-- Byte strings (`[]byte`); each element stands for one byte. -/
abbrev Bytes := List Nat

/-- The `nodeFlag` block of a `ShortNode` / `FullNode`: `hash` is the cached
`HashNode` (`none` is the nil slice), `gen` the cache generation. -/
structure NodeFlag where
  hash : Option Bytes
  gen : Nat
  dirty : Bool

/-- The `Node` interface: `nil` is the nil interface value, `full` holds the
`[17]Node` array as a list, `value []` is `ValueNode(nil)`. -/
inductive Node where
  | nil : Node
  | short (Key : Bytes) (Val : Node) (flags : NodeFlag) : Node
  | full (Children : List Node) (flags : NodeFlag) : Node
  | hash (h : Bytes) : Node
  | value (v : Bytes) : Node

/-- The `error` interface values a call may return (`none` is the nil error). -/
structure Error where
  code : Nat

/-- The two ways the code can panic: a method call on the nil interface, and
the explicit `panic("encode error: ...")` of `store`. -/
inductive Panic where
  | nilDeref
  | encodeError

/-- Result of running a Go function: it returns, or it panics. -/
inductive Outcome (α : Type) where
  | ok (a : α) : Outcome α
  | panic (p : Panic) : Outcome α

/-- Externally visible calls, in the order they are made. -/
inductive Event where
  | encode (n : Node) (blob : Bytes)       -- rlp.Encode(h.tmp, n) wrote blob
  | digest (blob : Bytes)                  -- h.sha.Sum(nil) over blob
  | lock                                   -- db.lock.Lock()
  | insert (key blob : Bytes)              -- db.insert(key, blob)
  | reference (child parent : Bytes)       -- db.reference(child, parent)
  | unlock                                 -- db.lock.Unlock()
  | onleaf (leaf parent : Bytes)           -- h.onleaf(leaf, parent)
  | unload                                 -- cacheUnloadCounter.Inc(1)

/-- The node database behind the `*Database` pointer: the hash-to-blob map and
the recorded parent/child references. -/
structure Database where
  nodes : List (Bytes × Bytes)
  refs : List (Bytes × Bytes)

/-- Lookup of the blob stored under a hash. -/
def Database.lookup (db : Database) (hash : Bytes) : Option Bytes :=
  (db.nodes.find? (fun e => e.1 == hash)).map Prod.snd

/-- Modelled from the spec: `Database.insert` (database.go is not part of the
sources) is an idempotent upsert of the encoded form under its hash;
re-inserting identical content is a no-op. -/
def Database.insert (db : Database) (hash blob : Bytes) : Database :=
  if db.lookup hash = some blob then db
  else { db with nodes := (hash, blob) :: db.nodes.filter (fun e => !(e.1 == hash)) }

/-- Modelled from the spec: `Database.reference` (database.go is not part of the
sources) records that the parent's persisted form points at the child. -/
def Database.reference (db : Database) (child parent : Bytes) : Database :=
  { db with refs := db.refs ++ [(child, parent)] }

/-- The `hasher` struct: scratch buffer `tmp`, the bytes absorbed by the digest
`sha` since its last reset, and the configuration. `onleaf` records whether a
leaf callback is configured (its calls are `Event.onleaf`). -/
structure hasher where
  tmp : Bytes
  sha : Bytes
  cachegen : Nat
  cachelimit : Nat
  onleaf : Bool

/-- Everything a hashing pass can read or change: the hasher, the database
behind the `db` argument (`none` is the nil pointer; the pointer is passed
unchanged to every recursive call) and the calls made so far. -/
structure State where
  h : hasher
  db : Option Database
  trace : List Event

/-- The collaborators of `trie/hasher.go` that are not part of the sources. -/
structure Deps where
  encode : Node → Option Bytes          -- rlp.Encode; none is an encoding error
  keccak256 : Bytes → Bytes             -- the digest computed by h.sha
  hexToCompact : Bytes → Bytes
  bytesToHash : Bytes → Bytes           -- common.BytesToHash
  canUnload : Node → Nat → Nat → Bool   -- n.canUnload(cachegen, cachelimit)

/-- Modelled from the spec: `Node.Cache` (node.go is not part of the sources)
peeks at the flags of a `ShortNode` / `FullNode`; value and hash nodes carry no
flags and report no cached hash. The nil interface has no method to call. -/
def Node.Cache : Node → Option Bytes × Bool
  | .short _ _ f => (f.hash, f.dirty)
  | .full _ f => (f.hash, f.dirty)
  | _ => (none, true)

/-- Append an event to the trace. -/
def State.emit (s : State) (e : Event) : State :=
  { s with trace := s.trace ++ [e] }

/-- Apply a database operation when a database is attached. -/
def State.onDb (s : State) (f : Database → Database) : State :=
  { s with db := s.db.map f }

/-- One `db.reference(common.BytesToHash(child), hash)` call. -/
def State.reference (x : Deps) (s : State) (child hash : Bytes) : State :=
  ((s.onDb fun d => d.reference (x.bytesToHash child) hash).emit
    (.reference (x.bytesToHash child) hash))

/-- The reference loop of `store` over the given slots: a reference for each
slot holding a `HashNode`. -/
def storeRefs (x : Deps) (hash : Bytes) : List Node → State → State
  | [], s => s
  | .hash child :: cs, s => storeRefs x hash cs (s.reference x child hash)
  | _ :: cs, s => storeRefs x hash cs s

/-- The leaf-callback loop of `store` over the given slots: a callback for each
slot holding a `ValueNode`. -/
def storeLeaves (hash : Bytes) : List Node → State → State
  | [], s => s
  | .value child :: cs, s => storeLeaves hash cs (s.emit (.onleaf child hash))
  | _ :: cs, s => storeLeaves hash cs s

/-- The slots the two `switch n := n.(type)` blocks of `store` look at: the
value of a `ShortNode`, slots `0..15` of a `FullNode`. -/
def storeSlots : Node → List Node
  | .short _ v _ => [v]
  | .full cs _ => cs.take 16
  | _ => []

/-- Lines 167-172 of `store`: reuse the cached hash of `n` when it has one,
otherwise digest the scratch buffer. -/
def sumHash (x : Deps) (n : Node) (s : State) : Bytes × State :=
  match n.Cache.1 with
  | some hash => (hash, s)
  | none =>
    let s := { s with h := { s.h with sha := [] } }
    let s := { s with h := { s.h with sha := s.h.sha ++ s.h.tmp } }
    (x.keccak256 s.h.sha, s.emit (.digest s.h.sha))

/-- The `if db != nil` block of `store`: insert under the lock, register the
references, unlock, then run the leaf callbacks. -/
def persist (x : Deps) (n : Node) (hash : Bytes) (s : State) : State :=
  match s.db with
  | none => s
  | some _ =>
    let s := s.emit .lock
    let key := x.bytesToHash hash
    let s := (s.onDb fun d => d.insert key s.h.tmp).emit (.insert key s.h.tmp)
    let s := storeRefs x key (storeSlots n) s
    let s := s.emit .unlock
    if s.h.onleaf then storeLeaves key (storeSlots n) s else s

/-- State after `h.tmp.Reset()` and a successful `rlp.Encode(h.tmp, n)`. -/
def State.encoded (s : State) (n : Node) (blob : Bytes) : State :=
  { s with h := { s.h with tmp := [] ++ blob } }.emit (.encode n blob)

/-- The method `hasher.store`. -/
def store (x : Deps) (n : Node) (force : Bool) (s : State) :
    Outcome (Node × Option Error) × State :=
  match n with
  | .nil => (.ok (n, none), s)
  | .hash _ => (.ok (n, none), s)
  | _ =>
    match x.encode n with
    | none => (.panic .encodeError, { s with h := { s.h with tmp := [] } })
    | some blob =>
      let s := s.encoded n blob
      if s.h.tmp.length < 32 && !force then
        (.ok (n, none), s)
      else
        let (hash, s) := sumHash x n s
        (.ok (.hash hash, none), persist x n hash s)

/-- Result type of `hash` and `hashChildren`. -/
abbrev HashResult := Outcome (Node × Node × Option Error) × State

/-- Lines 84-96 of `hash`: the cached copy is stamped with the hash `store`
returned (`cachedHash, _ := hashed.(HashNode)` is nil when `hashed` is not a
`HashNode`), and its dirty flag is cleared when a database is attached. -/
def setFlags (hashed : Node) (db : Option Database) (cached : Node) : Node :=
  let cachedHash : Option Bytes :=
    match hashed with
    | .hash hh => some hh
    | _ => none
  let dirty (f : NodeFlag) : Bool := if db.isSome then false else f.dirty
  match cached with
  | .short k v f => .short k v { f with hash := cachedHash, dirty := dirty f }
  | .full cs f => .full cs { f with hash := cachedHash, dirty := dirty f }
  | _ => cached

/-- Lines 72-97 of `hash` (the node is walked and stored), with the call
`h.hashChildren(n, db)` for this node passed in as `hc`. -/
def hashSlow (x : Deps) (hc : State → HashResult) (n : Node) (force : Bool)
    (s : State) : HashResult :=
  match hc s with
  | (.panic p, s) => (.panic p, s)
  | (.ok (_, _, some err), s) => (.ok (.hash [], n, some err), s)
  | (.ok (collapsed, cached, none), s) =>
    match store x collapsed force s with
    | (.panic p, s) => (.panic p, s)
    | (.ok (_, some err), s) => (.ok (.hash [], n, some err), s)
    | (.ok (hashed, none), s) => (.ok (hashed, setFlags hashed s.db cached, none), s)

/-- Body of `hasher.hash`, with the call `h.hashChildren(n, db)` for this node
passed in as `hc`. Calling `n.Cache()` on the nil interface panics. -/
def hashWith (x : Deps) (hc : State → HashResult) (n : Node) (force : Bool)
    (s : State) : HashResult :=
  match n with
  | .nil => (.panic .nilDeref, s)
  | _ =>
    match n.Cache with
    | (some hash, dirty) =>
      match s.db with
      | none => (.ok (.hash hash, n, none), s)
      | some _ =>
        if x.canUnload n s.h.cachegen s.h.cachelimit then
          (.ok (.hash hash, .hash hash, none), s.emit .unload)
        else if !dirty then
          (.ok (.hash hash, n, none), s)
        else hashSlow x hc n force s
    | (none, _) => hashSlow x hc n force s

/-- The assignment `collapsed.Val = ValueNode(nil)` made when the collapsed value
of a `ShortNode` is nil. -/
def nilToEmpty (n : Node) : Node :=
  match n with
  | .nil => .value []
  | _ => n

/-- The assignment `collapsed.Children[16] = ValueNode(nil)` made when slot 16
of the collapsed copy is nil. -/
def fixSlot16 (cs : List Node) : List Node :=
  match cs.get? 16 with
  | some .nil => cs.set 16 (.value [])
  | _ => cs

mutual
/-- The method `hasher.hashChildren`. The recursive call `h.hash(child, db, false)`
is `hashWith x (hashChildren x child) child false` (see `hash`). -/
def hashChildren (x : Deps) : Node → State → HashResult
  | .short k v f, s =>
    match v with
    | .value _ => (.ok (.short (x.hexToCompact k) v f, .short k v f, none), s)
    | _ =>
      match hashWith x (hashChildren x v) v false s with
      | (.panic p, s) => (.panic p, s)
      | (.ok (_, _, some err), s) => (.ok (.short k v f, .short k v f, some err), s)
      | (.ok (cv, kv, none), s) =>
        (.ok (.short (x.hexToCompact k) (nilToEmpty cv) f, .short k kv f, none), s)
  | .full cs f, s =>
    match hashLoop x cs 16 s with
    | (.panic p, s) => (.panic p, s)
    | (.ok (_, _, some err), s) => (.ok (.full cs f, .full cs f, some err), s)
    | (.ok (ccs, kcs, none), s) => (.ok (.full (fixSlot16 ccs) f, .full kcs f, none), s)
  | n, s => (.ok (n, n, none), s)
/-- The loop `for i := 0; i < 16; i++` of `hashChildren` over a `FullNode`:
`hashLoop x cs k` handles the next `k` slots, `cs` being the slots from the
current index on, and returns the collapsed and cached slots from that index on. -/
def hashLoop (x : Deps) : List Node → Nat → State →
    Outcome (List Node × List Node × Option Error) × State
  | [], _, s => (.ok ([], [], none), s)
  | c :: cs, 0, s => (.ok (c :: cs, c :: cs, none), s)
  | c :: cs, k + 1, s =>
    match c with
    | .nil =>
      match hashLoop x cs k s with
      | (.panic p, s) => (.panic p, s)
      | (.ok (_, _, some err), s) => (.ok ([], [], some err), s)
      | (.ok (ccs, kcs, none), s) => (.ok (.value [] :: ccs, .nil :: kcs, none), s)
    | _ =>
      match hashWith x (hashChildren x c) c false s with
      | (.panic p, s) => (.panic p, s)
      | (.ok (_, _, some err), s) => (.ok ([], [], some err), s)
      | (.ok (cc, kc, none), s) =>
        match hashLoop x cs k s with
        | (.panic p, s) => (.panic p, s)
        | (.ok (_, _, some err), s) => (.ok ([], [], some err), s)
        | (.ok (ccs, kcs, none), s) => (.ok (cc :: ccs, kc :: kcs, none), s)
end

/-- The method `hasher.hash`. -/
def hash (x : Deps) (n : Node) (force : Bool) (s : State) : HashResult :=
  hashWith x (hashChildren x n) n force s

/-! ## A concrete instance of the collaborators

Used to evaluate the definitions on concrete trees. The codec is RLP over the
node shapes, `hexToCompact`, `bytesToHash` and `canUnload` follow their usual
definitions, and the digest is a small stand-in (no property below depends on
which digest is used). -/

/-- Big-endian bytes of a length below `2^16`. -/
def beBytes (n : Nat) : Bytes :=
  if n < 256 then [n] else [n / 256 % 256, n % 256]

/-- RLP header for a payload of the given length (`base` is 128 for strings and
192 for lists). -/
def rlpHeader (base len : Nat) : Bytes :=
  if len < 56 then [base + len] else (base + 55 + (beBytes len).length) :: beBytes len

/-- RLP encoding of a byte string. -/
def rlpString (b : Bytes) : Bytes :=
  match b with
  | [v] => if v < 128 then [v] else [129, v]
  | _ => rlpHeader 128 b.length ++ b

mutual
/-- RLP encoding of a node: a `ShortNode` is the list of its key and value, a
`FullNode` the list of its slots, hash and value nodes are byte strings, and
the nil interface is the empty list. -/
def rlpNode : Node → Bytes
  | .nil => [192]
  | .short k v _ => let p := rlpString k ++ rlpNode v; rlpHeader 192 p.length ++ p
  | .full cs _ => let p := rlpNodes cs; rlpHeader 192 p.length ++ p
  | .hash h => rlpString h
  | .value v => rlpString v
/-- Concatenated RLP encodings of a list of nodes. -/
def rlpNodes : List Node → Bytes
  | [] => []
  | c :: cs => rlpNode c ++ rlpNodes cs
end

/-- Pack pairs of nibbles into bytes. -/
def decodeNibbles : Bytes → Bytes
  | a :: b :: r => (a * 16 + b) :: decodeNibbles r
  | _ => []

/-- Compact (hex-prefix) encoding of a nibble path; nibble 16 is the terminator. -/
def hexToCompactImpl (hex : Bytes) : Bytes :=
  let term := if hex.getLast? = some 16 then 1 else 0
  let hex := if hex.getLast? = some 16 then hex.dropLast else hex
  if hex.length % 2 = 1 then
    (term * 32 + 16 + hex.headD 0) :: decodeNibbles hex.tail
  else
    (term * 32) :: decodeNibbles hex

/-- The 32-byte hash made of a byte string: the last 32 bytes, left-padded
with zeros. -/
def bytesToHashImpl (b : Bytes) : Bytes :=
  if 32 < b.length then b.drop (b.length - 32) else List.replicate (32 - b.length) 0 ++ b

/-- Unload eligibility of a node: clean, and its generation is at least `limit`
behind `gen` (16-bit arithmetic); value and hash nodes are never unloaded. -/
def canUnloadImpl (n : Node) (gen limit : Nat) : Bool :=
  match n with
  | .short _ _ f => !f.dirty && decide (limit ≤ (gen + 65536 - f.gen % 65536) % 65536)
  | .full _ f => !f.dirty && decide (limit ≤ (gen + 65536 - f.gen % 65536) % 65536)
  | _ => false

/-- A 32-byte stand-in for the digest. -/
def standInDigest (b : Bytes) : Bytes :=
  List.replicate 30 7 ++ [b.length % 256, b.sum % 256]

/-- The concrete collaborators, for a given digest. -/
def rlpDeps (digest : Bytes → Bytes) : Deps where
  encode := fun n => some (rlpNode n)
  keccak256 := digest
  hexToCompact := hexToCompactImpl
  bytesToHash := bytesToHashImpl
  canUnload := canUnloadImpl

/-- The concrete collaborators with the stand-in digest. -/
def demoDeps : Deps := rlpDeps standInDigest

/-- The hasher the pool allocates (`hasherPool.New`): empty buffer, fresh digest. -/
def hasherPoolNew : hasher :=
  { tmp := [], sha := [], cachegen := 0, cachelimit := 0, onleaf := false }

/-- The function `newHasher`: `h` is the hasher the pool hands out (its buffer and
digest keep whatever an earlier pass left in them); the three settings are
overwritten. -/
def newHasher (h : hasher) (cachegen cachelimit : Nat) (onleaf : Bool) : hasher :=
  { h with cachegen := cachegen, cachelimit := cachelimit, onleaf := onleaf }

/-- Initial state: a hasher, the given database and an empty trace. -/
def State.init (h : hasher) (db : Option Database) : State :=
  { h := h, db := db, trace := [] }

/-- The empty database. -/
def Database.empty : Database := { nodes := [], refs := [] }

/-- Flags of a freshly created node: no cached hash, dirty. -/
def newFlag : NodeFlag := { hash := none, gen := 0, dirty := true }

/-- The events a call appended: the part of the trace of `t` after that of `s`. -/
def newEvents (s t : State) : List Event := t.trace.drop s.trace.length

/-- The reference events the reference loop of `store` issues over the given slots. -/
def refEvents (x : Deps) (key : Bytes) : List Node → List Event
  | [] => []
  | .hash child :: cs => .reference (x.bytesToHash child) key :: refEvents x key cs
  | _ :: cs => refEvents x key cs

/-- The callback events the leaf loop of `store` issues over the given slots. -/
def leafEvents (key : Bytes) : List Node → List Event
  | [] => []
  | .value child :: cs => .onleaf child key :: leafEvents key cs
  | _ :: cs => leafEvents key cs

/-- The events `persist` appends when a database is attached. -/
def persistEvents (x : Deps) (n : Node) (hash blob : Bytes) (onleaf : Bool) : List Event :=
  [.lock, .insert (x.bytesToHash hash) blob] ++ refEvents x (x.bytesToHash hash) (storeSlots n)
    ++ [.unlock] ++ (if onleaf then leafEvents (x.bytesToHash hash) (storeSlots n) else [])

/-- Whether the node is the nil interface value. -/
def Node.isNil : Node → Bool
  | .nil => true
  | _ => false

/-- Whether the node is a `HashNode`. -/
def Node.isHash : Node → Bool
  | .hash _ => true
  | _ => false

/-- Whether the node is a `ValueNode`. -/
def Node.isValue : Node → Bool
  | .value _ => true
  | _ => false

/-- Whether the node is a `ShortNode` or a `FullNode`. -/
def Node.isBranch : Node → Bool
  | .short _ _ _ => true
  | .full _ _ => true
  | _ => false

/-- The hash of a `HashNode`, nothing for the other variants. -/
def Node.asHash : Node → Option Bytes
  | .hash h => some h
  | _ => none

/-- The direct children of a node that are `HashNode`s: the value of a
`ShortNode`, slots `0..15` of a `FullNode` in nibble order. -/
def Node.hashRefs : Node → List Bytes
  | .short _ v _ => [v].filterMap Node.asHash
  | .full cs _ => (cs.take 16).filterMap Node.asHash
  | _ => []

/-- Whether the event is a `db.insert` call. -/
def Event.isInsert : Event → Bool
  | .insert _ _ => true
  | _ => false

/-- Whether the event is a `db.reference` call. -/
def Event.isReference : Event → Bool
  | .reference _ _ => true
  | _ => false

/-- Whether the event is a leaf-callback call. -/
def Event.isOnleaf : Event → Bool
  | .onleaf _ _ => true
  | _ => false

/-- Whether the event is an `rlp.Encode` call. -/
def Event.isEncode : Event → Bool
  | .encode _ _ => true
  | _ => false

/-- The hash `store` gives a node with encoding `blob`: its cached hash when it
has one, the digest of `blob` otherwise. -/
def storedHash (x : Deps) (n : Node) (blob : Bytes) : Bytes :=
  match n.Cache.1 with
  | some hash => hash
  | none => x.keccak256 blob

/-- Whether `hash` takes the walk-and-store path on this node in this state:
no cached hash, or (with a database attached) a dirty node that cannot be
unloaded. -/
def slowPath (x : Deps) (n : Node) (s : State) : Prop :=
  n.isNil = false ∧ (n.Cache.1 = none ∨
    (s.db.isSome = true ∧ n.Cache.2 = true ∧ x.canUnload n s.h.cachegen s.h.cachelimit = false))


/-- Result type of the slot loop of `hashChildren`. -/
abbrev LoopResult := Outcome (List Node × List Node × Option Error) × State

mutual
/-- No dirty `ShortNode` or `FullNode` of the tree carries a cached hash. -/
def Node.noStale : Node → Bool
  | .short _ v f => !(f.hash.isSome && f.dirty) && v.noStale
  | .full cs f => !(f.hash.isSome && f.dirty) && Node.noStaleList cs
  | _ => true
/-- The predicate `Node.noStale` on every slot of a list. -/
def Node.noStaleList : List Node → Bool
  | [] => true
  | c :: cs => c.noStale && Node.noStaleList cs
end

/-- Every insert among the events is keyed by the digest of the blob inserted. -/
def ContentAddressed (x : Deps) (evs : List Event) : Prop :=
  ∀ k blob, Event.insert k blob ∈ evs → k = x.bytesToHash (x.keccak256 blob)

/-- Every insert among the events stores a blob that was encoded in these events
from a node `m`, under the hash `store` gives `m`: its cached hash when it
carries one, the digest of the blob otherwise. -/
def StoreAddressed (x : Deps) (evs : List Event) : Prop :=
  ∀ k blob, Event.insert k blob ∈ evs →
    ∃ m, Event.encode m blob ∈ evs ∧ x.encode m = some blob ∧
      k = x.bytesToHash (storedHash x m blob)

/-- A demo state: a pooled hasher with the given callback setting (generation 0,
cache limit 120, so that no node is unloaded), the given database, and an empty
trace. -/
def demoState (db : Option Database) (onleaf : Bool) : State :=
  State.init (newHasher hasherPoolNew 0 120 onleaf) db

/-- A demo state with cache limit 0, in which every clean node can be unloaded. -/
def unloadState (db : Option Database) (onleaf : Bool) : State :=
  State.init (newHasher hasherPoolNew 0 0 onleaf) db

/-- Scenario B: a `ShortNode` with key `[1,2,3]` and the value `"abc"`. -/
def smallLeaf (f : NodeFlag) : Node := .short [1, 2, 3] (.value [97, 98, 99]) f

/-- The collapsed form of `smallLeaf` (compact key). -/
def smallLeafCollapsed (f : NodeFlag) : Node := .short [17, 35] (.value [97, 98, 99]) f

/-- The encoding of `smallLeafCollapsed`, 8 bytes. -/
def smallLeafBlob : Bytes := [199, 130, 17, 35, 131, 97, 98, 99]

/-- A 32-byte hash with the given last byte. -/
def demoHash (b : Nat) : Bytes := List.replicate 31 0 ++ [b]

/-- Flags of a clean node carrying the given cached hash. -/
def cleanFlag (h : Bytes) : NodeFlag := { hash := some h, gen := 0, dirty := false }

/-- A collapsed `FullNode` whose slots 3 and 5 are hash references, slot 7 a
value and the other slots empty values. -/
def demoBranch : Node :=
  .full ([.value [], .value [], .value [], .hash (demoHash 1), .value [], .hash (demoHash 2),
    .value [], .value [9]] ++ List.replicate 9 (.value [])) newFlag

/-- A leaf with key `[1,2,3]` (terminated) and a 40-byte value. -/
def bigLeaf (f : NodeFlag) : Node :=
  .short [1, 2, 3, 16] (.value (List.replicate 40 5)) f

/-- The collapsed form of `bigLeaf` (compact key). -/
def bigLeafCollapsed (f : NodeFlag) : Node :=
  .short [49, 35] (.value (List.replicate 40 5)) f

/-- The encoding of `bigLeafCollapsed`, 45 bytes. -/
def bigLeafBlob : Bytes :=
  [236, 130, 49, 35, 168] ++ List.replicate 40 5

/-- A dirty leaf with a 40-byte value that still carries the given cached hash. -/
def staleLeaf (cached : Bytes) : Node :=
  bigLeaf { hash := some cached, gen := 0, dirty := true }

mutual
/-- No `ShortNode` of the tree has the nil interface as its value (hashing such a
node calls `Cache` on nil). -/
def Node.wellFormed : Node → Bool
  | .short _ v _ => !v.isNil && v.wellFormed
  | .full cs _ => Node.wellFormedList cs
  | _ => true
/-- The predicate `Node.wellFormed` on every slot of a list. -/
def Node.wellFormedList : List Node → Bool
  | [] => true
  | c :: cs => c.wellFormed && Node.wellFormedList cs
end

/-- What `store` leaves unchanged: whether a database is attached, and the
settings of the hasher. -/
def Frame (s t : State) : Prop :=
  t.db.isSome = s.db.isSome ∧ t.h.cachegen = s.h.cachegen ∧
  t.h.cachelimit = s.h.cachelimit ∧ t.h.onleaf = s.h.onleaf

mutual
/-- The tree with the cached hash and the dirty bit of every `ShortNode` and
`FullNode` erased: what is left is the variant at every position, the raw keys,
the values, the slots and the generations. -/
def Node.strip : Node → Node
  | .short k v f => .short k v.strip { hash := none, gen := f.gen, dirty := false }
  | .full cs f => .full (Node.stripList cs) { hash := none, gen := f.gen, dirty := false }
  | .nil => .nil
  | .hash h => .hash h
  | .value v => .value v
/-- The function `Node.strip` on every slot of a list. -/
def Node.stripList : List Node → List Node
  | [] => []
  | c :: cs => c.strip :: Node.stripList cs
end

mutual
/-- No `ShortNode` or `FullNode` of the tree can be unloaded at the given cache
generation and limit. -/
def Node.noUnload (x : Deps) (gen limit : Nat) : Node → Bool
  | .short k v f => !x.canUnload (.short k v f) gen limit && v.noUnload x gen limit
  | .full cs f => !x.canUnload (.full cs f) gen limit && Node.noUnloadList x gen limit cs
  | _ => true
/-- The predicate `Node.noUnload` on every slot of a list. -/
def Node.noUnloadList (x : Deps) (gen limit : Nat) : List Node → Bool
  | [] => true
  | c :: cs => c.noUnload x gen limit && Node.noUnloadList x gen limit cs
end

/-- Scenario C: a `FullNode` whose only non-nil child, in slot 3, is the 40-byte
leaf. -/
def demoTree : Node :=
  .full (List.replicate 3 .nil ++ bigLeaf newFlag :: List.replicate 13 .nil) newFlag

/-- The collapsed form of `demoTree`: the leaf replaced by its hash, the empty
slots by empty values. -/
def demoTreeCollapsed : Node :=
  .full (List.replicate 3 (.value []) ++ .hash (standInDigest bigLeafBlob) ::
    List.replicate 13 (.value [])) newFlag

/-- The hash of `demoTree` under the stand-in digest. -/
def demoTreeHash : Bytes := standInDigest (rlpNode demoTreeCollapsed)

/-- The cached form of `demoTree` after a pass with a database attached: both
nodes stamped with their hash and clean. -/
def demoTreeCached : Node :=
  .full (List.replicate 3 .nil ++ bigLeaf (cleanFlag (standInDigest bigLeafBlob)) ::
    List.replicate 13 .nil) (cleanFlag demoTreeHash)

/-- A `FullNode` whose only non-nil slot is slot `i`, holding `child`. -/
def oneChildBranch (i : Nat) (child : Node) (fl : NodeFlag) : Node :=
  .full (List.replicate i .nil ++ child :: List.replicate (16 - i) .nil) fl

/-- The collapsed form of `oneChildBranch` when the child was replaced by the
hash `h`: empty values in the other slots. -/
def oneChildCollapsed (i : Nat) (h : Bytes) (fl : NodeFlag) : Node :=
  .full (List.replicate i (.value []) ++ .hash h :: List.replicate (16 - i) (.value [])) fl

/-- Whether the event is a `db.insert` or a `db.reference` call. -/
def Event.isWrite (e : Event) : Bool := e.isInsert || e.isReference

/-- A codec that cannot encode a `ShortNode` whose value is the empty
`ValueNode`; everything else is encoded as by `rlpNode`. -/
def strictEncode (n : Node) : Option Bytes :=
  match n with
  | .short _ (.value []) _ => none
  | _ => some (rlpNode n)

/-- The concrete collaborators with the codec `strictEncode`. -/
def strictDeps : Deps := { demoDeps with encode := strictEncode }

/-- A leaf with key `[1,2,3]` and an empty value. -/
def emptyLeaf : Node := .short [1, 2, 3] (.value []) newFlag

/-- The collapsed form of `emptyLeaf`. -/
def emptyLeafCollapsed : Node := .short [17, 35] (.value []) newFlag

/-- A `FullNode` with sixteen empty branch slots and a 40-byte value in its
17th slot. -/
def valueBranch : Node :=
  .full (List.replicate 16 .nil ++ [.value (List.replicate 40 5)]) newFlag

/-- The collapsed form of `valueBranch`: empty values in the branch slots. -/
def valueBranchCollapsed : Node :=
  .full (List.replicate 16 (.value []) ++ [.value (List.replicate 40 5)]) newFlag

/-- The database key of `valueBranch` under the stand-in digest. -/
def valueBranchKey : Bytes := bytesToHashImpl (standInDigest (rlpNode valueBranchCollapsed))

mutual
/-- No `ValueNode` is handed to `hash` when the tree is hashed: the node is not
a `ValueNode` itself, and below it `ValueNode`s only occur as the value of a
`ShortNode` or from the 17th slot of a `FullNode` on. -/
def Node.noLooseValue : Node → Bool
  | .value _ => false
  | .short _ v _ => v.isValue || v.noLooseValue
  | .full cs _ => Node.noLooseValueList cs 16
  | .nil => true
  | .hash _ => true
/-- The predicate `Node.noLooseValue` on the first `k` slots of a list. -/
def Node.noLooseValueList : List Node → Nat → Bool
  | [], _ => true
  | _ :: _, 0 => true
  | c :: cs, k + 1 => c.noLooseValue && Node.noLooseValueList cs k
end

/-- Every encoding among the events is that of a `ShortNode` or `FullNode`, and
every insert stores a blob encoded in these events. -/
def BranchesOnly (evs : List Event) : Prop :=
  (∀ m blob, Event.encode m blob ∈ evs → m.isBranch = true) ∧
  ∀ k blob, Event.insert k blob ∈ evs → ∃ m, Event.encode m blob ∈ evs

/-- A 40-byte `ValueNode`. -/
def bigValue : Node := .value (List.replicate 40 5)

/-- The encoding of `bigValue`, 41 bytes. -/
def bigValueBlob : Bytes := 168 :: List.replicate 40 5

/-- What a child slot of a collapsed node may hold: a hash reference, a
`ValueNode`, or a node whose encoding is shorter than 32 bytes. -/
def SlotOk (x : Deps) (c : Node) : Prop :=
  c.isHash = true ∨ c.isValue = true ∨ ∃ blob, x.encode c = some blob ∧ blob.length < 32

/-- Two states that agree on everything but the contents of the scratch buffer
and of the digest: same database, same trace, same hasher settings. -/
def SameButBuffers (s t : State) : Prop :=
  s.db = t.db ∧ s.trace = t.trace ∧ s.h.cachegen = t.h.cachegen ∧
  s.h.cachelimit = t.h.cachelimit ∧ s.h.onleaf = t.h.onleaf

/-- The empty `FullNode`: all 17 slots nil, fresh flags. -/
def emptyBranch : Node := .full (List.replicate 17 .nil) newFlag

/-- The collapsed form of `emptyBranch`: 17 empty values. -/
def emptyBranchCollapsed : Node := .full (List.replicate 17 (.value [])) newFlag

/-- A state whose hasher comes from the pool with the given leftovers in its
scratch buffer and digest. -/
def usedState (tmp sha : Bytes) (db : Option Database) : State :=
  State.init (newHasher { hasherPoolNew with tmp := tmp, sha := sha } 0 120 false) db

/-- The scenario-B leaf, dirty and still carrying the given cached hash. -/
def staleSmallLeaf (cached : Bytes) : Node :=
  smallLeaf { hash := some cached, gen := 0, dirty := true }

/-- A `FullNode` whose sixteen branch slots are empty and whose 17th slot holds
the leaf `bigLeaf`, a `ShortNode`. -/
def slot16Branch : Node := .full (List.replicate 16 .nil ++ [bigLeaf newFlag]) newFlag

/-- The encoding of `bigLeaf` as it stands (raw key), 47 bytes. -/
def bigLeafRawBlob : Bytes := [238, 132, 1, 2, 3, 16, 168] ++ List.replicate 40 5

/-! ## Theorems -/

@[simp] theorem emit_trace (s : State) (e : Event) : (s.emit e).trace = s.trace ++ [e] := rfl

@[simp] theorem emit_db (s : State) (e : Event) : (s.emit e).db = s.db := rfl

@[simp] theorem emit_h (s : State) (e : Event) : (s.emit e).h = s.h := rfl

@[simp] theorem onDb_trace (s : State) (f : Database → Database) : (s.onDb f).trace = s.trace := rfl

@[simp] theorem onDb_db (s : State) (f : Database → Database) : (s.onDb f).db = s.db.map f := rfl

@[simp] theorem onDb_h (s : State) (f : Database → Database) : (s.onDb f).h = s.h := rfl

@[simp] theorem encoded_trace (s : State) (n : Node) (b : Bytes) :
    (s.encoded n b).trace = s.trace ++ [.encode n b] := rfl

@[simp] theorem encoded_db (s : State) (n : Node) (b : Bytes) : (s.encoded n b).db = s.db := rfl

@[simp] theorem encoded_tmp (s : State) (n : Node) (b : Bytes) : (s.encoded n b).h.tmp = b := rfl

@[simp] theorem encoded_onleaf (s : State) (n : Node) (b : Bytes) :
    (s.encoded n b).h.onleaf = s.h.onleaf := rfl

@[simp] theorem encoded_cachegen (s : State) (n : Node) (b : Bytes) :
    (s.encoded n b).h.cachegen = s.h.cachegen := rfl

@[simp] theorem encoded_cachelimit (s : State) (n : Node) (b : Bytes) :
    (s.encoded n b).h.cachelimit = s.h.cachelimit := rfl

theorem storeRefs_trace (x : Deps) (key : Bytes) (cs : List Node) (s : State) :
    (storeRefs x key cs s).trace = s.trace ++ refEvents x key cs := by
  induction cs generalizing s with
  | nil => simp [storeRefs, refEvents]
  | cons c cs ih => cases c <;> simp [storeRefs, refEvents, ih, State.reference]

theorem storeRefs_h (x : Deps) (key : Bytes) (cs : List Node) (s : State) :
    (storeRefs x key cs s).h = s.h := by
  induction cs generalizing s with
  | nil => simp [storeRefs]
  | cons c cs ih => cases c <;> simp [storeRefs, ih, State.reference]

theorem storeRefs_db_none (x : Deps) (key : Bytes) (cs : List Node) (s : State)
    (h : s.db = none) : (storeRefs x key cs s).db = none := by
  induction cs generalizing s with
  | nil => simpa [storeRefs] using h
  | cons c cs ih => cases c <;> simp [storeRefs, ih, State.reference, h]

theorem storeRefs_db_some (x : Deps) (key : Bytes) (cs : List Node) (s : State) (d : Database)
    (h : s.db = some d) : ∃ d', (storeRefs x key cs s).db = some d' ∧ d'.nodes = d.nodes := by
  induction cs generalizing s d with
  | nil => exact ⟨d, by simpa [storeRefs] using h, rfl⟩
  | cons c cs ih =>
    cases c <;> simp only [storeRefs] <;> try exact ih s d h
    case hash child =>
      exact ih _ (d.reference (x.bytesToHash child) key) (by simp [State.reference, h])

theorem storeLeaves_trace (key : Bytes) (cs : List Node) (s : State) :
    (storeLeaves key cs s).trace = s.trace ++ leafEvents key cs := by
  induction cs generalizing s with
  | nil => simp [storeLeaves, leafEvents]
  | cons c cs ih => cases c <;> simp [storeLeaves, leafEvents, ih]

theorem storeLeaves_db (key : Bytes) (cs : List Node) (s : State) :
    (storeLeaves key cs s).db = s.db := by
  induction cs generalizing s with
  | nil => simp [storeLeaves]
  | cons c cs ih => cases c <;> simp [storeLeaves, ih]

theorem storeLeaves_h (key : Bytes) (cs : List Node) (s : State) :
    (storeLeaves key cs s).h = s.h := by
  induction cs generalizing s with
  | nil => simp [storeLeaves]
  | cons c cs ih => cases c <;> simp [storeLeaves, ih]

theorem persist_none (x : Deps) (n : Node) (hash : Bytes) (s : State) (h : s.db = none) :
    persist x n hash s = s := by
  simp [persist, h]

theorem persist_trace (x : Deps) (n : Node) (hash : Bytes) (s : State) (d : Database)
    (h : s.db = some d) :
    (persist x n hash s).trace = s.trace ++ persistEvents x n hash s.h.tmp s.h.onleaf := by
  simp only [persist, h, persistEvents]
  split
  · rename_i h1
    simp only [storeRefs_h, emit_h, onDb_h] at h1
    simp [storeLeaves_trace, storeRefs_trace, h1]
  · rename_i h1
    simp only [storeRefs_h, emit_h, onDb_h] at h1
    simp [storeRefs_trace, h1]

theorem persist_h (x : Deps) (n : Node) (hash : Bytes) (s : State) :
    (persist x n hash s).h = s.h := by
  unfold persist
  split
  · rfl
  · simp only []
    split <;> simp [storeLeaves_h, storeRefs_h]

theorem Database.lookup_insert (d : Database) (k b : Bytes) :
    (d.insert k b).lookup k = some b := by
  unfold Database.insert
  split
  · assumption
  · simp [Database.lookup]

theorem persist_db (x : Deps) (n : Node) (hash : Bytes) (s : State) (d : Database)
    (h : s.db = some d) :
    ∃ d', (persist x n hash s).db = some d' ∧
      d'.nodes = (d.insert (x.bytesToHash hash) s.h.tmp).nodes := by
  simp only [persist, h]
  have key := storeRefs_db_some x (x.bytesToHash hash) (storeSlots n)
    (((s.emit .lock).onDb fun d => d.insert (x.bytesToHash hash) (s.emit .lock).h.tmp).emit
      (.insert (x.bytesToHash hash) (s.emit .lock).h.tmp))
    (d.insert (x.bytesToHash hash) s.h.tmp) (by simp [h])
  obtain ⟨d', hd, hn⟩ := key
  refine ⟨d', ?_, hn⟩
  split <;> simpa [storeLeaves_db] using hd

theorem persist_db_isSome (x : Deps) (n : Node) (hash : Bytes) (s : State) :
    (persist x n hash s).db.isSome = s.db.isSome := by
  cases h : s.db with
  | none => simp [persist_none x n hash s h, h]
  | some d =>
    obtain ⟨d', hd, _⟩ := persist_db x n hash s d h
    simp [hd]

theorem sumHash_fst (x : Deps) (n : Node) (s : State) :
    (sumHash x n s).1 = storedHash x n s.h.tmp := by
  unfold sumHash storedHash
  split <;> simp_all

theorem sumHash_db (x : Deps) (n : Node) (s : State) : (sumHash x n s).2.db = s.db := by
  unfold sumHash
  split <;> rfl

theorem sumHash_tmp (x : Deps) (n : Node) (s : State) : (sumHash x n s).2.h.tmp = s.h.tmp := by
  unfold sumHash
  split <;> rfl

theorem sumHash_onleaf (x : Deps) (n : Node) (s : State) :
    (sumHash x n s).2.h.onleaf = s.h.onleaf := by
  unfold sumHash
  split <;> rfl

theorem sumHash_cachegen (x : Deps) (n : Node) (s : State) :
    (sumHash x n s).2.h.cachegen = s.h.cachegen := by
  unfold sumHash
  split <;> rfl

theorem sumHash_cachelimit (x : Deps) (n : Node) (s : State) :
    (sumHash x n s).2.h.cachelimit = s.h.cachelimit := by
  unfold sumHash
  split <;> rfl

theorem sumHash_trace (x : Deps) (n : Node) (s : State) :
    (sumHash x n s).2.trace =
      s.trace ++ (if n.Cache.1.isSome then [] else [.digest s.h.tmp]) := by
  unfold sumHash
  split <;> simp_all

theorem store_nil (x : Deps) (force : Bool) (s : State) :
    store x .nil force s = (.ok (.nil, none), s) := rfl

theorem store_hash (x : Deps) (h : Bytes) (force : Bool) (s : State) :
    store x (.hash h) force s = (.ok (.hash h, none), s) := rfl

theorem store_encode_none (x : Deps) (n : Node) (force : Bool) (s : State)
    (hn : n.isNil = false) (hh : n.isHash = false) (he : x.encode n = none) :
    store x n force s = (.panic .encodeError, { s with h := { s.h with tmp := [] } }) := by
  cases n <;> simp_all [store, Node.isNil, Node.isHash]

theorem store_inline (x : Deps) (n : Node) (s : State) (blob : Bytes)
    (hn : n.isNil = false) (hh : n.isHash = false) (he : x.encode n = some blob)
    (hl : blob.length < 32) :
    store x n false s = (.ok (n, none), s.encoded n blob) := by
  cases n <;> simp_all [store, Node.isNil, Node.isHash]

theorem store_hashed (x : Deps) (n : Node) (force : Bool) (s : State) (blob : Bytes)
    (hn : n.isNil = false) (hh : n.isHash = false) (he : x.encode n = some blob)
    (hl : 32 ≤ blob.length ∨ force = true) :
    store x n force s = (.ok (.hash (storedHash x n blob), none),
      persist x n (storedHash x n blob) (sumHash x n (s.encoded n blob)).2) := by
  have hc : ¬ (blob.length < 32 ∧ force = false) := by
    rintro ⟨h1, h2⟩
    rcases hl with h | h
    · omega
    · simp [h] at h2
  cases n <;> simp_all [store, Node.isNil, Node.isHash, sumHash_fst]

theorem store_no_error (x : Deps) (n : Node) (force : Bool) (s : State) (r : Node)
    (e : Error) (s' : State) : store x n force s ≠ (.ok (r, some e), s') := by
  intro h
  unfold store at h
  split at h
  · simp at h
  · simp at h
  · split at h
    · simp at h
    · simp only [] at h
      split at h <;> simp at h

theorem refEvents_filter_reference (x : Deps) (key : Bytes) (cs : List Node) :
    (refEvents x key cs).filter Event.isReference = refEvents x key cs := by
  induction cs with
  | nil => rfl
  | cons c cs ih => cases c <;> simp [refEvents, ih, Event.isReference]

theorem refEvents_filter_insert (x : Deps) (key : Bytes) (cs : List Node) :
    (refEvents x key cs).filter Event.isInsert = [] := by
  induction cs with
  | nil => rfl
  | cons c cs ih => cases c <;> simp [refEvents, ih, Event.isInsert]

theorem refEvents_filter_onleaf (x : Deps) (key : Bytes) (cs : List Node) :
    (refEvents x key cs).filter Event.isOnleaf = [] := by
  induction cs with
  | nil => rfl
  | cons c cs ih => cases c <;> simp [refEvents, ih, Event.isOnleaf]

theorem refEvents_filter_encode (x : Deps) (key : Bytes) (cs : List Node) :
    (refEvents x key cs).filter Event.isEncode = [] := by
  induction cs with
  | nil => rfl
  | cons c cs ih => cases c <;> simp [refEvents, ih, Event.isEncode]

theorem leafEvents_filter_reference (key : Bytes) (cs : List Node) :
    (leafEvents key cs).filter Event.isReference = [] := by
  induction cs with
  | nil => rfl
  | cons c cs ih => cases c <;> simp [leafEvents, ih, Event.isReference]

theorem leafEvents_filter_insert (key : Bytes) (cs : List Node) :
    (leafEvents key cs).filter Event.isInsert = [] := by
  induction cs with
  | nil => rfl
  | cons c cs ih => cases c <;> simp [leafEvents, ih, Event.isInsert]

theorem leafEvents_filter_onleaf (key : Bytes) (cs : List Node) :
    (leafEvents key cs).filter Event.isOnleaf = leafEvents key cs := by
  induction cs with
  | nil => rfl
  | cons c cs ih => cases c <;> simp [leafEvents, ih, Event.isOnleaf]

theorem leafEvents_filter_encode (key : Bytes) (cs : List Node) :
    (leafEvents key cs).filter Event.isEncode = [] := by
  induction cs with
  | nil => rfl
  | cons c cs ih => cases c <;> simp [leafEvents, ih, Event.isEncode]

theorem refEvents_eq_map (x : Deps) (key : Bytes) (cs : List Node) :
    refEvents x key cs =
      (cs.filterMap Node.asHash).map fun c => Event.reference (x.bytesToHash c) key := by
  induction cs with
  | nil => rfl
  | cons c cs ih => cases c <;> simp [refEvents, ih, Node.asHash]

theorem refEvents_storeSlots (x : Deps) (key : Bytes) (n : Node) :
    refEvents x key (storeSlots n) =
      n.hashRefs.map fun c => Event.reference (x.bytesToHash c) key := by
  cases n <;> simp [storeSlots, Node.hashRefs, refEvents_eq_map, refEvents]

theorem persistEvents_filter_reference (x : Deps) (n : Node) (hash blob : Bytes) (ol : Bool) :
    (persistEvents x n hash blob ol).filter Event.isReference =
      n.hashRefs.map fun c => Event.reference (x.bytesToHash c) (x.bytesToHash hash) := by
  cases ol <;>
  simp [persistEvents, List.filter_append, refEvents_filter_reference,
    leafEvents_filter_reference, refEvents_storeSlots, Event.isReference]

theorem persistEvents_filter_insert (x : Deps) (n : Node) (hash blob : Bytes) (ol : Bool) :
    (persistEvents x n hash blob ol).filter Event.isInsert =
      [.insert (x.bytesToHash hash) blob] := by
  cases ol <;>
  simp [persistEvents, List.filter_append, refEvents_filter_insert,
    leafEvents_filter_insert, Event.isInsert]

/-- The trace of a `store` call that hashes the node (encoding of at least 32
bytes, or `force`). -/
theorem store_hashed_trace (x : Deps) (n : Node) (force : Bool) (s : State) (blob : Bytes)
    (hn : n.isNil = false) (hh : n.isHash = false) (he : x.encode n = some blob)
    (hl : 32 ≤ blob.length ∨ force = true) :
    (store x n force s).2.trace = s.trace ++ ([.encode n blob] ++
      (if n.Cache.1.isSome then [] else [.digest blob]) ++
      (if s.db.isSome then persistEvents x n (storedHash x n blob) blob s.h.onleaf else [])) := by
  rw [store_hashed x n force s blob hn hh he hl]
  cases hd : s.db with
  | none =>
    rw [persist_none _ _ _ _ (by simp [sumHash_db, hd])]
    simp [sumHash_trace]
  | some d =>
    rw [persist_trace x n _ _ d (by simp [sumHash_db, hd])]
    simp [sumHash_trace, sumHash_tmp, sumHash_onleaf]

/-- C2: when the encoding of `n` is shorter than 32 bytes and `force` is false,
`store` returns `n` itself with a nil error, leaves the database as it was, and
the only call it makes is the encoding of `n`: no insert, no reference, no leaf
callback. -/
theorem store_small_returns_node (x : Deps) (n : Node) (s : State) (blob : Bytes)
    (he : x.encode n = some blob) (hl : blob.length < 32) :
    (store x n false s).1 = .ok (n, none) ∧
    (store x n false s).2.db = s.db ∧
    ∃ evs, (store x n false s).2.trace = s.trace ++ evs ∧
      ∀ e ∈ evs, e = .encode n blob := by
  by_cases hn : n.isNil = true
  · cases n <;> simp_all [Node.isNil, store_nil]
  by_cases hh : n.isHash = true
  · cases n <;> simp_all [Node.isHash, store_hash]
  rw [store_inline x n s blob (by simpa using hn) (by simpa using hh) he hl]
  exact ⟨rfl, rfl, [.encode n blob], rfl, by simp⟩

/-- C5: on a node that carries a cached hash and is not dirty, `hash` returns
the cached hash with a nil error; the cached result is the node itself, or the
hash when a database is attached and the node can be unloaded; the state is
left as it was (no encoding, insert, reference or leaf callback), except for
the unload counter in the unload case. -/
theorem hash_clean_cached (x : Deps) (n : Node) (force : Bool) (s : State) (hh : Bytes)
    (hc : n.Cache = (some hh, false)) :
    hash x n force s =
      if s.db.isSome && x.canUnload n s.h.cachegen s.h.cachelimit then
        (.ok (.hash hh, .hash hh, none), s.emit .unload)
      else (.ok (.hash hh, n, none), s) := by
  cases n with
  | short k v f =>
    simp only [Node.Cache, Prod.mk.injEq] at hc
    cases hd : s.db <;> simp [hash, hashWith, Node.Cache, hc, hd]
  | full cs f =>
    simp only [Node.Cache, Prod.mk.injEq] at hc
    cases hd : s.db <;> simp [hash, hashWith, Node.Cache, hc, hd]
  | nil => simp [Node.Cache] at hc
  | hash h => simp [Node.Cache] at hc
  | value v => simp [Node.Cache] at hc

/-- C6: when `store` persists a `ShortNode` or `FullNode` (database attached;
encoding of at least 32 bytes, or `force`), the calls it makes contain exactly
one insert, of the encoding under the node's hash, and the reference calls are
exactly `reference(child, hash)` for the direct `HashNode` children, in slot
order, and no others. -/
theorem store_references_hash_children (x : Deps) (n : Node) (force : Bool) (s : State)
    (d : Database) (blob : Bytes) (hb : n.isBranch = true) (hd : s.db = some d)
    (he : x.encode n = some blob) (hl : 32 ≤ blob.length ∨ force = true) :
    ∃ evs, (store x n force s).2.trace = s.trace ++ evs ∧
      evs.filter Event.isInsert = [.insert (x.bytesToHash (storedHash x n blob)) blob] ∧
      evs.filter Event.isReference = n.hashRefs.map fun c =>
        Event.reference (x.bytesToHash c) (x.bytesToHash (storedHash x n blob)) := by
  have hn : n.isNil = false := by cases n <;> simp_all [Node.isBranch, Node.isNil]
  have hh : n.isHash = false := by cases n <;> simp_all [Node.isBranch, Node.isHash]
  refine ⟨_, store_hashed_trace x n force s blob hn hh he hl, ?_, ?_⟩
  · simp only [hd, Option.isSome_some, if_true, List.filter_append,
      persistEvents_filter_insert]
    split <;> simp [Event.isInsert]
  · simp only [hd, Option.isSome_some, if_true, List.filter_append,
      persistEvents_filter_reference]
    split <;> simp [Event.isReference]

/-- Structural induction over node trees, the slots of a `FullNode` included. -/
theorem Node.induction {P : Node → Prop} (hnil : P .nil)
    (hshort : ∀ k v f, P v → P (.short k v f))
    (hfull : ∀ cs f, (∀ c ∈ cs, P c) → P (.full cs f))
    (hhash : ∀ h, P (.hash h)) (hvalue : ∀ v, P (.value v)) : ∀ n, P n := by
  intro n
  refine Node.rec (motive_1 := P) (motive_2 := fun cs => ∀ c ∈ cs, P c)
    hnil hshort hfull hhash hvalue ?_ ?_ n
  · intro c hc
    cases hc
  · intro c cs h1 h2 d hd
    rcases List.mem_cons.1 hd with rfl | h
    · exact h1
    · exact h2 d h

theorem hash_eq (x : Deps) (n : Node) (force : Bool) (s : State) :
    hash x n force s = hashWith x (hashChildren x n) n force s := rfl

theorem hashChildren_short_value (x : Deps) (k v : Bytes) (f : NodeFlag) (s : State) :
    hashChildren x (.short k (.value v) f) s =
      (.ok (.short (x.hexToCompact k) (.value v) f, .short k (.value v) f, none), s) := rfl

theorem hashChildren_short (x : Deps) (k : Bytes) (v : Node) (f : NodeFlag) (s : State)
    (h : v.isValue = false) :
    hashChildren x (.short k v f) s =
      match hash x v false s with
      | (.panic p, s) => (.panic p, s)
      | (.ok (_, _, some err), s) => (.ok (.short k v f, .short k v f, some err), s)
      | (.ok (cv, kv, none), s) =>
        (.ok (.short (x.hexToCompact k) (nilToEmpty cv) f, .short k kv f, none), s) := by
  cases v <;> first | rfl | simp [Node.isValue] at h

theorem hashChildren_full (x : Deps) (cs : List Node) (f : NodeFlag) (s : State) :
    hashChildren x (.full cs f) s =
      match hashLoop x cs 16 s with
      | (.panic p, s) => (.panic p, s)
      | (.ok (_, _, some err), s) => (.ok (.full cs f, .full cs f, some err), s)
      | (.ok (ccs, kcs, none), s) => (.ok (.full (fixSlot16 ccs) f, .full kcs f, none), s) := rfl

theorem hashChildren_nil (x : Deps) (s : State) :
    hashChildren x .nil s = (.ok (.nil, .nil, none), s) := rfl

theorem hashChildren_hash (x : Deps) (h : Bytes) (s : State) :
    hashChildren x (.hash h) s = (.ok (.hash h, .hash h, none), s) := rfl

theorem hashChildren_value (x : Deps) (v : Bytes) (s : State) :
    hashChildren x (.value v) s = (.ok (.value v, .value v, none), s) := rfl

theorem hashLoop_nil (x : Deps) (k : Nat) (s : State) :
    hashLoop x [] k s = (.ok ([], [], none), s) := by
  cases k <;> rfl

theorem hashLoop_zero (x : Deps) (cs : List Node) (s : State) :
    hashLoop x cs 0 s = (.ok (cs, cs, none), s) := by
  cases cs <;> rfl

theorem hashLoop_cons_nil (x : Deps) (cs : List Node) (k : Nat) (s : State) :
    hashLoop x (.nil :: cs) (k + 1) s =
      match hashLoop x cs k s with
      | (.panic p, s) => (.panic p, s)
      | (.ok (_, _, some err), s) => (.ok ([], [], some err), s)
      | (.ok (ccs, kcs, none), s) => (.ok (.value [] :: ccs, .nil :: kcs, none), s) := rfl

theorem hashLoop_cons (x : Deps) (c : Node) (cs : List Node) (k : Nat) (s : State)
    (h : c.isNil = false) :
    hashLoop x (c :: cs) (k + 1) s =
      match hash x c false s with
      | (.panic p, s) => (.panic p, s)
      | (.ok (_, _, some err), s) => (.ok ([], [], some err), s)
      | (.ok (cc, kc, none), s) =>
        match hashLoop x cs k s with
        | (.panic p, s) => (.panic p, s)
        | (.ok (_, _, some err), s) => (.ok ([], [], some err), s)
        | (.ok (ccs, kcs, none), s) => (.ok (cc :: ccs, kc :: kcs, none), s) := by
  cases c <;> first | rfl | simp [Node.isNil] at h

/-- The four ways `hash` can run. -/
theorem hash_cases (x : Deps) (n : Node) (force : Bool) (s : State) :
    (n = .nil ∧ hash x n force s = (.panic .nilDeref, s)) ∨
    (∃ hh, n.Cache.1 = some hh ∧ s.db = none ∧ hash x n force s = (.ok (.hash hh, n, none), s)) ∨
    (∃ hh, n.Cache.1 = some hh ∧ s.db.isSome = true ∧
      x.canUnload n s.h.cachegen s.h.cachelimit = true ∧
      hash x n force s = (.ok (.hash hh, .hash hh, none), s.emit .unload)) ∨
    (∃ hh, n.Cache = (some hh, false) ∧ s.db.isSome = true ∧
      x.canUnload n s.h.cachegen s.h.cachelimit = false ∧
      hash x n force s = (.ok (.hash hh, n, none), s)) ∨
    (slowPath x n s ∧ hash x n force s = hashSlow x (hashChildren x n) n force s) := by
  cases n with
  | nil => exact Or.inl ⟨rfl, rfl⟩
  | hash h => exact Or.inr (Or.inr (Or.inr (Or.inr ⟨⟨rfl, Or.inl rfl⟩, rfl⟩)))
  | value v => exact Or.inr (Or.inr (Or.inr (Or.inr ⟨⟨rfl, Or.inl rfl⟩, rfl⟩)))
  | short k v f =>
    rcases f with ⟨_ | hh, g, d⟩
    · exact Or.inr (Or.inr (Or.inr (Or.inr ⟨⟨rfl, Or.inl rfl⟩, rfl⟩)))
    · cases hd : s.db with
      | none => exact Or.inr (Or.inl ⟨hh, rfl, rfl, by simp [hash, hashWith, Node.Cache, hd]⟩)
      | some db =>
        cases hu : x.canUnload (.short k v ⟨some hh, g, d⟩) s.h.cachegen s.h.cachelimit
        · cases d
          · exact Or.inr (Or.inr (Or.inr (Or.inl ⟨hh, rfl, rfl, rfl,
              by simp [hash, hashWith, Node.Cache, hd, hu]⟩)))
          · exact Or.inr (Or.inr (Or.inr (Or.inr ⟨⟨rfl, Or.inr ⟨by simp [hd], rfl, hu⟩⟩,
              by simp [hash, hashWith, Node.Cache, hd, hu]⟩)))
        · exact Or.inr (Or.inr (Or.inl ⟨hh, rfl, rfl, rfl,
            by simp [hash, hashWith, Node.Cache, hd, hu]⟩))
  | full cs f =>
    rcases f with ⟨_ | hh, g, d⟩
    · exact Or.inr (Or.inr (Or.inr (Or.inr ⟨⟨rfl, Or.inl rfl⟩, rfl⟩)))
    · cases hd : s.db with
      | none => exact Or.inr (Or.inl ⟨hh, rfl, rfl, by simp [hash, hashWith, Node.Cache, hd]⟩)
      | some db =>
        cases hu : x.canUnload (.full cs ⟨some hh, g, d⟩) s.h.cachegen s.h.cachelimit
        · cases d
          · exact Or.inr (Or.inr (Or.inr (Or.inl ⟨hh, rfl, rfl, rfl,
              by simp [hash, hashWith, Node.Cache, hd, hu]⟩)))
          · exact Or.inr (Or.inr (Or.inr (Or.inr ⟨⟨rfl, Or.inr ⟨by simp [hd], rfl, hu⟩⟩,
              by simp [hash, hashWith, Node.Cache, hd, hu]⟩)))
        · exact Or.inr (Or.inr (Or.inl ⟨hh, rfl, rfl, rfl,
            by simp [hash, hashWith, Node.Cache, hd, hu]⟩))

/-- Induction along the recursion of `hash`, `hashChildren` and the slot loop. -/
theorem hash_induction (x : Deps)
    {P : Node → Bool → State → HashResult → Prop}
    {C : Node → State → HashResult → Prop}
    {L : List Node → Nat → State → LoopResult → Prop}
    (p_step : ∀ n force s, C n s (hashChildren x n s) → P n force s (hash x n force s))
    (c_short_value : ∀ k v f s,
      C (.short k (.value v) f) s (hashChildren x (.short k (.value v) f) s))
    (c_short : ∀ k v f s, v.isValue = false → P v false s (hash x v false s) →
      C (.short k v f) s (hashChildren x (.short k v f) s))
    (c_full : ∀ cs f s, L cs 16 s (hashLoop x cs 16 s) →
      C (.full cs f) s (hashChildren x (.full cs f) s))
    (c_nil : ∀ s, C .nil s (hashChildren x .nil s))
    (c_hash : ∀ h s, C (.hash h) s (hashChildren x (.hash h) s))
    (c_value : ∀ v s, C (.value v) s (hashChildren x (.value v) s))
    (l_nil : ∀ k s, L [] k s (hashLoop x [] k s))
    (l_zero : ∀ cs s, L cs 0 s (hashLoop x cs 0 s))
    (l_cons_nil : ∀ cs k s, L cs k s (hashLoop x cs k s) →
      L (.nil :: cs) (k + 1) s (hashLoop x (.nil :: cs) (k + 1) s))
    (l_cons : ∀ c cs k s, c.isNil = false → P c false s (hash x c false s) →
      (∀ s1, L cs k s1 (hashLoop x cs k s1)) →
      L (c :: cs) (k + 1) s (hashLoop x (c :: cs) (k + 1) s)) :
    (∀ n force s, P n force s (hash x n force s)) ∧
    (∀ n s, C n s (hashChildren x n s)) ∧
    (∀ cs k s, L cs k s (hashLoop x cs k s)) := by
  have loop : ∀ cs : List Node, (∀ c ∈ cs, ∀ s, C c s (hashChildren x c s)) →
      ∀ k s, L cs k s (hashLoop x cs k s) := by
    intro cs
    induction cs with
    | nil => intro _ k s; exact l_nil k s
    | cons c cs ih =>
      intro hc k s
      have ih' := ih (fun d hd => hc d (List.mem_cons_of_mem _ hd))
      cases k with
      | zero => exact l_zero _ s
      | succ k =>
        by_cases hn : c.isNil = true
        · cases c <;> simp [Node.isNil] at hn
          exact l_cons_nil cs k s (ih' k s)
        · exact l_cons c cs k s (by simpa using hn)
            (p_step c false s (hc c (List.mem_cons_self _ _) s)) (fun s1 => ih' k s1)
  have children : ∀ n, ∀ s, C n s (hashChildren x n s) := by
    intro n
    induction n using Node.induction with
    | hnil => exact c_nil
    | hshort k v f ih =>
      intro s
      by_cases hv : v.isValue = true
      · cases v <;> simp [Node.isValue] at hv
        exact c_short_value k _ f s
      · exact c_short k v f s (by simpa using hv) (p_step v false s (ih s))
    | hfull cs f ih => intro s; exact c_full cs f s (loop cs ih 16 s)
    | hhash h => exact c_hash h
    | hvalue v => exact c_value v
  refine ⟨fun n force s => p_step n force s (children n s), children, ?_⟩
  intro cs k s
  exact loop cs (fun c _ => children c) k s

/-- The functions `hash`, `hashChildren` and the slot loop never return an error. -/
theorem no_error (x : Deps) :
    (∀ n force s a b e s', hash x n force s = (.ok (a, b, e), s') → e = none) ∧
    (∀ n s a b e s', hashChildren x n s = (.ok (a, b, e), s') → e = none) ∧
    (∀ cs k s a b e s', hashLoop x cs k s = (.ok (a, b, e), s') → e = none) := by
  refine hash_induction x
    (P := fun n force s r => ∀ a b e s', r = (.ok (a, b, e), s') → e = none)
    (C := fun n s r => ∀ a b e s', r = (.ok (a, b, e), s') → e = none)
    (L := fun cs k s r => ∀ a b e s', r = (.ok (a, b, e), s') → e = none)
    ?_ ?_ ?_ ?_ ?_ ?_ ?_ ?_ ?_ ?_ ?_
  · intro n force s ih a b e s' h
    rcases hash_cases x n force s with ⟨_, h1⟩ | ⟨hh, _, _, h1⟩ | ⟨hh, _, _, _, h1⟩ |
      ⟨hh, _, _, _, h1⟩ | ⟨_, h1⟩
    · rw [h1] at h; simp at h
    · rw [h1] at h; simp at h; exact h.1.2.2.symm
    · rw [h1] at h; simp at h; exact h.1.2.2.symm
    · rw [h1] at h; simp at h; exact h.1.2.2.symm
    · rw [h1] at h
      unfold hashSlow at h
      split at h
      · simp at h
      · rename_i heq
        exact absurd (ih _ _ _ _ heq) (by simp)
      · split at h
        · simp at h
        · rename_i heq
          exact absurd heq (store_no_error _ _ _ _ _ _ _)
        · simp at h
          exact h.1.2.2.symm
  · intro k v f s a b e s' h
    rw [hashChildren_short_value] at h
    simp at h
    exact h.1.2.2.symm
  · intro k v f s hv ih a b e s' h
    rw [hashChildren_short x k v f s hv] at h
    split at h
    · simp at h
    · rename_i heq
      exact absurd (ih _ _ _ _ heq) (by simp)
    · simp at h
      exact h.1.2.2.symm
  · intro cs f s ih a b e s' h
    rw [hashChildren_full] at h
    split at h
    · simp at h
    · rename_i heq
      exact absurd (ih _ _ _ _ heq) (by simp)
    · simp at h
      exact h.1.2.2.symm
  · intro s a b e s' h
    rw [hashChildren_nil] at h; simp at h; exact h.1.2.2.symm
  · intro hh s a b e s' h
    rw [hashChildren_hash] at h; simp at h; exact h.1.2.2.symm
  · intro v s a b e s' h
    rw [hashChildren_value] at h; simp at h; exact h.1.2.2.symm
  · intro k s a b e s' h
    rw [hashLoop_nil] at h; simp at h; exact h.1.2.2.symm
  · intro cs s a b e s' h
    rw [hashLoop_zero] at h; simp at h; exact h.1.2.2.symm
  · intro cs k s ih a b e s' h
    rw [hashLoop_cons_nil] at h
    split at h
    · simp at h
    · rename_i heq
      exact absurd (ih _ _ _ _ heq) (by simp)
    · simp at h
      exact h.1.2.2.symm
  · intro c cs k s hc ih ihl a b e s' h
    rw [hashLoop_cons x c cs k s hc] at h
    split at h
    · simp at h
    · rename_i heq
      exact absurd (ih _ _ _ _ heq) (by simp)
    · split at h
      · simp at h
      · rename_i heq
        exact absurd (ihl _ _ _ _ _ heq) (by simp)
      · simp at h
        exact h.1.2.2.symm

theorem hashSlow_ok (x : Deps) (hc : State → HashResult) (n : Node) (force : Bool)
    (s : State) (a b : Node) (s' : State)
    (h : hashSlow x hc n force s = (.ok (a, b, none), s')) :
    ∃ col cac s1, hc s = (.ok (col, cac, none), s1) ∧
      store x col force s1 = (.ok (a, none), s') ∧ b = setFlags a s'.db cac := by
  unfold hashSlow at h
  split at h
  · simp at h
  · simp at h
  · rename_i col cac s1 heq
    split at h
    · simp at h
    · simp at h
    · rename_i hashed s2 heq2
      simp only [Prod.mk.injEq, Outcome.ok.injEq, and_true] at h
      obtain ⟨⟨rfl, rfl⟩, rfl⟩ := h
      exact ⟨col, cac, s1, heq, heq2, rfl⟩

theorem hashSlow_of_ok (x : Deps) (hc : State → HashResult) (n : Node) (force : Bool)
    (s s1 s2 : State) (col cac a : Node) (h1 : hc s = (.ok (col, cac, none), s1))
    (h2 : store x col force s1 = (.ok (a, none), s2)) :
    hashSlow x hc n force s = (.ok (a, setFlags a s2.db cac, none), s2) := by
  simp [hashSlow, h1, h2]

theorem hashSlow_of_panic (x : Deps) (hc : State → HashResult) (n : Node) (force : Bool)
    (s s1 : State) (p : Panic) (h1 : hc s = (.panic p, s1)) :
    hashSlow x hc n force s = (.panic p, s1) := by
  simp [hashSlow, h1]

theorem hashSlow_of_store_panic (x : Deps) (hc : State → HashResult) (n : Node) (force : Bool)
    (s s1 s2 : State) (col cac : Node) (p : Panic) (h1 : hc s = (.ok (col, cac, none), s1))
    (h2 : store x col force s1 = (.panic p, s2)) :
    hashSlow x hc n force s = (.panic p, s2) := by
  simp [hashSlow, h1, h2]

/-- Rule induction over the successful runs of `hash`, `hashChildren` and the
slot loop. -/
theorem hash_ok_induction (x : Deps)
    {P : Node → Bool → State → Node → Node → State → Prop}
    {C : Node → State → Node → Node → State → Prop}
    {L : List Node → Nat → State → List Node → List Node → State → Prop}
    (p_nodb : ∀ n hh force s, n.Cache.1 = some hh → s.db = none →
      P n force s (.hash hh) n s)
    (p_unload : ∀ n hh force s, n.Cache.1 = some hh → s.db.isSome = true →
      x.canUnload n s.h.cachegen s.h.cachelimit = true →
      P n force s (.hash hh) (.hash hh) (s.emit .unload))
    (p_clean : ∀ n hh force s, n.Cache = (some hh, false) → s.db.isSome = true →
      x.canUnload n s.h.cachegen s.h.cachelimit = false →
      P n force s (.hash hh) n s)
    (p_slow : ∀ n force s col cac s1 a s', slowPath x n s →
      hashChildren x n s = (.ok (col, cac, none), s1) → C n s col cac s1 →
      store x col force s1 = (.ok (a, none), s') →
      P n force s a (setFlags a s'.db cac) s')
    (c_short_value : ∀ k v f s,
      C (.short k (.value v) f) s (.short (x.hexToCompact k) (.value v) f)
        (.short k (.value v) f) s)
    (c_short : ∀ k v f s cv kv s', v.isValue = false →
      hash x v false s = (.ok (cv, kv, none), s') → P v false s cv kv s' →
      C (.short k v f) s (.short (x.hexToCompact k) (nilToEmpty cv) f) (.short k kv f) s')
    (c_full : ∀ cs f s ccs kcs s', hashLoop x cs 16 s = (.ok (ccs, kcs, none), s') →
      L cs 16 s ccs kcs s' → C (.full cs f) s (.full (fixSlot16 ccs) f) (.full kcs f) s')
    (c_nil : ∀ s, C .nil s .nil .nil s)
    (c_hash : ∀ h s, C (.hash h) s (.hash h) (.hash h) s)
    (c_value : ∀ v s, C (.value v) s (.value v) (.value v) s)
    (l_nil : ∀ k s, L [] k s [] [] s)
    (l_zero : ∀ cs s, L cs 0 s cs cs s)
    (l_cons_nil : ∀ cs k s ccs kcs s', hashLoop x cs k s = (.ok (ccs, kcs, none), s') →
      L cs k s ccs kcs s' → L (.nil :: cs) (k + 1) s (.value [] :: ccs) (.nil :: kcs) s')
    (l_cons : ∀ c cs k s cc kc s1 ccs kcs s', c.isNil = false →
      hash x c false s = (.ok (cc, kc, none), s1) → P c false s cc kc s1 →
      hashLoop x cs k s1 = (.ok (ccs, kcs, none), s') → L cs k s1 ccs kcs s' →
      L (c :: cs) (k + 1) s (cc :: ccs) (kc :: kcs) s') :
    (∀ n force s a b e s', hash x n force s = (.ok (a, b, e), s') → P n force s a b s') ∧
    (∀ n s a b e s', hashChildren x n s = (.ok (a, b, e), s') → C n s a b s') ∧
    (∀ cs k s a b e s', hashLoop x cs k s = (.ok (a, b, e), s') → L cs k s a b s') := by
  obtain ⟨ne1, ne2, ne3⟩ := no_error x
  refine hash_induction x
    (P := fun n force s r => ∀ a b e s', r = (.ok (a, b, e), s') → P n force s a b s')
    (C := fun n s r => ∀ a b e s', r = (.ok (a, b, e), s') → C n s a b s')
    (L := fun cs k s r => ∀ a b e s', r = (.ok (a, b, e), s') → L cs k s a b s')
    ?_ ?_ ?_ ?_ ?_ ?_ ?_ ?_ ?_ ?_ ?_
  · intro n force s ih a b e s' h
    have he : e = none := ne1 _ _ _ _ _ _ _ h
    subst he
    rcases hash_cases x n force s with ⟨_, h1⟩ | ⟨hh, c1, c2, h1⟩ | ⟨hh, c1, c2, c3, h1⟩ |
      ⟨hh, c1, c2, c3, h1⟩ | ⟨c1, h1⟩
    · rw [h1] at h; simp at h
    · rw [h1] at h
      simp only [Prod.mk.injEq, Outcome.ok.injEq, and_true] at h
      obtain ⟨⟨rfl, rfl⟩, rfl⟩ := h
      exact p_nodb _ _ _ _ c1 c2
    · rw [h1] at h
      simp only [Prod.mk.injEq, Outcome.ok.injEq, and_true] at h
      obtain ⟨⟨rfl, rfl⟩, rfl⟩ := h
      exact p_unload _ _ _ _ c1 c2 c3
    · rw [h1] at h
      simp only [Prod.mk.injEq, Outcome.ok.injEq, and_true] at h
      obtain ⟨⟨rfl, rfl⟩, rfl⟩ := h
      exact p_clean _ _ _ _ c1 c2 c3
    · rw [h1] at h
      obtain ⟨col, cac, s1, h2, h3, rfl⟩ := hashSlow_ok _ _ _ _ _ _ _ _ h
      exact p_slow _ _ _ _ _ _ _ _ c1 h2 (ih _ _ _ _ h2) h3
  · intro k v f s a b e s' h
    rw [hashChildren_short_value] at h
    simp only [Prod.mk.injEq, Outcome.ok.injEq] at h
    obtain ⟨⟨rfl, rfl, _⟩, rfl⟩ := h
    exact c_short_value _ _ _ _
  · intro k v f s hv ih a b e s' h
    rw [hashChildren_short x k v f s hv] at h
    split at h
    · simp at h
    · rename_i heq
      exact absurd (ne1 _ _ _ _ _ _ _ heq) (by simp)
    · rename_i cv kv s1 heq
      simp only [Prod.mk.injEq, Outcome.ok.injEq] at h
      obtain ⟨⟨rfl, rfl, _⟩, rfl⟩ := h
      exact c_short _ _ _ _ _ _ _ hv heq (ih _ _ _ _ heq)
  · intro cs f s ih a b e s' h
    rw [hashChildren_full] at h
    split at h
    · simp at h
    · rename_i heq
      exact absurd (ne3 _ _ _ _ _ _ _ heq) (by simp)
    · rename_i ccs kcs s1 heq
      simp only [Prod.mk.injEq, Outcome.ok.injEq] at h
      obtain ⟨⟨rfl, rfl, _⟩, rfl⟩ := h
      exact c_full _ _ _ _ _ _ heq (ih _ _ _ _ heq)
  · intro s a b e s' h
    rw [hashChildren_nil] at h
    simp only [Prod.mk.injEq, Outcome.ok.injEq] at h
    obtain ⟨⟨rfl, rfl, _⟩, rfl⟩ := h
    exact c_nil _
  · intro hh s a b e s' h
    rw [hashChildren_hash] at h
    simp only [Prod.mk.injEq, Outcome.ok.injEq] at h
    obtain ⟨⟨rfl, rfl, _⟩, rfl⟩ := h
    exact c_hash _ _
  · intro v s a b e s' h
    rw [hashChildren_value] at h
    simp only [Prod.mk.injEq, Outcome.ok.injEq] at h
    obtain ⟨⟨rfl, rfl, _⟩, rfl⟩ := h
    exact c_value _ _
  · intro k s a b e s' h
    rw [hashLoop_nil] at h
    simp only [Prod.mk.injEq, Outcome.ok.injEq] at h
    obtain ⟨⟨rfl, rfl, _⟩, rfl⟩ := h
    exact l_nil _ _
  · intro cs s a b e s' h
    rw [hashLoop_zero] at h
    simp only [Prod.mk.injEq, Outcome.ok.injEq] at h
    obtain ⟨⟨rfl, rfl, _⟩, rfl⟩ := h
    exact l_zero _ _
  · intro cs k s ih a b e s' h
    rw [hashLoop_cons_nil] at h
    split at h
    · simp at h
    · rename_i heq
      exact absurd (ne3 _ _ _ _ _ _ _ heq) (by simp)
    · rename_i ccs kcs s1 heq
      simp only [Prod.mk.injEq, Outcome.ok.injEq] at h
      obtain ⟨⟨rfl, rfl, _⟩, rfl⟩ := h
      exact l_cons_nil _ _ _ _ _ _ heq (ih _ _ _ _ heq)
  · intro c cs k s hc ih ihl a b e s' h
    rw [hashLoop_cons x c cs k s hc] at h
    split at h
    · simp at h
    · rename_i heq
      exact absurd (ne1 _ _ _ _ _ _ _ heq) (by simp)
    · rename_i cc kc s1 heq
      split at h
      · simp at h
      · rename_i heq2
        exact absurd (ne3 _ _ _ _ _ _ _ heq2) (by simp)
      · rename_i ccs kcs s2 heq2
        simp only [Prod.mk.injEq, Outcome.ok.injEq] at h
        obtain ⟨⟨rfl, rfl, _⟩, rfl⟩ := h
        exact l_cons _ _ _ _ _ _ _ _ _ _ hc heq (ih _ _ _ _ heq) heq2 (ihl _ _ _ _ _ heq2)

/-- An invariant of the state that `store` (on the collapsed form of each node
that is walked) and the unload counter preserve is preserved by `hash`,
`hashChildren` and the slot loop, whether they return or panic. `T` is a
property of the tree that its subtrees inherit. -/
theorem hash_invariant (x : Deps) (T : Node → Prop) (I : State → Prop)
    (t_short : ∀ k v f, T (.short k v f) → T v)
    (t_full : ∀ cs f c, T (.full cs f) → c ∈ cs → T c)
    (i_unload : ∀ s, I s → I (s.emit .unload))
    (i_store : ∀ n force s col cac s1, T n → slowPath x n s →
      hashChildren x n s = (.ok (col, cac, none), s1) → I s1 → I (store x col force s1).2) :
    (∀ n force s, T n → I s → I (hash x n force s).2) ∧
    (∀ n s, T n → I s → I (hashChildren x n s).2) ∧
    (∀ cs k s, (∀ c ∈ cs, T c) → I s → I (hashLoop x cs k s).2) := by
  refine hash_induction x
    (P := fun n _ s r => T n → I s → I r.2)
    (C := fun n s r => T n → I s → I r.2)
    (L := fun cs _ s r => (∀ c ∈ cs, T c) → I s → I r.2)
    ?_ ?_ ?_ ?_ ?_ ?_ ?_ ?_ ?_ ?_ ?_
  · intro n force s ih ht hi
    rcases hash_cases x n force s with ⟨_, h1⟩ | ⟨hh, c1, c2, h1⟩ | ⟨hh, c1, c2, c3, h1⟩ |
      ⟨hh, c1, c2, c3, h1⟩ | ⟨c1, h1⟩
    · rw [h1]; exact hi
    · rw [h1]; exact hi
    · rw [h1]; exact i_unload s hi
    · rw [h1]; exact hi
    · rw [h1]
      have ih' := ih ht hi
      have hs := i_store n force s
      unfold hashSlow
      split
      · rename_i heq; rw [heq] at ih'; exact ih'
      · rename_i heq; rw [heq] at ih'; exact ih'
      · rename_i col cac s1 heq
        rw [heq] at ih'
        have := hs col cac s1 ht c1 heq ih'
        split
        · rename_i heq2; rw [heq2] at this; exact this
        · rename_i heq2; rw [heq2] at this; exact this
        · rename_i heq2; rw [heq2] at this; exact this
  · intro k v f s _ hi
    rw [hashChildren_short_value]; exact hi
  · intro k v f s hv ih ht hi
    rw [hashChildren_short x k v f s hv]
    have ih' := ih (t_short _ _ _ ht) hi
    split
    · rename_i heq; rw [heq] at ih'; exact ih'
    · rename_i heq; rw [heq] at ih'; exact ih'
    · rename_i heq; rw [heq] at ih'; exact ih'
  · intro cs f s ih ht hi
    rw [hashChildren_full]
    have ih' := ih (fun c hc => t_full _ _ c ht hc) hi
    split
    · rename_i heq; rw [heq] at ih'; exact ih'
    · rename_i heq; rw [heq] at ih'; exact ih'
    · rename_i heq; rw [heq] at ih'; exact ih'
  · intro s _ hi; exact hi
  · intro h s _ hi; exact hi
  · intro v s _ hi; exact hi
  · intro k s _ hi; rw [hashLoop_nil]; exact hi
  · intro cs s _ hi; rw [hashLoop_zero]; exact hi
  · intro cs k s ih ht hi
    rw [hashLoop_cons_nil]
    have ih' := ih (fun c hc => ht c (List.mem_cons_of_mem _ hc)) hi
    split
    · rename_i heq; rw [heq] at ih'; exact ih'
    · rename_i heq; rw [heq] at ih'; exact ih'
    · rename_i heq; rw [heq] at ih'; exact ih'
  · intro c cs k s hc ih ihl ht hi
    rw [hashLoop_cons x c cs k s hc]
    have ih' := ih (ht c (List.mem_cons_self _ _)) hi
    split
    · rename_i heq; rw [heq] at ih'; exact ih'
    · rename_i heq; rw [heq] at ih'; exact ih'
    · rename_i cc kc s1 heq
      rw [heq] at ih'
      have ihl' := ihl s1 (fun c hc => ht c (List.mem_cons_of_mem _ hc)) ih'
      split
      · rename_i heq2; rw [heq2] at ihl'; exact ihl'
      · rename_i heq2; rw [heq2] at ihl'; exact ihl'
      · rename_i heq2; rw [heq2] at ihl'; exact ihl'

/-- The three ways `store` can return. -/
theorem store_ok_cases (x : Deps) (n : Node) (force : Bool) (s : State) (a : Node)
    (e : Option Error) (s' : State) (h : store x n force s = (.ok (a, e), s')) :
    e = none ∧
    (((n.isNil = true ∨ n.isHash = true) ∧ a = n ∧ s' = s) ∨
     (n.isNil = false ∧ n.isHash = false ∧ ∃ blob, x.encode n = some blob ∧
        blob.length < 32 ∧ force = false ∧ a = n ∧ s' = s.encoded n blob) ∨
     (n.isNil = false ∧ n.isHash = false ∧ ∃ blob, x.encode n = some blob ∧
        (32 ≤ blob.length ∨ force = true) ∧ a = .hash (storedHash x n blob) ∧
        s' = persist x n (storedHash x n blob) (sumHash x n (s.encoded n blob)).2)) := by
  by_cases hn : n.isNil = true
  · cases n <;> simp [Node.isNil] at hn
    rw [store_nil] at h
    simp only [Prod.mk.injEq, Outcome.ok.injEq] at h
    obtain ⟨⟨rfl, rfl⟩, rfl⟩ := h
    exact ⟨rfl, Or.inl ⟨Or.inl rfl, rfl, rfl⟩⟩
  by_cases hh : n.isHash = true
  · cases n <;> simp [Node.isHash] at hh
    rw [store_hash] at h
    simp only [Prod.mk.injEq, Outcome.ok.injEq] at h
    obtain ⟨⟨rfl, rfl⟩, rfl⟩ := h
    exact ⟨rfl, Or.inl ⟨Or.inr rfl, rfl, rfl⟩⟩
  simp only [Bool.not_eq_true] at hn hh
  cases he : x.encode n with
  | none => rw [store_encode_none x n force s hn hh he] at h; simp at h
  | some blob =>
    by_cases hl : blob.length < 32 ∧ force = false
    · obtain ⟨hl1, rfl⟩ := hl
      rw [store_inline x n s blob hn hh he hl1] at h
      simp only [Prod.mk.injEq, Outcome.ok.injEq] at h
      obtain ⟨⟨rfl, rfl⟩, rfl⟩ := h
      exact ⟨rfl, Or.inr (Or.inl ⟨hn, hh, blob, rfl, hl1, rfl, rfl, rfl⟩)⟩
    · have hl' : 32 ≤ blob.length ∨ force = true := by
        by_cases h32 : blob.length < 32
        · right
          cases force
          · exact absurd ⟨h32, rfl⟩ hl
          · rfl
        · left; omega
      rw [store_hashed x n force s blob hn hh he hl'] at h
      simp only [Prod.mk.injEq, Outcome.ok.injEq] at h
      obtain ⟨⟨rfl, rfl⟩, rfl⟩ := h
      exact ⟨rfl, Or.inr (Or.inr ⟨hn, hh, blob, rfl, hl', rfl, rfl⟩)⟩

/-- The trace after `store`, in all cases: `store` appends at most the encoding,
the digest and the events of `persist`. -/
theorem store_trace (x : Deps) (n : Node) (force : Bool) (s : State) :
    (store x n force s).2.trace = s.trace ∨
    ∃ blob, x.encode n = some blob ∧ n.isNil = false ∧ n.isHash = false ∧
      ((store x n force s).2.trace = s.trace ++ [.encode n blob] ∨
       (store x n force s).2.trace = s.trace ++ ([.encode n blob] ++
        (if n.Cache.1.isSome then [] else [.digest blob]) ++
        (if s.db.isSome then persistEvents x n (storedHash x n blob) blob s.h.onleaf
          else []))) := by
  by_cases hn : n.isNil = true
  · cases n <;> simp [Node.isNil] at hn
    exact Or.inl rfl
  by_cases hh : n.isHash = true
  · cases n <;> simp [Node.isHash] at hh
    exact Or.inl rfl
  simp only [Bool.not_eq_true] at hn hh
  cases he : x.encode n with
  | none => rw [store_encode_none x n force s hn hh he]; exact Or.inl rfl
  | some blob =>
    right
    refine ⟨blob, rfl, hn, hh, ?_⟩
    by_cases hl : blob.length < 32 ∧ force = false
    · obtain ⟨hl1, rfl⟩ := hl
      rw [store_inline x n s blob hn hh he hl1]
      exact Or.inl rfl
    · have hl' : 32 ≤ blob.length ∨ force = true := by
        by_cases h32 : blob.length < 32
        · right
          cases force
          · exact absurd ⟨h32, rfl⟩ hl
          · rfl
        · left; omega
      exact Or.inr (store_hashed_trace x n force s blob hn hh he hl')

theorem insert_mem_persistEvents (x : Deps) (n : Node) (hash blob : Bytes) (ol : Bool)
    (k b : Bytes) (h : Event.insert k b ∈ persistEvents x n hash blob ol) :
    k = x.bytesToHash hash ∧ b = blob := by
  have h1 : Event.insert k b ∈ (persistEvents x n hash blob ol).filter Event.isInsert :=
    List.mem_filter.2 ⟨h, rfl⟩
  rw [persistEvents_filter_insert] at h1
  simpa using h1

/-- The collapsed and cached nodes `hashChildren` returns have the variant and
the flags of the original node. -/
theorem hashChildren_shape (x : Deps) (n : Node) (s : State) (col cac : Node)
    (e : Option Error) (s1 : State) (h : hashChildren x n s = (.ok (col, cac, e), s1)) :
    col.Cache = n.Cache ∧ cac.Cache = n.Cache ∧ col.isNil = n.isNil ∧
    col.isHash = n.isHash ∧ col.isBranch = n.isBranch ∧ cac.isBranch = n.isBranch := by
  refine (hash_ok_induction x (P := fun _ _ _ _ _ _ => True)
    (C := fun n _ col cac _ => col.Cache = n.Cache ∧ cac.Cache = n.Cache ∧
      col.isNil = n.isNil ∧ col.isHash = n.isHash ∧ col.isBranch = n.isBranch ∧
      cac.isBranch = n.isBranch)
    (L := fun _ _ _ _ _ _ => True) ?_ ?_ ?_ ?_ ?_ ?_ ?_ ?_ ?_ ?_ ?_ ?_ ?_ ?_).2.1
    n s col cac e s1 h
  all_goals intros
  all_goals trivial

theorem slowPath_noStale (x : Deps) (n : Node) (s : State) (h : slowPath x n s)
    (hn : n.noStale = true) : n.Cache.1 = none := by
  rcases h.2 with h1 | ⟨_, h2, _⟩
  · exact h1
  · cases n with
    | short k v f =>
      simp only [Node.Cache] at h2 ⊢
      cases hf : f.hash with
      | none => rfl
      | some hh => simp [Node.noStale, h2, hf] at hn
    | full cs f =>
      simp only [Node.Cache] at h2 ⊢
      cases hf : f.hash with
      | none => rfl
      | some hh => simp [Node.noStale, h2, hf] at hn
    | _ => rfl

theorem noStale_short (k : Bytes) (v : Node) (f : NodeFlag)
    (h : (Node.short k v f).noStale = true) : v.noStale = true := by
  simp only [Node.noStale, Bool.and_eq_true] at h
  exact h.2

theorem noStaleList_mem (cs : List Node) (h : Node.noStaleList cs = true) :
    ∀ c ∈ cs, c.noStale = true := by
  induction cs with
  | nil => intro c hc; cases hc
  | cons d ds ih =>
    simp only [Node.noStaleList, Bool.and_eq_true] at h
    intro c hc
    rcases List.mem_cons.1 hc with rfl | hc
    · exact h.1
    · exact ih h.2 c hc

theorem noStale_full (cs : List Node) (f : NodeFlag) (c : Node)
    (h : (Node.full cs f).noStale = true) (hc : c ∈ cs) : c.noStale = true := by
  simp only [Node.noStale, Bool.and_eq_true] at h
  exact noStaleList_mem cs h.2 c hc

/-- Every run of `hash` only appends to the trace. -/
theorem hash_trace_extends (x : Deps) (n : Node) (force : Bool) (s : State) :
    ∃ evs, (hash x n force s).2.trace = s.trace ++ evs := by
  refine (hash_invariant x (fun _ => True) (fun t => ∃ evs, t.trace = s.trace ++ evs)
    (fun _ _ _ _ => trivial) (fun _ _ _ _ _ => trivial) ?_ ?_).1 n force s trivial ⟨[], by simp⟩
  · rintro t ⟨evs, h⟩
    exact ⟨evs ++ [.unload], by simp [h]⟩
  · rintro m force t col cac s1 - - - ⟨evs, h⟩
    rcases store_trace x col force s1 with h1 | ⟨blob, _, _, _, h1 | h1⟩
    · exact ⟨evs, by rw [h1, h]⟩
    · exact ⟨evs ++ [.encode col blob], by rw [h1, h]; simp⟩
    · exact ⟨_, by rw [h1, h, List.append_assoc]⟩

theorem storeAddressed_store (x : Deps) (s0 s1 : State) (col : Node) (force : Bool)
    (h : ∃ evs, s1.trace = s0.trace ++ evs ∧ StoreAddressed x evs) :
    ∃ evs, (store x col force s1).2.trace = s0.trace ++ evs ∧ StoreAddressed x evs := by
  obtain ⟨evs, h, hg⟩ := h
  have mono : ∀ more : List Event, (∀ k b, Event.insert k b ∈ more →
      ∃ m, Event.encode m b ∈ more ∧ x.encode m = some b ∧
        k = x.bytesToHash (storedHash x m b)) → StoreAddressed x (evs ++ more) := by
    intro more hm k b hk
    rcases List.mem_append.1 hk with hk | hk
    · obtain ⟨m, h1, h2⟩ := hg k b hk
      exact ⟨m, List.mem_append_left _ h1, h2⟩
    · obtain ⟨m, h1, h2⟩ := hm k b hk
      exact ⟨m, List.mem_append_right _ h1, h2⟩
  rcases store_trace x col force s1 with h1 | ⟨blob, he, _, _, h1 | h1⟩
  · exact ⟨evs, by rw [h1, h], hg⟩
  · refine ⟨evs ++ [.encode col blob], by rw [h1, h]; simp, mono _ ?_⟩
    intro k b hk
    simp at hk
  · refine ⟨_, by rw [h1, h, List.append_assoc], mono _ ?_⟩
    intro k b hk
    have hk' : Event.insert k b ∈
        persistEvents x col (storedHash x col blob) blob s1.h.onleaf := by
      simp only [List.mem_append, List.mem_singleton] at hk
      rcases hk with (hk | hk) | hk
      · cases hk
      · split at hk <;> simp at hk
      · split at hk
        · exact hk
        · simp at hk
    obtain ⟨rfl, rfl⟩ := insert_mem_persistEvents _ _ _ _ _ _ _ hk'
    exact ⟨col, by simp, he, rfl⟩

theorem contentAddressed_store (x : Deps) (s0 s1 : State) (col : Node) (force : Bool)
    (hc : col.Cache.1 = none)
    (h : ∃ evs, s1.trace = s0.trace ++ evs ∧ ContentAddressed x evs) :
    ∃ evs, (store x col force s1).2.trace = s0.trace ++ evs ∧ ContentAddressed x evs := by
  obtain ⟨evs, h, hg⟩ := h
  have mono : ∀ more : List Event, ContentAddressed x more →
      ContentAddressed x (evs ++ more) := by
    intro more hm k b hk
    rcases List.mem_append.1 hk with hk | hk
    · exact hg k b hk
    · exact hm k b hk
  rcases store_trace x col force s1 with h1 | ⟨blob, he, _, _, h1 | h1⟩
  · exact ⟨evs, by rw [h1, h], hg⟩
  · refine ⟨evs ++ [.encode col blob], by rw [h1, h]; simp, mono _ ?_⟩
    intro k b hk
    simp at hk
  · refine ⟨_, by rw [h1, h, List.append_assoc], mono _ ?_⟩
    intro k b hk
    have hk' : Event.insert k b ∈
        persistEvents x col (storedHash x col blob) blob s1.h.onleaf := by
      simp only [List.mem_append, List.mem_singleton] at hk
      rcases hk with (hk | hk) | hk
      · cases hk
      · split at hk <;> simp at hk
      · split at hk
        · exact hk
        · simp at hk
    obtain ⟨rfl, rfl⟩ := insert_mem_persistEvents _ _ _ _ _ _ _ hk'
    simp [storedHash, hc]

/-- C1 (amended): in every run of `hash`, returning or not, each pair `hash`
inserts into the database is the encoding of a collapsed node that was encoded
in this run, keyed by the hash `store` gives that node: its cached hash when
the node carries one, the digest of the encoding otherwise. When no dirty node
of the tree carries a cached hash, every key is the digest of the bytes
inserted. -/
theorem hash_inserts_addressed (x : Deps) (n : Node) (force : Bool) (s : State) :
    ∃ evs, (hash x n force s).2.trace = s.trace ++ evs ∧ StoreAddressed x evs ∧
      (n.noStale = true → ContentAddressed x evs) := by
  have h1 : ∃ evs, (hash x n force s).2.trace = s.trace ++ evs ∧ StoreAddressed x evs := by
    refine (hash_invariant x (fun _ => True)
      (fun t => ∃ evs, t.trace = s.trace ++ evs ∧ StoreAddressed x evs)
      (fun _ _ _ _ => trivial) (fun _ _ _ _ _ => trivial) ?_ ?_).1 n force s trivial
      ⟨[], by simp, by intro k b hk; cases hk⟩
    · rintro t ⟨evs, h, hg⟩
      refine ⟨evs ++ [.unload], by simp [h], ?_⟩
      intro k b hk
      simp only [List.mem_append, List.mem_singleton] at hk
      rcases hk with hk | hk
      · obtain ⟨m, h1, h2⟩ := hg k b hk
        exact ⟨m, List.mem_append_left _ h1, h2⟩
      · cases hk
    · intro m force t col cac s1 _ _ _ hi
      exact storeAddressed_store x s s1 col force hi
  have h2 : n.noStale = true →
      ∃ evs, (hash x n force s).2.trace = s.trace ++ evs ∧ ContentAddressed x evs := by
    intro hn
    refine (hash_invariant x (fun m => m.noStale = true)
      (fun t => ∃ evs, t.trace = s.trace ++ evs ∧ ContentAddressed x evs)
      noStale_short (fun cs f c h hc => noStale_full cs f c h hc) ?_ ?_).1 n force s hn
      ⟨[], by simp, by intro k b hk; cases hk⟩
    · rintro t ⟨evs, h, hg⟩
      refine ⟨evs ++ [.unload], by simp [h], ?_⟩
      intro k b hk
      simp only [List.mem_append, List.mem_singleton] at hk
      rcases hk with hk | hk
      · exact hg k b hk
      · cases hk
    · intro m force t col cac s1 hm hs hc hi
      have hcache : col.Cache.1 = none := by
        rw [(hashChildren_shape x m t col cac none s1 hc).1]
        exact slowPath_noStale x m t hs hm
      exact contentAddressed_store x s s1 col force hcache hi
  obtain ⟨evs, he, hg⟩ := h1
  refine ⟨evs, he, hg, fun hn => ?_⟩
  obtain ⟨evs', he', hg'⟩ := h2 hn
  have : evs = evs' := List.append_cancel_left (he.symm.trans he')
  rw [this]
  exact hg'

theorem staleLeaf_trace (digest : Bytes → Bytes) (c : Bytes) :
    (hash (rlpDeps digest) (staleLeaf c) false (demoState (some Database.empty) false)).2.trace =
      [.encode (.short [49, 35] (.value (List.replicate 40 5))
          { hash := some c, gen := 0, dirty := true }) bigLeafBlob,
        .lock, .insert (bytesToHashImpl c) bigLeafBlob, .unlock] := by
  rfl

/-- C1 (counterexample): with a database attached, hashing a dirty leaf that
still carries a cached hash inserts the leaf's encoding under that cached hash.
The same encoding is thus inserted under the key of 32 zero bytes for one leaf
and under the key of 32 one bytes for the other, so whatever the digest is, the
inserts of these two runs are not both keyed by the digest of the bytes. -/
theorem stale_hash_is_insert_key :
    ¬ ∃ digest : Bytes → Bytes,
      ContentAddressed (rlpDeps digest)
        (hash (rlpDeps digest) (staleLeaf (List.replicate 32 0)) false
          (demoState (some Database.empty) false)).2.trace ∧
      ContentAddressed (rlpDeps digest)
        (hash (rlpDeps digest) (staleLeaf (List.replicate 32 1)) false
          (demoState (some Database.empty) false)).2.trace := by
  rintro ⟨digest, h0, h1⟩
  rw [staleLeaf_trace] at h0 h1
  have e0 := h0 (bytesToHashImpl (List.replicate 32 0)) bigLeafBlob (by simp)
  have e1 := h1 (bytesToHashImpl (List.replicate 32 1)) bigLeafBlob (by simp)
  have : bytesToHashImpl (List.replicate 32 0) = bytesToHashImpl (List.replicate 32 1) :=
    e0.trans e1.symm
  revert this
  decide

/-- Witness for C2: the collapsed scenario-B leaf, 8 bytes long, is returned
by `store` as it is. -/
theorem store_small_returns_node_witness :
    demoDeps.encode (smallLeafCollapsed newFlag) = some smallLeafBlob ∧
    smallLeafBlob.length < 32 ∧
    (store demoDeps (smallLeafCollapsed newFlag) false (demoState (some Database.empty) true)).1
      = .ok (smallLeafCollapsed newFlag, none) ∧
    (store demoDeps (smallLeafCollapsed newFlag) false (demoState (some Database.empty) true)).2.db
      = (demoState (some Database.empty) true).db ∧
    ∃ evs, (store demoDeps (smallLeafCollapsed newFlag) false
        (demoState (some Database.empty) true)).2.trace
        = (demoState (some Database.empty) true).trace ++ evs ∧
      ∀ e ∈ evs, e = .encode (smallLeafCollapsed newFlag) smallLeafBlob :=
  ⟨rfl, by decide,
    store_small_returns_node demoDeps (smallLeafCollapsed newFlag)
      (demoState (some Database.empty) true) smallLeafBlob rfl (by decide)⟩

/-- Witness for C5: a clean leaf with a cached hash, in a state where nothing
is unloaded. -/
theorem hash_clean_cached_witness :
    (smallLeaf (cleanFlag (demoHash 7))).Cache = (some (demoHash 7), false) ∧
    hash demoDeps (smallLeaf (cleanFlag (demoHash 7))) false (demoState (some Database.empty) true) =
      (.ok (.hash (demoHash 7), smallLeaf (cleanFlag (demoHash 7)), none),
        demoState (some Database.empty) true) :=
  ⟨rfl, hash_clean_cached demoDeps (smallLeaf (cleanFlag (demoHash 7))) false
    (demoState (some Database.empty) true) (demoHash 7) rfl⟩

/-- Witness for C6: a collapsed branch with two hash children gets two
reference calls. -/
theorem store_references_hash_children_witness :
    ∃ evs, (store demoDeps demoBranch false (demoState (some Database.empty) true)).2.trace =
        (demoState (some Database.empty) true).trace ++ evs ∧
      evs.filter Event.isInsert =
        [.insert (bytesToHashImpl (standInDigest (rlpNode demoBranch))) (rlpNode demoBranch)] ∧
      evs.filter Event.isReference =
        [.reference (demoHash 1) (bytesToHashImpl (standInDigest (rlpNode demoBranch))),
         .reference (demoHash 2) (bytesToHashImpl (standInDigest (rlpNode demoBranch)))] :=
  store_references_hash_children demoDeps demoBranch false (demoState (some Database.empty) true)
    Database.empty (rlpNode demoBranch) rfl rfl rfl (Or.inl (by decide))

theorem cache_none_slowPath (x : Deps) (n : Node) (s : State) (hn : n.isNil = false)
    (hc : n.Cache.1 = none) : slowPath x n s := ⟨hn, Or.inl hc⟩

theorem hash_of_slowPath (x : Deps) (n : Node) (force : Bool) (s : State)
    (h : slowPath x n s) : hash x n force s = hashSlow x (hashChildren x n) n force s := by
  obtain ⟨hn, hs⟩ := h
  rcases hash_cases x n force s with ⟨rfl, _⟩ | ⟨hh, c1, c2, _⟩ | ⟨hh, c1, _, c3, _⟩ |
    ⟨hh, c1, _, _, _⟩ | ⟨_, h1⟩
  · simp [Node.isNil] at hn
  · rcases hs with h | ⟨h, _, _⟩
    · rw [h] at c1; cases c1
    · rw [c2] at h; cases h
  · rcases hs with h | ⟨_, _, h⟩
    · rw [h] at c1; cases c1
    · rw [h] at c3; cases c3
  · rcases hs with h | ⟨_, h, _⟩
    · rw [c1] at h; cases h
    · rw [c1] at h; cases h
  · exact h1

/-- C3 (amended): for a non-nil node, `hash` with `force` false either
recomputes the node or returns its cached hash. When it recomputes (the node
carries no cached hash, or it is dirty, a database is attached and the node
cannot be unloaded) and the collapsed form encodes to fewer than 32 bytes, the
result is that collapsed form, not a `HashNode` (unless the node is one); the
only call made after the children are hashed is the encoding, so no database
entry is created for the node and the database is as the hashing of the
children left it. Otherwise the node carries a cached hash and `hash` returns
it as a `HashNode`, whatever the size of the encoding, making no call but the
count of an unload. -/
theorem hash_small_inlined (x : Deps) (n : Node) (s : State) (hn : n.isNil = false) :
    (slowPath x n s → ∀ col cac s1 blob, hashChildren x n s = (.ok (col, cac, none), s1) →
      x.encode col = some blob → blob.length < 32 →
      (hash x n false s).1 = .ok (col, setFlags col s1.db cac, none) ∧
      col.isHash = n.isHash ∧
      (hash x n false s).2.db = s1.db ∧
      ∃ evs, (hash x n false s).2.trace = s1.trace ++ evs ∧
        ∀ e ∈ evs, e = .encode col blob) ∧
    (¬ slowPath x n s → ∃ hh, n.Cache.1 = some hh ∧
      (hash x n false s = (.ok (.hash hh, n, none), s) ∨
        hash x n false s = (.ok (.hash hh, .hash hh, none), s.emit .unload))) := by
  constructor
  · intro hs col cac s1 blob hch he hl
    obtain ⟨-, -, c1, c2, -, -⟩ := hashChildren_shape x n s col cac none s1 hch
    rw [hash_of_slowPath x n false s hs]
    by_cases hh : n.isHash = true
    · have hcol : col.isHash = true := by rw [c2, hh]
      cases col <;> simp [Node.isHash] at hcol
      rw [hashSlow_of_ok x _ n false s s1 s1 _ cac _ hch (store_hash _ _ _ _)]
      exact ⟨rfl, c2, rfl, [], by simp, by simp⟩
    · rw [hashSlow_of_ok x _ n false s s1 _ col cac col hch
        (store_inline x col s1 blob (by rw [c1, hn]) (by rw [c2]; simpa using hh) he hl)]
      exact ⟨rfl, c2, rfl, [.encode col blob], rfl, by simp⟩
  · intro hs
    rcases hash_cases x n false s with ⟨rfl, _⟩ | ⟨hh, c1, _, h1⟩ | ⟨hh, c1, _, _, h1⟩ |
      ⟨hh, c1, _, _, h1⟩ | ⟨c1, _⟩
    · simp [Node.isNil] at hn
    · exact ⟨hh, c1, Or.inl h1⟩
    · exact ⟨hh, c1, Or.inr h1⟩
    · exact ⟨hh, by rw [c1], Or.inl h1⟩
    · exact absurd c1 hs

/-- Witness for C3: scenario B. The fresh leaf with key `[1,2,3]` and value
`"abc"` comes back inlined; so does the same leaf when it is dirty and still
carries a cached hash, and the database is unchanged. -/
theorem hash_small_inlined_witness :
    (hash demoDeps (smallLeaf newFlag) false (demoState (some Database.empty) true)).1 =
      .ok (smallLeafCollapsed newFlag,
        setFlags (smallLeafCollapsed newFlag) (some Database.empty) (smallLeaf newFlag), none) ∧
    (hash demoDeps (staleSmallLeaf (demoHash 7)) false
        (demoState (some Database.empty) true)).1 =
      .ok (smallLeafCollapsed { hash := some (demoHash 7), gen := 0, dirty := true },
        setFlags (smallLeafCollapsed { hash := some (demoHash 7), gen := 0, dirty := true })
          (some Database.empty) (staleSmallLeaf (demoHash 7)), none) ∧
    (hash demoDeps (staleSmallLeaf (demoHash 7)) false
        (demoState (some Database.empty) true)).2.db = some Database.empty :=
  ⟨(((hash_small_inlined demoDeps (smallLeaf newFlag) (demoState (some Database.empty) true)
      rfl).1 ⟨rfl, Or.inl rfl⟩) (smallLeafCollapsed newFlag) (smallLeaf newFlag)
      (demoState (some Database.empty) true) smallLeafBlob rfl rfl (by decide)).1,
    (((hash_small_inlined demoDeps (staleSmallLeaf (demoHash 7))
      (demoState (some Database.empty) true) rfl).1 ⟨rfl, Or.inr ⟨rfl, rfl, rfl⟩⟩)
      (smallLeafCollapsed { hash := some (demoHash 7), gen := 0, dirty := true })
      (staleSmallLeaf (demoHash 7)) (demoState (some Database.empty) true) smallLeafBlob
      rfl rfl (by decide)).1,
    (((hash_small_inlined demoDeps (staleSmallLeaf (demoHash 7))
      (demoState (some Database.empty) true) rfl).1 ⟨rfl, Or.inr ⟨rfl, rfl, rfl⟩⟩)
      (smallLeafCollapsed { hash := some (demoHash 7), gen := 0, dirty := true })
      (staleSmallLeaf (demoHash 7)) (demoState (some Database.empty) true) smallLeafBlob
      rfl rfl (by decide)).2.2.1⟩

/-- C3 (counterexample): the scenario-B leaf, clean and carrying a cached hash,
has a collapsed encoding of 8 bytes, yet `hash` with `force` false and a
database attached returns the cached hash as a `HashNode` in its place. -/
theorem cached_small_node_returns_hash :
    hashChildren demoDeps (smallLeaf (cleanFlag (demoHash 7)))
        (demoState (some Database.empty) true) =
      (.ok (smallLeafCollapsed (cleanFlag (demoHash 7)), smallLeaf (cleanFlag (demoHash 7)), none),
        demoState (some Database.empty) true) ∧
    demoDeps.encode (smallLeafCollapsed (cleanFlag (demoHash 7))) = some smallLeafBlob ∧
    smallLeafBlob.length < 32 ∧
    (hash demoDeps (smallLeaf (cleanFlag (demoHash 7))) false
        (demoState (some Database.empty) true)).1 =
      .ok (.hash (demoHash 7), smallLeaf (cleanFlag (demoHash 7)), none) :=
  ⟨rfl, rfl, by decide, rfl⟩

theorem Database.lookup_of_nodes (d d' : Database) (k : Bytes) (h : d'.nodes = d.nodes) :
    d'.lookup k = d.lookup k := by
  simp [Database.lookup, h]

/-- With a codec that encodes every node, `store` returns. -/
theorem store_returns (x : Deps) (henc : ∀ m, (x.encode m).isSome = true) (n : Node)
    (force : Bool) (s : State) : ∃ a s', store x n force s = (.ok (a, none), s') := by
  by_cases hn : n.isNil = true
  · cases n <;> simp [Node.isNil] at hn
    exact ⟨_, _, rfl⟩
  by_cases hh : n.isHash = true
  · cases n <;> simp [Node.isHash] at hh
    exact ⟨_, _, rfl⟩
  simp only [Bool.not_eq_true] at hn hh
  obtain ⟨blob, he⟩ := Option.isSome_iff_exists.1 (henc n)
  by_cases hl : blob.length < 32 ∧ force = false
  · obtain ⟨hl1, rfl⟩ := hl
    exact ⟨_, _, store_inline x n s blob hn hh he hl1⟩
  · have hl' : 32 ≤ blob.length ∨ force = true := by
      by_cases h32 : blob.length < 32
      · right
        cases force
        · exact absurd ⟨h32, rfl⟩ hl
        · rfl
      · left; omega
    exact ⟨_, _, store_hashed x n force s blob hn hh he hl'⟩

theorem wellFormedList_mem (cs : List Node) (h : Node.wellFormedList cs = true) :
    ∀ c ∈ cs, c.wellFormed = true := by
  induction cs with
  | nil => intro c hc; cases hc
  | cons d ds ih =>
    simp only [Node.wellFormedList, Bool.and_eq_true] at h
    intro c hc
    rcases List.mem_cons.1 hc with rfl | hc
    · exact h.1
    · exact ih h.2 c hc

/-- With a codec that encodes every node, `hash` returns on every non-nil tree
in which no `ShortNode` has a nil value; likewise `hashChildren` and the loop. -/
theorem hash_returns (x : Deps) (henc : ∀ m, (x.encode m).isSome = true) :
    (∀ n force s, n.isNil = false → n.wellFormed = true →
      ∃ a b s', hash x n force s = (.ok (a, b, none), s')) ∧
    (∀ n s, n.wellFormed = true → ∃ a b s', hashChildren x n s = (.ok (a, b, none), s')) ∧
    (∀ cs k s, (∀ c ∈ cs, c.wellFormed = true) →
      ∃ a b s', hashLoop x cs k s = (.ok (a, b, none), s')) := by
  refine hash_induction x
    (P := fun n _ _ r => n.isNil = false → n.wellFormed = true →
      ∃ a b s', r = (.ok (a, b, none), s'))
    (C := fun n _ r => n.wellFormed = true → ∃ a b s', r = (.ok (a, b, none), s'))
    (L := fun cs _ _ r => (∀ c ∈ cs, c.wellFormed = true) →
      ∃ a b s', r = (.ok (a, b, none), s'))
    ?_ ?_ ?_ ?_ ?_ ?_ ?_ ?_ ?_ ?_ ?_
  · intro n force s ih hn hw
    rcases hash_cases x n force s with ⟨rfl, _⟩ | ⟨hh, _, _, h1⟩ | ⟨hh, _, _, _, h1⟩ |
      ⟨hh, _, _, _, h1⟩ | ⟨_, h1⟩
    · simp [Node.isNil] at hn
    · exact ⟨_, _, _, h1⟩
    · exact ⟨_, _, _, h1⟩
    · exact ⟨_, _, _, h1⟩
    · obtain ⟨col, cac, s1, hc⟩ := ih hw
      obtain ⟨a, s2, hs⟩ := store_returns x henc col force s1
      rw [h1, hashSlow_of_ok x _ n force s s1 s2 col cac a hc hs]
      exact ⟨_, _, _, rfl⟩
  · intro k v f s _
    exact ⟨_, _, _, rfl⟩
  · intro k v f s hv ih hw
    simp only [Node.wellFormed, Bool.and_eq_true, Bool.not_eq_true'] at hw
    obtain ⟨cv, kv, s1, h1⟩ := ih hw.1 hw.2
    rw [hashChildren_short x k v f s hv, h1]
    exact ⟨_, _, _, rfl⟩
  · intro cs f s ih hw
    simp only [Node.wellFormed] at hw
    obtain ⟨ccs, kcs, s1, h1⟩ := ih (wellFormedList_mem cs hw)
    rw [hashChildren_full, h1]
    exact ⟨_, _, _, rfl⟩
  · intro s _; exact ⟨_, _, _, rfl⟩
  · intro h s _; exact ⟨_, _, _, rfl⟩
  · intro v s _; exact ⟨_, _, _, rfl⟩
  · intro k s _; rw [hashLoop_nil]; exact ⟨_, _, _, rfl⟩
  · intro cs s _; rw [hashLoop_zero]; exact ⟨_, _, _, rfl⟩
  · intro cs k s ih hw
    obtain ⟨ccs, kcs, s1, h1⟩ := ih (fun c hc => hw c (List.mem_cons_of_mem _ hc))
    rw [hashLoop_cons_nil, h1]
    exact ⟨_, _, _, rfl⟩
  · intro c cs k s hc ih ihl hw
    obtain ⟨cc, kc, s1, h1⟩ := ih hc (hw c (List.mem_cons_self _ _))
    obtain ⟨ccs, kcs, s2, h2⟩ := ihl s1 (fun c hc => hw c (List.mem_cons_of_mem _ hc))
    rw [hashLoop_cons x c cs k s hc, h1]
    simp only []
    rw [h2]
    exact ⟨_, _, _, rfl⟩

/-- C4: with `force` set, `store` turns every node that is neither nil nor a
`HashNode` and that the codec encodes into a `HashNode`, whatever the length of
the encoding, and with a database attached the database then holds the encoding
under that hash. Consequently `hash` with `force` set returns a `HashNode` first
(with a nil error) whenever it returns on a non-nil node, and it does return
when the codec encodes every node and no `ShortNode` of the tree has a nil
value. -/
theorem force_yields_hash (x : Deps) (n : Node) (s : State) (hn : n.isNil = false) :
    (∀ blob, n.isHash = false → x.encode n = some blob →
      (store x n true s).1 = .ok (.hash (storedHash x n blob), none) ∧
      ∀ d, s.db = some d → ∃ d', (store x n true s).2.db = some d' ∧
        d'.lookup (x.bytesToHash (storedHash x n blob)) = some blob) ∧
    (∀ a b e s', hash x n true s = (.ok (a, b, e), s') → a.isHash = true ∧ e = none) ∧
    ((∀ m, (x.encode m).isSome = true) → n.wellFormed = true →
      ∃ h b s', hash x n true s = (.ok (.hash h, b, none), s')) := by
  have part2 : ∀ a b e s', hash x n true s = (.ok (a, b, e), s') →
      a.isHash = true ∧ e = none := by
    intro a b e s' h
    have he : e = none := (no_error x).1 _ _ _ _ _ _ _ h
    subst he
    refine ⟨?_, rfl⟩
    rcases hash_cases x n true s with ⟨rfl, _⟩ | ⟨hh, _, _, h1⟩ | ⟨hh, _, _, _, h1⟩ |
      ⟨hh, _, _, _, h1⟩ | ⟨_, h1⟩
    · simp [Node.isNil] at hn
    · rw [h1] at h; simp only [Prod.mk.injEq, Outcome.ok.injEq] at h
      rw [← h.1.1]; rfl
    · rw [h1] at h; simp only [Prod.mk.injEq, Outcome.ok.injEq] at h
      rw [← h.1.1]; rfl
    · rw [h1] at h; simp only [Prod.mk.injEq, Outcome.ok.injEq] at h
      rw [← h.1.1]; rfl
    · rw [h1] at h
      obtain ⟨col, cac, s1, hc, hs, -⟩ := hashSlow_ok _ _ _ _ _ _ _ _ h
      obtain ⟨-, -, c1, c2, -, -⟩ := hashChildren_shape x n s col cac none s1 hc
      obtain ⟨-, ⟨h2 | h2, rfl, -⟩ | ⟨-, -, blob, -, -, h2, -⟩ | ⟨-, -, blob, -, -, rfl, -⟩⟩ :=
        store_ok_cases x col true s1 a none s' hs
      · rw [c1, hn] at h2; cases h2
      · exact h2
      · cases h2
      · rfl
  refine ⟨?_, part2, ?_⟩
  · intro blob hh he
    rw [store_hashed x n true s blob hn hh he (Or.inr rfl)]
    refine ⟨rfl, ?_⟩
    intro d hd
    obtain ⟨d', h1, h2⟩ := persist_db x n (storedHash x n blob)
      (sumHash x n (s.encoded n blob)).2 d (by rw [sumHash_db]; exact hd)
    refine ⟨d', h1, ?_⟩
    rw [Database.lookup_of_nodes _ _ _ h2, sumHash_tmp, encoded_tmp, Database.lookup_insert]
  · intro henc hw
    obtain ⟨a, b, s', h⟩ := (hash_returns x henc).1 n true s hn hw
    have := (part2 a b none s' h).1
    cases a <;> simp [Node.isHash] at this
    exact ⟨_, _, _, h⟩

/-- Witness for C4: the scenario-B leaf. Its collapsed form, 8 bytes long, is
stored under its digest when `force` is set, and `hash` with `force` set
returns a `HashNode`. -/
theorem force_yields_hash_witness :
    (smallLeaf newFlag).isNil = false ∧
    (store demoDeps (smallLeafCollapsed newFlag) true (demoState (some Database.empty) true)).1 =
      .ok (.hash (standInDigest smallLeafBlob), none) ∧
    (∃ d', (store demoDeps (smallLeafCollapsed newFlag) true
        (demoState (some Database.empty) true)).2.db = some d' ∧
      d'.lookup (bytesToHashImpl (standInDigest smallLeafBlob)) = some smallLeafBlob) ∧
    ∃ h b s', hash demoDeps (smallLeaf newFlag) true (demoState (some Database.empty) true) =
      (.ok (.hash h, b, none), s') :=
  ⟨rfl,
    ((force_yields_hash demoDeps (smallLeafCollapsed newFlag)
      (demoState (some Database.empty) true) rfl).1 smallLeafBlob rfl rfl).1,
    ((force_yields_hash demoDeps (smallLeafCollapsed newFlag)
      (demoState (some Database.empty) true) rfl).1 smallLeafBlob rfl rfl).2 Database.empty rfl,
    (force_yields_hash demoDeps (smallLeaf newFlag)
      (demoState (some Database.empty) true) rfl).2.2 (fun _ => rfl) rfl⟩

theorem Frame.refl (s : State) : Frame s s := ⟨rfl, rfl, rfl, rfl⟩

theorem Frame.trans {s t u : State} (h1 : Frame s t) (h2 : Frame t u) : Frame s u :=
  ⟨h2.1.trans h1.1, h2.2.1.trans h1.2.1, h2.2.2.1.trans h1.2.2.1, h2.2.2.2.trans h1.2.2.2⟩

theorem store_frame (x : Deps) (n : Node) (force : Bool) (s : State) :
    Frame s (store x n force s).2 := by
  by_cases hn : n.isNil = true
  · cases n <;> simp [Node.isNil] at hn
    exact Frame.refl s
  by_cases hh : n.isHash = true
  · cases n <;> simp [Node.isHash] at hh
    exact Frame.refl s
  simp only [Bool.not_eq_true] at hn hh
  cases he : x.encode n with
  | none => rw [store_encode_none x n force s hn hh he]; exact ⟨rfl, rfl, rfl, rfl⟩
  | some blob =>
    by_cases hl : blob.length < 32 ∧ force = false
    · obtain ⟨hl1, rfl⟩ := hl
      rw [store_inline x n s blob hn hh he hl1]
      exact ⟨rfl, rfl, rfl, rfl⟩
    · have hl' : 32 ≤ blob.length ∨ force = true := by
        by_cases h32 : blob.length < 32
        · right
          cases force
          · exact absurd ⟨h32, rfl⟩ hl
          · rfl
        · left; omega
      rw [store_hashed x n force s blob hn hh he hl']
      refine ⟨?_, ?_, ?_, ?_⟩
      · simp [persist_db_isSome, sumHash_db]
      · simp [persist_h, sumHash_cachegen]
      · simp [persist_h, sumHash_cachelimit]
      · simp [persist_h, sumHash_onleaf]

/-- Every run of `hash`, `hashChildren` and the slot loop leaves the frame
unchanged. -/
theorem hash_frame (x : Deps) (s : State) :
    (∀ n force, Frame s (hash x n force s).2) ∧
    (∀ n, Frame s (hashChildren x n s).2) ∧
    (∀ cs k, Frame s (hashLoop x cs k s).2) := by
  have h := hash_invariant x (fun _ => True) (fun t => Frame s t)
    (fun _ _ _ _ => trivial) (fun _ _ _ _ _ => trivial)
    (fun t ht => ht.trans ⟨rfl, rfl, rfl, rfl⟩)
    (fun _ force _ col _ s1 _ _ _ hi => hi.trans (store_frame x col force s1))
  exact ⟨fun n force => h.1 n force s trivial (Frame.refl s),
    fun n => h.2.1 n s trivial (Frame.refl s),
    fun cs k => h.2.2 cs k s (fun _ _ => trivial) (Frame.refl s)⟩

theorem fixSlot16_length (cs : List Node) : (fixSlot16 cs).length = cs.length := by
  unfold fixSlot16
  split <;> simp

/-- The slot loop returns as many collapsed and cached slots as it was given. -/
theorem hashLoop_length (x : Deps) (cs : List Node) (k : Nat) (s : State)
    (ccs kcs : List Node) (e : Option Error) (s' : State)
    (h : hashLoop x cs k s = (.ok (ccs, kcs, e), s')) :
    ccs.length = cs.length ∧ kcs.length = cs.length := by
  refine (hash_ok_induction x (P := fun _ _ _ _ _ _ => True)
    (C := fun _ _ _ _ _ => True)
    (L := fun cs _ _ ccs kcs _ => ccs.length = cs.length ∧ kcs.length = cs.length)
    ?_ ?_ ?_ ?_ ?_ ?_ ?_ ?_ ?_ ?_ ?_ ?_ ?_ ?_).2.2 cs k s ccs kcs e s' h
  all_goals intros
  all_goals first | trivial | simp_all

/-- The copies `hashChildren` returns for a `ShortNode`: compact key in the
collapsed copy, raw key in the cached copy, the flags of the original in both. -/
theorem hashChildren_short_ok (x : Deps) (k : Bytes) (v : Node) (f : NodeFlag) (s : State)
    (col cac : Node) (e : Option Error) (s1 : State)
    (h : hashChildren x (.short k v f) s = (.ok (col, cac, e), s1)) :
    ∃ cv kv, col = .short (x.hexToCompact k) cv f ∧ cac = .short k kv f := by
  by_cases hv : v.isValue = true
  · cases v <;> simp [Node.isValue] at hv
    rw [hashChildren_short_value] at h
    simp only [Prod.mk.injEq, Outcome.ok.injEq] at h
    exact ⟨_, _, h.1.1.symm, h.1.2.1.symm⟩
  · rw [hashChildren_short x k v f s (by simpa using hv)] at h
    split at h
    · simp at h
    · rename_i heq
      exact absurd ((no_error x).1 _ _ _ _ _ _ _ heq) (by simp)
    · simp only [Prod.mk.injEq, Outcome.ok.injEq] at h
      exact ⟨_, _, h.1.1.symm, h.1.2.1.symm⟩

/-- The copies `hashChildren` returns for a `FullNode`: as many slots as the
original, and its flags. -/
theorem hashChildren_full_ok (x : Deps) (cs : List Node) (f : NodeFlag) (s : State)
    (col cac : Node) (e : Option Error) (s1 : State)
    (h : hashChildren x (.full cs f) s = (.ok (col, cac, e), s1)) :
    ∃ ccs kcs, col = .full ccs f ∧ cac = .full kcs f ∧ ccs.length = cs.length ∧
      kcs.length = cs.length := by
  rw [hashChildren_full] at h
  split at h
  · simp at h
  · rename_i heq
    exact absurd ((no_error x).2.2 _ _ _ _ _ _ _ heq) (by simp)
  · rename_i ccs kcs s2 heq
    simp only [Prod.mk.injEq, Outcome.ok.injEq] at h
    obtain ⟨h1, h2⟩ := hashLoop_length x cs 16 s ccs kcs none s2 heq
    exact ⟨_, _, h.1.1.symm, h.1.2.1.symm, by rw [fixSlot16_length, h1], h2⟩

theorem setFlags_cache (a : Node) (db : Option Database) (cac : Node)
    (hb : cac.isBranch = true) :
    (setFlags a db cac).Cache = (a.asHash, if db.isSome then false else cac.Cache.2) := by
  cases cac <;> simp [Node.isBranch] at hb <;> cases a <;>
    simp [setFlags, Node.Cache, Node.asHash]

theorem branch_isNil {n : Node} (h : n.isBranch = true) : n.isNil = false := by
  cases n <;> simp_all [Node.isBranch, Node.isNil]

theorem branch_isHash {n : Node} (h : n.isBranch = true) : n.isHash = false := by
  cases n <;> simp_all [Node.isBranch, Node.isHash]

/-- The walk-and-store path of `hash` on a node, when it returns: the children
are hashed, the collapsed copy is stored, and the cached copy is stamped in the
state `store` left. -/
theorem hash_slow_ok (x : Deps) (n : Node) (force : Bool) (s : State) (a c : Node)
    (e : Option Error) (s' : State) (hs : slowPath x n s)
    (h : hash x n force s = (.ok (a, c, e), s')) :
    e = none ∧ ∃ col cac s1, hashChildren x n s = (.ok (col, cac, none), s1) ∧
      store x col force s1 = (.ok (a, none), s') ∧ c = setFlags a s'.db cac := by
  have he : e = none := (no_error x).1 _ _ _ _ _ _ _ h
  subst he
  rw [hash_of_slowPath x n force s hs] at h
  exact ⟨rfl, hashSlow_ok _ _ _ _ _ _ _ _ h⟩

/-- C8: when `hash` walks a `ShortNode` or `FullNode` with a database attached
and `store` turns it into the `HashNode` `H`, the first result is `H`, the
cached result is the cached copy of the node (same variant, raw key, same
generation) with `hash = H` and `dirty = false`, stamped in the state that
`store` left, and in that state the database holds the encoding of the
collapsed node under `H`. -/
theorem hash_stamps_persisted (x : Deps) (n : Node) (force : Bool) (s : State) (d : Database)
    (H : Bytes) (c : Node) (e : Option Error) (s' : State) (hb : n.isBranch = true)
    (hd : s.db = some d) (hs : slowPath x n s)
    (h : hash x n force s = (.ok (.hash H, c, e), s')) :
    c.Cache = (some H, false) ∧
    ((∃ k v f kv, n = .short k v f ∧
        c = .short k kv { hash := some H, gen := f.gen, dirty := false }) ∨
     (∃ cs f kcs, n = .full cs f ∧ kcs.length = cs.length ∧
        c = .full kcs { hash := some H, gen := f.gen, dirty := false })) ∧
    ∃ col cac s1 blob d', hashChildren x n s = (.ok (col, cac, none), s1) ∧
      x.encode col = some blob ∧ store x col force s1 = (.ok (.hash H, none), s') ∧
      c = setFlags (.hash H) s'.db cac ∧
      s'.db = some d' ∧ d'.lookup (x.bytesToHash H) = some blob := by
  obtain ⟨-, col, cac, s1, hc, hst, rfl⟩ := hash_slow_ok x n force s _ _ e s' hs h
  obtain ⟨-, -, -, -, c5, c6⟩ := hashChildren_shape x n s col cac none s1 hc
  have hcolb : col.isBranch = true := by rw [c5, hb]
  have hcacb : cac.isBranch = true := by rw [c6, hb]
  have hs1 : s1.db.isSome = true := by
    have := ((hash_frame x s).2.1 n).1
    rw [hc] at this
    simp only [] at this
    rw [this, hd]; rfl
  obtain ⟨d1, hd1⟩ := Option.isSome_iff_exists.1 hs1
  -- the store step persisted the node
  obtain ⟨-, ⟨h2 | h2, -, -⟩ | ⟨-, -, blob, -, -, -, h2, -⟩ | ⟨-, -, blob, he, -, h2, h3⟩⟩ :=
    store_ok_cases x col force s1 _ none s' hst
  · rw [branch_isNil hcolb] at h2; cases h2
  · rw [branch_isHash hcolb] at h2; cases h2
  · rw [← h2] at hcolb; simp [Node.isBranch] at hcolb
  · obtain ⟨d', hd', hn'⟩ := persist_db x col (storedHash x col blob)
      (sumHash x col (s1.encoded col blob)).2 d1 (by rw [sumHash_db]; exact hd1)
    rw [← h3] at hd'
    have hH : H = storedHash x col blob := by
      simpa using h2
    have hlook : d'.lookup (x.bytesToHash H) = some blob := by
      rw [Database.lookup_of_nodes _ _ _ hn', sumHash_tmp, encoded_tmp, hH,
        Database.lookup_insert]
    refine ⟨?_, ?_, col, cac, s1, blob, d', hc, he, hst, rfl, hd', hlook⟩
    · rw [setFlags_cache _ _ _ hcacb, hd']; rfl
    · cases n with
      | short k v f =>
        obtain ⟨cv, kv, -, rfl⟩ := hashChildren_short_ok x k v f s col cac none s1 hc
        exact Or.inl ⟨k, v, f, kv, rfl, by simp [setFlags, hd']⟩
      | full cs f =>
        obtain ⟨ccs, kcs, -, rfl, -, hl⟩ := hashChildren_full_ok x cs f s col cac none s1 hc
        exact Or.inr ⟨cs, f, kcs, rfl, hl, by simp [setFlags, hd']⟩
      | _ => simp [Node.isBranch] at hb

/-- Witness for C8: the 40-byte leaf, fresh, hashed with a database attached. -/
theorem hash_stamps_persisted_witness :
    (bigLeaf { hash := some (standInDigest bigLeafBlob), gen := 0, dirty := false }).Cache =
      (some (standInDigest bigLeafBlob), false) ∧
    ((∃ k v f kv, bigLeaf newFlag = .short k v f ∧
        bigLeaf { hash := some (standInDigest bigLeafBlob), gen := 0, dirty := false } =
          .short k kv { hash := some (standInDigest bigLeafBlob), gen := f.gen, dirty := false }) ∨
     (∃ cs f kcs, bigLeaf newFlag = .full cs f ∧ kcs.length = cs.length ∧
        bigLeaf { hash := some (standInDigest bigLeafBlob), gen := 0, dirty := false } =
          .full kcs { hash := some (standInDigest bigLeafBlob), gen := f.gen, dirty := false })) ∧
    ∃ col cac s1 blob d',
      hashChildren demoDeps (bigLeaf newFlag) (demoState (some Database.empty) false) =
        (.ok (col, cac, none), s1) ∧
      demoDeps.encode col = some blob ∧
      store demoDeps col false s1 = (.ok (.hash (standInDigest bigLeafBlob), none),
        (hash demoDeps (bigLeaf newFlag) false (demoState (some Database.empty) false)).2) ∧
      bigLeaf { hash := some (standInDigest bigLeafBlob), gen := 0, dirty := false } =
        setFlags (.hash (standInDigest bigLeafBlob))
          (hash demoDeps (bigLeaf newFlag) false (demoState (some Database.empty) false)).2.db cac ∧
      (hash demoDeps (bigLeaf newFlag) false (demoState (some Database.empty) false)).2.db =
        some d' ∧
      d'.lookup (demoDeps.bytesToHash (standInDigest bigLeafBlob)) = some blob :=
  hash_stamps_persisted demoDeps (bigLeaf newFlag) false (demoState (some Database.empty) false)
    Database.empty (standInDigest bigLeafBlob)
    (bigLeaf { hash := some (standInDigest bigLeafBlob), gen := 0, dirty := false }) none
    (hash demoDeps (bigLeaf newFlag) false (demoState (some Database.empty) false)).2
    rfl rfl ⟨rfl, Or.inl rfl⟩ rfl

/-- C9 (amended): whenever `hash` walks a `ShortNode` or `FullNode` and returns,
the flags of the cached copy are rewritten: the cached hash becomes the
`HashNode` that `store` returned, or nil when the node was inlined, and the
dirty bit is cleared when a database is attached (also for an inlined node) and
kept when none is attached. -/
theorem hash_rewrites_flags (x : Deps) (n : Node) (force : Bool) (s : State) (a c : Node)
    (e : Option Error) (s' : State) (hb : n.isBranch = true) (hs : slowPath x n s)
    (h : hash x n force s = (.ok (a, c, e), s')) :
    c.Cache = (a.asHash, if s.db.isSome then false else n.Cache.2) := by
  obtain ⟨-, col, cac, s1, hc, hst, rfl⟩ := hash_slow_ok x n force s _ _ e s' hs h
  obtain ⟨-, c2, -, -, -, c6⟩ := hashChildren_shape x n s col cac none s1 hc
  have hdb : s'.db.isSome = s.db.isSome := by
    have := ((hash_frame x s).1 n force).1
    rw [h] at this
    exact this
  rw [setFlags_cache _ _ _ (by rw [c6, hb]), hdb, c2]

/-- Witness for C9: the inlined scenario-B leaf, with a database attached. -/
theorem hash_rewrites_flags_witness :
    (smallLeaf { hash := none, gen := 0, dirty := false }).Cache =
      ((smallLeafCollapsed newFlag).asHash,
        if (demoState (some Database.empty) true).db.isSome then false
        else (smallLeaf newFlag).Cache.2) :=
  hash_rewrites_flags demoDeps (smallLeaf newFlag) false (demoState (some Database.empty) true)
    (smallLeafCollapsed newFlag) (smallLeaf { hash := none, gen := 0, dirty := false }) none
    ((demoState (some Database.empty) true).encoded (smallLeafCollapsed newFlag) smallLeafBlob)
    rfl ⟨rfl, Or.inl rfl⟩ rfl

/-- C9 (counterexample): the dirty scenario-B leaf is inlined (database attached,
`force` false), yet its cached copy comes back with the dirty bit cleared; and
the dirty 40-byte leaf hashed with no database attached comes back with a
cached hash it did not have. -/
theorem inlined_copy_loses_dirty_bit :
    (hash demoDeps (smallLeaf newFlag) false (demoState (some Database.empty) true)).1 =
      .ok (smallLeafCollapsed newFlag,
        smallLeaf { hash := none, gen := 0, dirty := false }, none) ∧
    (smallLeaf newFlag).Cache = (none, true) ∧
    (hash demoDeps (bigLeaf newFlag) false (demoState none true)).1 =
      .ok (.hash (standInDigest bigLeafBlob),
        bigLeaf { hash := some (standInDigest bigLeafBlob), gen := 0, dirty := true }, none) ∧
    (bigLeaf newFlag).Cache = (none, true) :=
  ⟨rfl, rfl, rfl, rfl⟩

theorem strip_setFlags (a : Node) (db : Option Database) (cac : Node) :
    (setFlags a db cac).strip = cac.strip := by
  cases cac <;> simp [setFlags, Node.strip]

theorem noUnload_branch (x : Deps) (gen limit : Nat) (n : Node) (hh : Bytes)
    (hc : n.Cache.1 = some hh) (h : n.noUnload x gen limit = true) :
    x.canUnload n gen limit = false := by
  cases n with
  | short k v f =>
    simp only [Node.noUnload, Bool.and_eq_true, Bool.not_eq_true'] at h
    exact h.1
  | full cs f =>
    simp only [Node.noUnload, Bool.and_eq_true, Bool.not_eq_true'] at h
    exact h.1
  | _ => simp [Node.Cache] at hc

/-- C10: when no database is attached, or no node of the tree can be unloaded,
the cached result of `hash` has the structure of the original tree: erasing the
cached hash and the dirty bit of every `ShortNode` and `FullNode` in both gives
the same tree (same variant at every position, same raw keys, values, slots and
generations). -/
theorem hash_cached_keeps_structure (x : Deps) (n : Node) (force : Bool) (s : State)
    (a b : Node) (e : Option Error) (s' : State)
    (hu : s.db = none ∨ n.noUnload x s.h.cachegen s.h.cachelimit = true)
    (h : hash x n force s = (.ok (a, b, e), s')) : b.strip = n.strip := by
  refine (hash_ok_induction x
    (P := fun n _ s _ b _ =>
      (s.db = none ∨ n.noUnload x s.h.cachegen s.h.cachelimit = true) → b.strip = n.strip)
    (C := fun n s _ cac _ =>
      (s.db = none ∨ n.noUnload x s.h.cachegen s.h.cachelimit = true) → cac.strip = n.strip)
    (L := fun cs _ s _ kcs _ =>
      (s.db = none ∨ Node.noUnloadList x s.h.cachegen s.h.cachelimit cs = true) →
        Node.stripList kcs = Node.stripList cs)
    ?_ ?_ ?_ ?_ ?_ ?_ ?_ ?_ ?_ ?_ ?_ ?_ ?_ ?_).1 n force s a b e s' h hu
  · intros; intro _; rfl
  · intro n hh force s hc hd hcu hu
    rcases hu with hu | hu
    · rw [hu] at hd; cases hd
    · rw [noUnload_branch x _ _ n hh hc hu] at hcu; cases hcu
  · intros; intro _; rfl
  · intro n force s col cac s1 a s' _ _ ih _ hu
    rw [strip_setFlags]
    exact ih hu
  · intros; intro _; rfl
  · intro k v f s cv kv s' _ _ ih hu
    have hv : s.db = none ∨ v.noUnload x s.h.cachegen s.h.cachelimit = true := by
      rcases hu with hu | hu
      · exact Or.inl hu
      · simp only [Node.noUnload, Bool.and_eq_true] at hu
        exact Or.inr hu.2
    simp only [Node.strip, ih hv]
  · intro cs f s ccs kcs s' _ ih hu
    have hv : s.db = none ∨ Node.noUnloadList x s.h.cachegen s.h.cachelimit cs = true := by
      rcases hu with hu | hu
      · exact Or.inl hu
      · simp only [Node.noUnload, Bool.and_eq_true] at hu
        exact Or.inr hu.2
    simp only [Node.strip, ih hv]
  · intros; intro _; rfl
  · intros; intro _; rfl
  · intros; intro _; rfl
  · intros; intro _; rfl
  · intros; intro _; rfl
  · intro cs k s ccs kcs s' _ ih hu
    have hv : s.db = none ∨ Node.noUnloadList x s.h.cachegen s.h.cachelimit cs = true := by
      rcases hu with hu | hu
      · exact Or.inl hu
      · simp only [Node.noUnloadList, Bool.and_eq_true] at hu
        exact Or.inr hu.2
    simp only [Node.stripList, ih hv]
  · intro c cs k s cc kc s1 ccs kcs s' _ hc ih _ ihl hu
    have hfr := (hash_frame x s).1 c false
    rw [hc] at hfr
    obtain ⟨f1, f2, f3, -⟩ := hfr
    simp only [] at f1 f2 f3
    have hv : s.db = none ∨ c.noUnload x s.h.cachegen s.h.cachelimit = true := by
      rcases hu with hu | hu
      · exact Or.inl hu
      · simp only [Node.noUnloadList, Bool.and_eq_true] at hu
        exact Or.inr hu.1
    have hvs : s1.db = none ∨
        Node.noUnloadList x s1.h.cachegen s1.h.cachelimit cs = true := by
      rcases hu with hu | hu
      · left
        rw [hu] at f1
        simpa using f1
      · simp only [Node.noUnloadList, Bool.and_eq_true] at hu
        right
        rw [f2, f3]
        exact hu.2
    simp only [Node.stripList, ih hv, ihl hvs]

/-- Witness for C10: scenario C with a database attached. The pass returns the
original tree with both nodes stamped. -/
theorem hash_cached_keeps_structure_witness :
    (hash demoDeps demoTree false (demoState (some Database.empty) false)).1 =
      .ok (.hash demoTreeHash, demoTreeCached, none) ∧
    demoTreeCached.strip = demoTree.strip :=
  ⟨rfl, hash_cached_keeps_structure demoDeps demoTree false
    (demoState (some Database.empty) false) (.hash demoTreeHash) demoTreeCached none
    (hash demoDeps demoTree false (demoState (some Database.empty) false)).2 (Or.inr rfl) rfl⟩

theorem refEvents_filter_write (x : Deps) (key : Bytes) (cs : List Node) :
    (refEvents x key cs).filter Event.isWrite = refEvents x key cs := by
  induction cs with
  | nil => rfl
  | cons c cs ih => cases c <;> simp [refEvents, ih, Event.isWrite, Event.isReference]

theorem leafEvents_filter_write (key : Bytes) (cs : List Node) :
    (leafEvents key cs).filter Event.isWrite = [] := by
  induction cs with
  | nil => rfl
  | cons c cs ih =>
    cases c <;> simp [leafEvents, ih, Event.isWrite, Event.isReference, Event.isInsert]

theorem persistEvents_filter_write (x : Deps) (n : Node) (hash blob : Bytes) (ol : Bool) :
    (persistEvents x n hash blob ol).filter Event.isWrite =
      .insert (x.bytesToHash hash) blob ::
        n.hashRefs.map fun c => Event.reference (x.bytesToHash c) (x.bytesToHash hash) := by
  cases ol <;>
  simp [persistEvents, List.filter_append, refEvents_filter_write,
    leafEvents_filter_write, refEvents_storeSlots, Event.isWrite, Event.isInsert,
    Event.isReference]

/-- Every run of `hashChildren` only appends to the trace. -/
theorem hashChildren_trace_extends (x : Deps) (n : Node) (s : State) :
    ∃ evs, (hashChildren x n s).2.trace = s.trace ++ evs := by
  refine (hash_invariant x (fun _ => True) (fun t => ∃ evs, t.trace = s.trace ++ evs)
    (fun _ _ _ _ => trivial) (fun _ _ _ _ _ => trivial) ?_ ?_).2.1 n s trivial ⟨[], by simp⟩
  · rintro t ⟨evs, h⟩
    exact ⟨evs ++ [.unload], by simp [h]⟩
  · rintro m force t col cac s1 - - - ⟨evs, h⟩
    rcases store_trace x col force s1 with h1 | ⟨blob, _, _, _, h1 | h1⟩
    · exact ⟨evs, by rw [h1, h]⟩
    · exact ⟨evs ++ [.encode col blob], by rw [h1, h]; simp⟩
    · exact ⟨_, by rw [h1, h, List.append_assoc]⟩

/-- The slot loop over leading nil slots: they become empty values in the
collapsed copy and stay nil in the cached copy. -/
theorem hashLoop_replicate_nil (x : Deps) (m k : Nat) (rest ccs kcs : List Node)
    (s s' : State) (h : hashLoop x rest k s = (.ok (ccs, kcs, none), s')) :
    hashLoop x (List.replicate m .nil ++ rest) (m + k) s =
      (.ok (List.replicate m (.value []) ++ ccs, List.replicate m .nil ++ kcs, none), s') := by
  induction m with
  | zero => simpa using h
  | succ m ih =>
    have : m + 1 + k = (m + k) + 1 := by omega
    rw [List.replicate_succ, List.cons_append, this, hashLoop_cons_nil, ih]
    rfl

/-- A leaf without a cached hash whose encoding has at least 32 bytes is hashed
and persisted. -/
theorem hash_leaf_persisted (x : Deps) (k v : Bytes) (f : NodeFlag) (s : State) (bc : Bytes)
    (hf : f.hash = none) (he : x.encode (.short (x.hexToCompact k) (.value v) f) = some bc)
    (hl : 32 ≤ bc.length) :
    hash x (.short k (.value v) f) false s =
      (.ok (.hash (x.keccak256 bc),
        setFlags (.hash (x.keccak256 bc))
          (store x (.short (x.hexToCompact k) (.value v) f) false s).2.db
          (.short k (.value v) f), none),
        (store x (.short (x.hexToCompact k) (.value v) f) false s).2) := by
  have hs : slowPath x (.short k (.value v) f) s := ⟨rfl, Or.inl hf⟩
  have hst := store_hashed x (.short (x.hexToCompact k) (.value v) f) false s bc rfl rfl he
    (Or.inl hl)
  have hh : storedHash x (.short (x.hexToCompact k) (.value v) f) bc = x.keccak256 bc := by
    simp [storedHash, Node.Cache, hf]
  rw [hh] at hst
  rw [hash_of_slowPath x _ false s hs,
    hashSlow_of_ok x _ _ false s s _ _ _ _ (hashChildren_short_value x k v f s) hst, hst]

theorem fixSlot16_oneChild (i : Nat) (hi : i < 16) (h : Bytes) :
    fixSlot16 (List.replicate i (.value []) ++
      .hash h :: (List.replicate (15 - i) (.value []) ++ [.nil])) =
    List.replicate i (.value []) ++ .hash h :: List.replicate (16 - i) (.value []) := by
  interval_cases i <;> rfl

theorem replicate_split (i : Nat) (hi : i < 16) :
    List.replicate (16 - i) Node.nil = List.replicate (15 - i) Node.nil ++ [Node.nil] := by
  interval_cases i <;> rfl

/-- The run of `hashChildren` on a branch whose only child is a leaf that gets
persisted. -/
theorem hashChildren_oneChild (x : Deps) (i : Nat) (k v : Bytes) (f fl : NodeFlag) (s : State)
    (bc : Bytes) (hi : i < 16) (hf : f.hash = none)
    (he : x.encode (.short (x.hexToCompact k) (.value v) f) = some bc)
    (hl : 32 ≤ bc.length) :
    ∃ kcs, hashChildren x (oneChildBranch i (.short k (.value v) f) fl) s =
      (.ok (oneChildCollapsed i (x.keccak256 bc) fl, .full kcs fl, none),
        (store x (.short (x.hexToCompact k) (.value v) f) false s).2) := by
  have h0 : hashLoop x [Node.nil] 0 (store x (.short (x.hexToCompact k) (.value v) f) false s).2
      = (.ok ([.nil], [.nil], none), _) := hashLoop_zero _ _ _
  have h1 := hashLoop_replicate_nil x (15 - i) 0 _ _ _ _ _ h0
  rw [← replicate_split i hi, Nat.add_zero] at h1
  have h2 : hashLoop x (.short k (.value v) f :: List.replicate (16 - i) .nil) (15 - i + 1) s =
      (.ok (.hash (x.keccak256 bc) :: (List.replicate (15 - i) (.value []) ++ [.nil]),
        setFlags (.hash (x.keccak256 bc))
          (store x (.short (x.hexToCompact k) (.value v) f) false s).2.db
          (.short k (.value v) f) :: List.replicate (16 - i) .nil, none),
        (store x (.short (x.hexToCompact k) (.value v) f) false s).2) := by
    rw [hashLoop_cons x (.short k (.value v) f) _ _ s rfl,
      hash_leaf_persisted x k v f s bc hf he hl]
    simp only []
    rw [h1]
  have h3 := hashLoop_replicate_nil x i (15 - i + 1) _ _ _ _ _ h2
  have hk : i + (15 - i + 1) = 16 := by omega
  rw [hk] at h3
  refine ⟨List.replicate i Node.nil ++
    setFlags (Node.hash (x.keccak256 bc))
      (store x (Node.short (x.hexToCompact k) (Node.value v) f) false s).2.db
      (Node.short k (Node.value v) f) :: List.replicate (16 - i) Node.nil, ?_⟩
  rw [oneChildBranch, hashChildren_full, h3]
  simp only [oneChildCollapsed, fixSlot16_oneChild i hi]

theorem hashRefs_oneChildCollapsed (i : Nat) (hi : i < 16) (h : Bytes) (fl : NodeFlag) :
    (oneChildCollapsed i h fl).hashRefs = [h] := by
  interval_cases i <;> rfl

/-- C7: children are hashed, and persisted where applicable, before their parent
is encoded. For every node that `hash` walks, all the calls made while hashing
its children (and so its descendants) come first in the trace; what follows is
the encoding of the node's collapsed form and then, if the node is persisted,
its digest, its insert, its references and its callbacks. In particular a
`FullNode` whose only non-nil child is a leaf `ShortNode` with an encoding of at
least 32 bytes (no cached hashes, database attached, the parent persisted)
makes exactly two inserts, child then parent, and exactly one
`reference(childHash, parentHash)` call. -/
theorem children_before_parent (x : Deps) :
    (∀ n force s col cac s1, slowPath x n s →
      hashChildren x n s = (.ok (col, cac, none), s1) →
      (∃ evs, s1.trace = s.trace ++ evs) ∧
      ((hash x n force s).2.trace = s1.trace ∨
        ∃ blob, x.encode col = some blob ∧
          ((hash x n force s).2.trace = s1.trace ++ [.encode col blob] ∨
           (hash x n force s).2.trace = s1.trace ++ ([.encode col blob] ++
            (if col.Cache.1.isSome then [] else [.digest blob]) ++
            (if s1.db.isSome then
              persistEvents x col (storedHash x col blob) blob s1.h.onleaf else []))))) ∧
    (∀ i k v f fl force s d bc bp, i < 16 → f.hash = none → fl.hash = none → s.db = some d →
      x.encode (.short (x.hexToCompact k) (.value v) f) = some bc → 32 ≤ bc.length →
      x.encode (oneChildCollapsed i (x.keccak256 bc) fl) = some bp →
      (32 ≤ bp.length ∨ force = true) →
      ∃ evs, (hash x (oneChildBranch i (.short k (.value v) f) fl) force s).2.trace =
          s.trace ++ evs ∧
        evs.filter Event.isWrite =
          [.insert (x.bytesToHash (x.keccak256 bc)) bc,
           .insert (x.bytesToHash (x.keccak256 bp)) bp,
           .reference (x.bytesToHash (x.keccak256 bc)) (x.bytesToHash (x.keccak256 bp))]) := by
  constructor
  · intro n force s col cac s1 hs hc
    constructor
    · have := hashChildren_trace_extends x n s
      rw [hc] at this
      exact this
    · have hst : hash x n force s = hashSlow x (hashChildren x n) n force s :=
        hash_of_slowPath x n force s hs
      have h2 : (hash x n force s).2 = (store x col force s1).2 := by
        rw [hst]
        unfold hashSlow
        rw [hc]
        simp only []
        split
        · rename_i heq; rw [heq]
        · rename_i heq; rw [heq]
        · rename_i heq; rw [heq]
      rw [h2]
      rcases store_trace x col force s1 with h1 | ⟨blob, he, _, _, h1 | h1⟩
      · exact Or.inl h1
      · exact Or.inr ⟨blob, he, Or.inl h1⟩
      · exact Or.inr ⟨blob, he, Or.inr h1⟩
  · intro i k v f fl force s d bc bp hi hf hfl hd he hl hep hlp
    obtain ⟨kcs, hch⟩ := hashChildren_oneChild x i k v f fl s bc hi hf he hl
    have hs : slowPath x (oneChildBranch i (.short k (.value v) f) fl) s :=
      ⟨rfl, Or.inl hfl⟩
    have t1 := store_hashed_trace x (.short (x.hexToCompact k) (.value v) f) false s bc
      rfl rfl he (Or.inl hl)
    have hdb1 : (store x (.short (x.hexToCompact k) (.value v) f) false s).2.db.isSome
        = true := by
      rw [(store_frame x _ false s).1, hd]; rfl
    have hst := store_hashed x (oneChildCollapsed i (x.keccak256 bc) fl) force
      (store x (.short (x.hexToCompact k) (.value v) f) false s).2 bp rfl rfl hep hlp
    have t2 := store_hashed_trace x (oneChildCollapsed i (x.keccak256 bc) fl) force
      (store x (.short (x.hexToCompact k) (.value v) f) false s).2 bp rfl rfl hep hlp
    have hfin : (hash x (oneChildBranch i (.short k (.value v) f) fl) force s).2 =
        (store x (oneChildCollapsed i (x.keccak256 bc) fl) force
          (store x (.short (x.hexToCompact k) (.value v) f) false s).2).2 := by
      rw [hash_of_slowPath x _ force s hs,
        hashSlow_of_ok x _ _ force s _ _ _ _ _ hch hst, hst]
    have hc1 : (Node.short (x.hexToCompact k) (.value v) f).Cache.1 = none := hf
    have hc2 : (oneChildCollapsed i (x.keccak256 bc) fl).Cache.1 = none := hfl
    have hr1 : (Node.short (x.hexToCompact k) (.value v) f).hashRefs = [] := rfl
    refine ⟨_, by rw [hfin, t2, t1, List.append_assoc], ?_⟩
    simp only [hd, hdb1, hc1, hc2, storedHash, Option.isSome_some, Option.isSome_none,
      if_true, List.filter_append, persistEvents_filter_write, hr1,
      hashRefs_oneChildCollapsed i hi]
    simp [Event.isWrite, Event.isInsert, Event.isReference]

/-- Witness for C7: scenario C under the concrete codec. The pass over
`demoTree` makes two inserts, the leaf then the branch, and one reference from
the branch to the leaf. -/
theorem children_before_parent_witness :
    ∃ evs, (hash demoDeps demoTree false (demoState (some Database.empty) false)).2.trace =
        [] ++ evs ∧
      evs.filter Event.isWrite =
        [.insert (bytesToHashImpl (standInDigest bigLeafBlob)) bigLeafBlob,
         .insert (bytesToHashImpl demoTreeHash) (rlpNode demoTreeCollapsed),
         .reference (bytesToHashImpl (standInDigest bigLeafBlob))
           (bytesToHashImpl demoTreeHash)] :=
  (children_before_parent demoDeps).2 3 [1, 2, 3, 16] (List.replicate 40 5) newFlag newFlag
    false (demoState (some Database.empty) false) Database.empty bigLeafBlob
    (rlpNode demoTreeCollapsed) (by decide) rfl rfl rfl rfl (by decide) rfl (Or.inl (by decide))

/-- C14: when the codec fails on the node given to `store`, `store` panics with
the encode error, returning neither a node nor an error value, and it does so
with the database and the trace as they were: nothing was inserted, no
reference was recorded and no leaf callback ran. The panic aborts the pass: the
`hash` call that made the `store` call panics with the same error, and so do
`hashChildren` and the slot loop of every enclosing node. -/
theorem store_encode_failure_aborts (x : Deps) :
    (∀ n force s, n.isNil = false → n.isHash = false → x.encode n = none →
      (store x n force s).1 = .panic .encodeError ∧
      (store x n force s).2.db = s.db ∧ (store x n force s).2.trace = s.trace) ∧
    (∀ m force s col cac s1, slowPath x m s →
      hashChildren x m s = (.ok (col, cac, none), s1) → col.isNil = false →
      col.isHash = false → x.encode col = none →
      (hash x m force s).1 = .panic .encodeError ∧
      (hash x m force s).2.db = s1.db ∧ (hash x m force s).2.trace = s1.trace) ∧
    (∀ k v f s p s', v.isValue = false → hash x v false s = (.panic p, s') →
      hashChildren x (.short k v f) s = (.panic p, s')) ∧
    (∀ c cs k s p s', c.isNil = false → hash x c false s = (.panic p, s') →
      hashLoop x (c :: cs) (k + 1) s = (.panic p, s')) ∧
    (∀ cs f s p s', hashLoop x cs 16 s = (.panic p, s') →
      hashChildren x (.full cs f) s = (.panic p, s')) ∧
    (∀ m force s p s', slowPath x m s → hashChildren x m s = (.panic p, s') →
      hash x m force s = (.panic p, s')) := by
  refine ⟨?_, ?_, ?_, ?_, ?_, ?_⟩
  · intro n force s hn hh he
    rw [store_encode_none x n force s hn hh he]
    exact ⟨rfl, rfl, rfl⟩
  · intro m force s col cac s1 hs hc hn hh he
    rw [hash_of_slowPath x m force s hs,
      hashSlow_of_store_panic x _ m force s s1 _ col cac .encodeError hc
        (store_encode_none x col force s1 hn hh he)]
    exact ⟨rfl, rfl, rfl⟩
  · intro k v f s p s' hv h
    rw [hashChildren_short x k v f s hv, h]
  · intro c cs k s p s' hc h
    rw [hashLoop_cons x c cs k s hc, h]
  · intro cs f s p s' h
    rw [hashChildren_full, h]
  · intro m force s p s' hs h
    rw [hash_of_slowPath x m force s hs, hashSlow_of_panic x _ m force s s' p h]

/-- Witness for C14: under a codec that rejects leaves with an empty value,
storing such a leaf panics and leaves the database and the trace untouched, and
so does hashing it. -/
theorem store_encode_failure_aborts_witness :
    strictDeps.encode emptyLeafCollapsed = none ∧
    store strictDeps emptyLeafCollapsed true (demoState (some Database.empty) true) =
      (.panic .encodeError, demoState (some Database.empty) true) ∧
    ((hash strictDeps emptyLeaf true (demoState (some Database.empty) true)).1 =
        .panic .encodeError ∧
      (hash strictDeps emptyLeaf true (demoState (some Database.empty) true)).2.db =
        some Database.empty ∧
      (hash strictDeps emptyLeaf true (demoState (some Database.empty) true)).2.trace = []) :=
  ⟨rfl, rfl,
    (store_encode_failure_aborts strictDeps).2.1 emptyLeaf true
      (demoState (some Database.empty) true) emptyLeafCollapsed emptyLeaf
      (demoState (some Database.empty) true) ⟨rfl, Or.inl rfl⟩ rfl rfl rfl rfl⟩

/-- C17: on a node with a cached hash, when a database is attached and the node
can be unloaded, `hash` returns the cached hash as both results with a nil
error and only counts the unload (nothing is encoded or written); when no
database is attached it returns the cached hash and the node itself, whatever
`canUnload` says and whether the node is dirty or not. -/
theorem hash_cached_unload (x : Deps) (n : Node) (force : Bool) (s : State) (hh : Bytes)
    (hc : n.Cache.1 = some hh) :
    (s.db.isSome = true → x.canUnload n s.h.cachegen s.h.cachelimit = true →
      hash x n force s = (.ok (.hash hh, .hash hh, none), s.emit .unload)) ∧
    (s.db = none → hash x n force s = (.ok (.hash hh, n, none), s)) := by
  rcases hash_cases x n force s with ⟨rfl, _⟩ | ⟨h1, c1, c2, h⟩ | ⟨h1, c1, c2, c3, h⟩ |
    ⟨h1, c1, c2, c3, h⟩ | ⟨⟨_, c1⟩, h⟩
  · simp [Node.Cache] at hc
  · rw [hc] at c1
    cases c1
    exact ⟨fun hd => (by rw [c2] at hd; cases hd), fun _ => h⟩
  · rw [hc] at c1
    cases c1
    exact ⟨fun _ _ => h, fun hd => by rw [hd] at c2; cases c2⟩
  · exact ⟨fun _ hu => (by rw [c3] at hu; cases hu), fun hd => (by rw [hd] at c2; cases c2)⟩
  · rcases c1 with c1 | ⟨c1, _, c3⟩
    · rw [hc] at c1; cases c1
    · exact ⟨fun _ hu => (by rw [c3] at hu; cases hu), fun hd => (by rw [hd] at c1; cases c1)⟩

/-- Witness for C17: a clean leaf with a cached hash is unloaded when a database
is attached and the cache limit is 0, and the dirty leaf with a cached hash is
returned as it is when no database is attached. -/
theorem hash_cached_unload_witness :
    hash demoDeps (smallLeaf (cleanFlag (demoHash 7))) false
        (unloadState (some Database.empty) true) =
      (.ok (.hash (demoHash 7), .hash (demoHash 7), none),
        (unloadState (some Database.empty) true).emit .unload) ∧
    hash demoDeps (staleLeaf (demoHash 7)) false (unloadState none true) =
      (.ok (.hash (demoHash 7), staleLeaf (demoHash 7), none), unloadState none true) :=
  ⟨(hash_cached_unload demoDeps (smallLeaf (cleanFlag (demoHash 7))) false
      (unloadState (some Database.empty) true) (demoHash 7) rfl).1 rfl rfl,
    (hash_cached_unload demoDeps (staleLeaf (demoHash 7)) false (unloadState none true)
      (demoHash 7) rfl).2 rfl⟩

theorem leafEvents_mem (key : Bytes) (cs : List Node) (e : Event)
    (h : e ∈ leafEvents key cs) : ∃ leaf, e = .onleaf leaf key ∧ Node.value leaf ∈ cs := by
  induction cs with
  | nil => cases h
  | cons c cs ih =>
    cases c with
    | value v =>
      simp only [leafEvents, List.mem_cons] at h
      rcases h with rfl | h
      · exact ⟨v, rfl, List.mem_cons_self _ _⟩
      · obtain ⟨leaf, h1, h2⟩ := ih h
        exact ⟨leaf, h1, List.mem_cons_of_mem _ h2⟩
    | _ =>
      simp only [leafEvents] at h
      obtain ⟨leaf, h1, h2⟩ := ih h
      exact ⟨leaf, h1, List.mem_cons_of_mem _ h2⟩

theorem refEvents_not_onleaf (x : Deps) (key : Bytes) (cs : List Node) :
    ∀ e ∈ refEvents x key cs, e.isOnleaf = false := by
  intro e he
  have h := refEvents_filter_onleaf x key cs
  by_contra hc
  have : e ∈ (refEvents x key cs).filter Event.isOnleaf :=
    List.mem_filter.2 ⟨he, by simpa using hc⟩
  rw [h] at this
  cases this

/-- C15: the calls `store` makes split into a first part without leaf callbacks
and a last part made of leaf callbacks only. The last part is empty unless a
callback is configured, a database is attached, and the node is neither nil nor
a `HashNode` nor inlined; otherwise the first part ends with the unlock and
contains the insert of the node under its hash (so the insert and all the
references come before any callback, and the callbacks run outside the locked
section), and every callback passes a `ValueNode` among the slots `store` looks
at (the value of a `ShortNode`, a branch slot of a `FullNode`) together with the
hash of that insert. -/
theorem store_leaf_callbacks (x : Deps) (n : Node) (force : Bool) (s : State) :
    ∃ pre post, (store x n force s).2.trace = s.trace ++ (pre ++ post) ∧
      (∀ e ∈ pre, e.isOnleaf = false) ∧
      (post = [] ∨
        (s.h.onleaf = true ∧ s.db.isSome = true ∧ n.isNil = false ∧ n.isHash = false ∧
          ∃ blob, x.encode n = some blob ∧ (32 ≤ blob.length ∨ force = true) ∧
            pre.getLast? = some .unlock ∧
            Event.insert (x.bytesToHash (storedHash x n blob)) blob ∈ pre ∧
            ∀ e ∈ post, ∃ leaf, e = .onleaf leaf (x.bytesToHash (storedHash x n blob)) ∧
              Node.value leaf ∈ storeSlots n)) := by
  by_cases hn : n.isNil = true
  · cases n <;> simp [Node.isNil] at hn
    exact ⟨[], [], by simp [store_nil], by simp, Or.inl rfl⟩
  by_cases hh : n.isHash = true
  · cases n <;> simp [Node.isHash] at hh
    exact ⟨[], [], by simp [store_hash], by simp, Or.inl rfl⟩
  simp only [Bool.not_eq_true] at hn hh
  cases he : x.encode n with
  | none =>
    rw [store_encode_none x n force s hn hh he]
    exact ⟨[], [], by simp, by simp, Or.inl rfl⟩
  | some blob =>
    by_cases hl : blob.length < 32 ∧ force = false
    · obtain ⟨hl1, rfl⟩ := hl
      rw [store_inline x n s blob hn hh he hl1]
      exact ⟨[.encode n blob], [], by simp, by simp [Event.isOnleaf], Or.inl rfl⟩
    · have hl' : 32 ≤ blob.length ∨ force = true := by
        by_cases h32 : blob.length < 32
        · right
          cases force
          · exact absurd ⟨h32, rfl⟩ hl
          · rfl
        · left; omega
      have h1 := store_hashed_trace x n force s blob hn hh he hl'
      have hfront : ∀ e ∈ [Event.encode n blob] ++
          (if n.Cache.1.isSome then [] else [Event.digest blob]), e.isOnleaf = false := by
        intro e he'
        rcases List.mem_append.1 he' with he' | he'
        · simp only [List.mem_singleton] at he'
          rw [he']; rfl
        · split at he'
          · cases he'
          · simp only [List.mem_singleton] at he'
            rw [he']; rfl
      cases hd : s.db with
      | none =>
        refine ⟨[.encode n blob] ++ (if n.Cache.1.isSome then [] else [.digest blob]), [],
          by rw [h1]; simp [hd], hfront, Or.inl rfl⟩
      | some d =>
        have hpre : ∀ e ∈ ([Event.encode n blob] ++
            (if n.Cache.1.isSome then [] else [Event.digest blob]) ++
            ([.lock, .insert (x.bytesToHash (storedHash x n blob)) blob] ++
              refEvents x (x.bytesToHash (storedHash x n blob)) (storeSlots n))) ++
            [Event.unlock], e.isOnleaf = false := by
          intro e he'
          rcases List.mem_append.1 he' with he' | he'
          · rcases List.mem_append.1 he' with he' | he'
            · exact hfront e he'
            · rcases List.mem_append.1 he' with he' | he'
              · simp only [List.mem_cons, List.mem_singleton, List.not_mem_nil, or_false] at he'
                rcases he' with rfl | rfl <;> rfl
              · exact refEvents_not_onleaf x _ _ e he'
          · simp only [List.mem_singleton] at he'
            rw [he']; rfl
        cases hol : s.h.onleaf with
        | false =>
          exact ⟨_, [], by rw [h1]; simp [hd, hol, persistEvents], hpre, Or.inl rfl⟩
        | true =>
          refine ⟨_, leafEvents (x.bytesToHash (storedHash x n blob)) (storeSlots n),
            by rw [h1]; simp [hd, hol, persistEvents], hpre,
            Or.inr ⟨rfl, rfl, hn, hh, blob, rfl, hl', List.getLast?_concat _, by simp,
              fun e he' => leafEvents_mem _ _ e he'⟩⟩

/-- Witness for C15: storing a collapsed branch with a callback configured and a
database attached. -/
theorem store_leaf_callbacks_witness :
    ∃ pre post, (store demoDeps demoBranch false (demoState (some Database.empty) true)).2.trace =
        (demoState (some Database.empty) true).trace ++ (pre ++ post) ∧
      (∀ e ∈ pre, e.isOnleaf = false) ∧
      (post = [] ∨
        ((demoState (some Database.empty) true).h.onleaf = true ∧
          (demoState (some Database.empty) true).db.isSome = true ∧
          demoBranch.isNil = false ∧ demoBranch.isHash = false ∧
          ∃ blob, demoDeps.encode demoBranch = some blob ∧ (32 ≤ blob.length ∨ false = true) ∧
            pre.getLast? = some .unlock ∧
            Event.insert (demoDeps.bytesToHash (storedHash demoDeps demoBranch blob)) blob ∈ pre ∧
            ∀ e ∈ post, ∃ leaf,
              e = .onleaf leaf (demoDeps.bytesToHash (storedHash demoDeps demoBranch blob)) ∧
              Node.value leaf ∈ storeSlots demoBranch)) :=
  store_leaf_callbacks demoDeps demoBranch false (demoState (some Database.empty) true)

/-- C16 (the code at the failing input): hashing a `FullNode` whose sixteen
branch slots are empty and whose 17th slot holds a 40-byte value, with a
database attached and a leaf callback configured, persists the node and invokes
the callback sixteen times with the empty value, once per empty branch slot,
and never with the value of the 17th slot. -/
theorem branch_callbacks_miss_value_slot :
    (hash demoDeps valueBranch false (demoState (some Database.empty) true)).2.trace.filter
        Event.isInsert = [.insert valueBranchKey (rlpNode valueBranchCollapsed)] ∧
    (hash demoDeps valueBranch false (demoState (some Database.empty) true)).2.trace.filter
        Event.isOnleaf = List.replicate 16 (.onleaf [] valueBranchKey) :=
  ⟨rfl, rfl⟩

/-- The variant of `hash_invariant` that follows only the children `hash` is
called on: the value of a `ShortNode` unless it is a `ValueNode`, and the
non-nil slots among the first sixteen of a `FullNode`. -/
theorem hash_invariant_on (x : Deps) (T : Node → Prop) (I : State → Prop)
    (t_short : ∀ k v f, T (.short k v f) → v.isValue = false → T v)
    (t_full : ∀ cs f, T (.full cs f) →
      ∀ i c, i < 16 → cs.get? i = some c → c.isNil = false → T c)
    (i_unload : ∀ s, I s → I (s.emit .unload))
    (i_store : ∀ n force s col cac s1, T n → slowPath x n s →
      hashChildren x n s = (.ok (col, cac, none), s1) → I s1 → I (store x col force s1).2) :
    (∀ n force s, T n → I s → I (hash x n force s).2) ∧
    (∀ n s, T n → I s → I (hashChildren x n s).2) := by
  have key := hash_induction x
    (P := fun n _ s r => T n → I s → I r.2)
    (C := fun n s r => T n → I s → I r.2)
    (L := fun cs k s r => (∀ i c, i < k → cs.get? i = some c → c.isNil = false → T c) →
      I s → I r.2)
    ?_ ?_ ?_ ?_ ?_ ?_ ?_ ?_ ?_ ?_ ?_
  · exact ⟨key.1, key.2.1⟩
  · intro n force s ih ht hi
    rcases hash_cases x n force s with ⟨_, h1⟩ | ⟨hh, c1, c2, h1⟩ | ⟨hh, c1, c2, c3, h1⟩ |
      ⟨hh, c1, c2, c3, h1⟩ | ⟨c1, h1⟩
    · rw [h1]; exact hi
    · rw [h1]; exact hi
    · rw [h1]; exact i_unload s hi
    · rw [h1]; exact hi
    · rw [h1]
      have ih' := ih ht hi
      have hs := i_store n force s
      unfold hashSlow
      split
      · rename_i heq; rw [heq] at ih'; exact ih'
      · rename_i heq; rw [heq] at ih'; exact ih'
      · rename_i col cac s1 heq
        rw [heq] at ih'
        have := hs col cac s1 ht c1 heq ih'
        split
        · rename_i heq2; rw [heq2] at this; exact this
        · rename_i heq2; rw [heq2] at this; exact this
        · rename_i heq2; rw [heq2] at this; exact this
  · intro k v f s _ hi
    rw [hashChildren_short_value]; exact hi
  · intro k v f s hv ih ht hi
    rw [hashChildren_short x k v f s hv]
    have ih' := ih (t_short _ _ _ ht hv) hi
    split
    · rename_i heq; rw [heq] at ih'; exact ih'
    · rename_i heq; rw [heq] at ih'; exact ih'
    · rename_i heq; rw [heq] at ih'; exact ih'
  · intro cs f s ih ht hi
    rw [hashChildren_full]
    have ih' := ih (fun i c hi' hc hn => t_full _ _ ht i c hi' hc hn) hi
    split
    · rename_i heq; rw [heq] at ih'; exact ih'
    · rename_i heq; rw [heq] at ih'; exact ih'
    · rename_i heq; rw [heq] at ih'; exact ih'
  · intro s _ hi; exact hi
  · intro h s _ hi; exact hi
  · intro v s _ hi; exact hi
  · intro k s _ hi; rw [hashLoop_nil]; exact hi
  · intro cs s _ hi; rw [hashLoop_zero]; exact hi
  · intro cs k s ih ht hi
    rw [hashLoop_cons_nil]
    have ih' := ih (fun i c hi' hc hn => ht (i + 1) c (by omega) (by simpa using hc) hn) hi
    split
    · rename_i heq; rw [heq] at ih'; exact ih'
    · rename_i heq; rw [heq] at ih'; exact ih'
    · rename_i heq; rw [heq] at ih'; exact ih'
  · intro c cs k s hc ih ihl ht hi
    rw [hashLoop_cons x c cs k s hc]
    have ih' := ih (ht 0 c (by omega) (by simp) hc) hi
    split
    · rename_i heq; rw [heq] at ih'; exact ih'
    · rename_i heq; rw [heq] at ih'; exact ih'
    · rename_i cc kc s1 heq
      rw [heq] at ih'
      have ihl' := ihl s1
        (fun i c hi' hc hn => ht (i + 1) c (by omega) (by simpa using hc) hn) ih'
      split
      · rename_i heq2; rw [heq2] at ihl'; exact ihl'
      · rename_i heq2; rw [heq2] at ihl'; exact ihl'
      · rename_i heq2; rw [heq2] at ihl'; exact ihl'

theorem noLooseValueList_get (cs : List Node) (k : Nat)
    (h : Node.noLooseValueList cs k = true) :
    ∀ i c, i < k → cs.get? i = some c → c.noLooseValue = true := by
  induction cs generalizing k with
  | nil => intro i c _ hc; simp at hc
  | cons d ds ih =>
    intro i c hi hc
    cases k with
    | zero => omega
    | succ k =>
      simp only [Node.noLooseValueList, Bool.and_eq_true] at h
      cases i with
      | zero =>
        simp only [List.get?_cons_zero, Option.some.injEq] at hc
        rw [← hc]; exact h.1
      | succ i =>
        simp only [List.get?_cons_succ] at hc
        exact ih k h.2 i c (by omega) hc

theorem noLooseValue_short (k : Bytes) (v : Node) (f : NodeFlag)
    (h : (Node.short k v f).noLooseValue = true) (hv : v.isValue = false) :
    v.noLooseValue = true := by
  simp only [Node.noLooseValue, Bool.or_eq_true] at h
  rcases h with h | h
  · rw [hv] at h; cases h
  · exact h

theorem noLooseValue_not_value (n : Node) (h : n.noLooseValue = true) : n.isValue = false := by
  cases n <;> simp_all [Node.noLooseValue, Node.isValue]

theorem isBranch_of_not (n : Node) (hn : n.isNil = false) (hh : n.isHash = false)
    (hv : n.isValue = false) : n.isBranch = true := by
  cases n <;> simp_all [Node.isNil, Node.isHash, Node.isValue, Node.isBranch]

theorem branchesOnly_store (x : Deps) (s0 s1 : State) (col : Node) (force : Bool)
    (hc : col.isValue = false)
    (h : ∃ evs, s1.trace = s0.trace ++ evs ∧ BranchesOnly evs) :
    ∃ evs, (store x col force s1).2.trace = s0.trace ++ evs ∧ BranchesOnly evs := by
  obtain ⟨evs, h, hg1, hg2⟩ := h
  have mono : ∀ more : List Event,
      (∀ m blob, Event.encode m blob ∈ more → m.isBranch = true) →
      (∀ k blob, Event.insert k blob ∈ more → ∃ m, Event.encode m blob ∈ more) →
      BranchesOnly (evs ++ more) := by
    intro more h1 h2
    constructor
    · intro m blob hm
      rcases List.mem_append.1 hm with hm | hm
      · exact hg1 m blob hm
      · exact h1 m blob hm
    · intro k blob hk
      rcases List.mem_append.1 hk with hk | hk
      · obtain ⟨m, hm⟩ := hg2 k blob hk
        exact ⟨m, List.mem_append_left _ hm⟩
      · obtain ⟨m, hm⟩ := h2 k blob hk
        exact ⟨m, List.mem_append_right _ hm⟩
  rcases store_trace x col force s1 with h1 | ⟨blob, he, hn, hh, h1 | h1⟩
  · exact ⟨evs, by rw [h1, h], hg1, hg2⟩
  · have hb : col.isBranch = true := isBranch_of_not col hn hh hc
    refine ⟨evs ++ [.encode col blob], by rw [h1, h]; simp, mono _ ?_ ?_⟩
    · intro m b hm
      simp only [List.mem_singleton, Event.encode.injEq] at hm
      rw [hm.1]; exact hb
    · intro k b hk
      simp at hk
  · have hb : col.isBranch = true := isBranch_of_not col hn hh hc
    refine ⟨_, by rw [h1, h, List.append_assoc], mono _ ?_ ?_⟩
    · intro m b hm
      have : Event.encode m b ∈ ([Event.encode col blob] ++
          (if col.Cache.1.isSome then [] else [Event.digest blob]) ++
          (if s1.db.isSome then persistEvents x col (storedHash x col blob) blob s1.h.onleaf
            else [])).filter Event.isEncode := List.mem_filter.2 ⟨hm, rfl⟩
      have hf : ([Event.encode col blob] ++
          (if col.Cache.1.isSome then [] else [Event.digest blob]) ++
          (if s1.db.isSome then persistEvents x col (storedHash x col blob) blob s1.h.onleaf
            else [])).filter Event.isEncode = [Event.encode col blob] := by
        have hp : ∀ ol, (persistEvents x col (storedHash x col blob) blob ol).filter
            Event.isEncode = [] := by
          intro ol
          cases ol <;> simp [persistEvents, List.filter_append, refEvents_filter_encode,
            leafEvents_filter_encode, Event.isEncode]
        simp only [List.filter_append]
        split <;> split <;> simp [hp, Event.isEncode]
      rw [hf] at this
      simp only [List.mem_singleton, Event.encode.injEq] at this
      rw [this.1]; exact hb
    · intro k b hk
      have hk' : Event.insert k b ∈
          persistEvents x col (storedHash x col blob) blob s1.h.onleaf := by
        simp only [List.mem_append, List.mem_singleton] at hk
        rcases hk with (hk | hk) | hk
        · cases hk
        · split at hk <;> simp at hk
        · split at hk
          · exact hk
          · simp at hk
      obtain ⟨-, rfl⟩ := insert_mem_persistEvents _ _ _ _ _ _ _ hk'
      exact ⟨col, by simp⟩

/-- C11 (amended): `hashChildren` returns a `ValueNode` unchanged as both
results, and never hands the value of a `ShortNode` to `hash`. A `ValueNode`
that is handed to `hash` with `force` false comes back unchanged as both
results when its encoding is shorter than 32 bytes. For every tree that is not
a `ValueNode` itself and holds `ValueNode`s only as values of `ShortNode`s or
from the 17th slot of a `FullNode` on, every run of `hash` encodes `ShortNode`s
and `FullNode`s only, and every blob it inserts was encoded in that run: no
entry is the encoding of a `ValueNode`. -/
theorem values_not_stored (x : Deps) :
    (∀ v s, hashChildren x (.value v) s = (.ok (.value v, .value v, none), s)) ∧
    (∀ k v f s, hashChildren x (.short k (.value v) f) s =
      (.ok (.short (x.hexToCompact k) (.value v) f, .short k (.value v) f, none), s)) ∧
    (∀ v s blob, x.encode (.value v) = some blob → blob.length < 32 →
      hash x (.value v) false s =
        (.ok (.value v, .value v, none), s.encoded (.value v) blob)) ∧
    (∀ n force s, n.noLooseValue = true →
      ∃ evs, (hash x n force s).2.trace = s.trace ++ evs ∧ BranchesOnly evs) := by
  refine ⟨fun _ _ => rfl, fun _ _ _ _ => rfl, ?_, ?_⟩
  · intro v s blob he hl
    rw [hash_of_slowPath x (.value v) false s ⟨rfl, Or.inl rfl⟩,
      hashSlow_of_ok x _ _ false s s _ _ _ _ (hashChildren_value x v s)
        (store_inline x (.value v) s blob rfl rfl he hl)]
    rfl
  · intro n force s hn
    refine (hash_invariant_on x (fun m => m.noLooseValue = true)
      (fun t => ∃ evs, t.trace = s.trace ++ evs ∧ BranchesOnly evs)
      noLooseValue_short ?_ ?_ ?_).1 n force s hn
      ⟨[], by simp, (fun m b hm => by cases hm), (fun k b hk => by cases hk)⟩
    · intro cs f h i c hi hc _
      simp only [Node.noLooseValue] at h
      exact noLooseValueList_get cs 16 h i c hi hc
    · rintro t ⟨evs, h, hg1, hg2⟩
      refine ⟨evs ++ [.unload], by simp [h], ?_, ?_⟩
      · intro m b hm
        simp only [List.mem_append, List.mem_singleton] at hm
        rcases hm with hm | hm
        · exact hg1 m b hm
        · cases hm
      · intro k b hk
        simp only [List.mem_append, List.mem_singleton] at hk
        rcases hk with hk | hk
        · obtain ⟨m, hm⟩ := hg2 k b hk
          exact ⟨m, List.mem_append_left _ hm⟩
        · cases hk
    · intro m force t col cac s1 hm _ hc hi
      have hcol : col.isValue = false := by
        have h1 := noLooseValue_not_value m hm
        cases m with
        | short k v f =>
          obtain ⟨cv, kv, rfl, -⟩ := hashChildren_short_ok x k v f t col cac none s1 hc
          rfl
        | full cs f =>
          obtain ⟨ccs, kcs, rfl, -⟩ := hashChildren_full_ok x cs f t col cac none s1 hc
          rfl
        | nil =>
          rw [hashChildren_nil] at hc
          simp only [Prod.mk.injEq, Outcome.ok.injEq] at hc
          rw [← hc.1.1]; rfl
        | hash hh =>
          rw [hashChildren_hash] at hc
          simp only [Prod.mk.injEq, Outcome.ok.injEq] at hc
          rw [← hc.1.1]; rfl
        | value v => simp [Node.isValue] at h1
      exact branchesOnly_store x s s1 col force hcol hi

/-- Witness for C11: the pass over scenario C, whose only value sits in a leaf. -/
theorem values_not_stored_witness :
    ∃ evs, (hash demoDeps demoTree false (demoState (some Database.empty) false)).2.trace =
      (demoState (some Database.empty) false).trace ++ evs ∧ BranchesOnly evs :=
  (values_not_stored demoDeps).2.2.2 demoTree false (demoState (some Database.empty) false) rfl

/-- C11 (counterexample): a 40-byte `ValueNode` handed to `hash` with a database
attached and `force` false comes back as a `HashNode`, and its encoding is
inserted into the database; the same happens when it sits in branch slot 2 of a
`FullNode`, where `hashChildren` hands it to `hash`. -/
theorem big_value_is_stored :
    demoDeps.encode bigValue = some bigValueBlob ∧
    (hash demoDeps bigValue false (demoState (some Database.empty) false)).1 =
      .ok (.hash (standInDigest bigValueBlob), bigValue, none) ∧
    (hash demoDeps bigValue false (demoState (some Database.empty) false)).2.trace =
      [.encode bigValue bigValueBlob, .digest bigValueBlob, .lock,
        .insert (bytesToHashImpl (standInDigest bigValueBlob)) bigValueBlob, .unlock] ∧
    ((hash demoDeps (oneChildBranch 2 bigValue newFlag) false
        (demoState (some Database.empty) false)).2.trace.filter Event.isInsert).head? =
      some (.insert (bytesToHashImpl (standInDigest bigValueBlob)) bigValueBlob) :=
  ⟨rfl, rfl, rfl, rfl⟩

/-- The first result of a returning `hash` is never nil. -/
theorem hash_ok_not_nil (x : Deps) (n : Node) (force : Bool) (s : State) (a b : Node)
    (e : Option Error) (s' : State) (h : hash x n force s = (.ok (a, b, e), s')) :
    a.isNil = false := by
  rcases hash_cases x n force s with ⟨_, h1⟩ | ⟨hh, _, _, h1⟩ | ⟨hh, _, _, _, h1⟩ |
    ⟨hh, _, _, _, h1⟩ | ⟨c1, _⟩
  · rw [h1] at h; simp at h
  · rw [h1] at h; simp only [Prod.mk.injEq, Outcome.ok.injEq] at h
    rw [← h.1.1]; rfl
  · rw [h1] at h; simp only [Prod.mk.injEq, Outcome.ok.injEq] at h
    rw [← h.1.1]; rfl
  · rw [h1] at h; simp only [Prod.mk.injEq, Outcome.ok.injEq] at h
    rw [← h.1.1]; rfl
  · obtain ⟨-, col, cac, s1, hc, hst, -⟩ := hash_slow_ok x n force s a b e s' c1 h
    obtain ⟨-, -, c3, -, -, -⟩ := hashChildren_shape x n s col cac none s1 hc
    obtain ⟨-, ⟨-, rfl, -⟩ | ⟨-, -, blob, -, -, -, rfl, -⟩ | ⟨-, -, blob, -, -, rfl, -⟩⟩ :=
      store_ok_cases x col force s1 a none s' hst
    · rw [c3]; exact c1.1
    · rw [c3]; exact c1.1
    · rfl

/-- The first result of a returning `hash` with `force` false is a `HashNode` or
a node whose encoding is shorter than 32 bytes. -/
theorem hash_ok_hash_or_small (x : Deps) (n : Node) (s : State) (a b : Node)
    (e : Option Error) (s' : State) (h : hash x n false s = (.ok (a, b, e), s')) :
    a.isHash = true ∨ ∃ blob, x.encode a = some blob ∧ blob.length < 32 := by
  rcases hash_cases x n false s with ⟨_, h1⟩ | ⟨hh, _, _, h1⟩ | ⟨hh, _, _, _, h1⟩ |
    ⟨hh, _, _, _, h1⟩ | ⟨c1, _⟩
  · rw [h1] at h; simp at h
  · rw [h1] at h; simp only [Prod.mk.injEq, Outcome.ok.injEq] at h
    rw [← h.1.1]; exact Or.inl rfl
  · rw [h1] at h; simp only [Prod.mk.injEq, Outcome.ok.injEq] at h
    rw [← h.1.1]; exact Or.inl rfl
  · rw [h1] at h; simp only [Prod.mk.injEq, Outcome.ok.injEq] at h
    rw [← h.1.1]; exact Or.inl rfl
  · obtain ⟨-, col, cac, s1, hc, hst, -⟩ := hash_slow_ok x n false s a b e s' c1 h
    obtain ⟨-, -, c3, -, -, -⟩ := hashChildren_shape x n s col cac none s1 hc
    obtain ⟨-, ⟨h2 | h2, rfl, -⟩ | ⟨-, -, blob, he, hl, -, rfl, -⟩ |
        ⟨-, -, blob, -, -, rfl, -⟩⟩ := store_ok_cases x col false s1 a none s' hst
    · rw [c3, c1.1] at h2; cases h2
    · exact Or.inl h2
    · exact Or.inr ⟨blob, he, hl⟩
    · exact Or.inl rfl

/-- The collapsed slots the slot loop returns: as many as it was given; each of
the first `k` is related by `Q` to the original slot, where `Q` holds between a
nil slot and the empty value and between a non-nil slot and the first result of
hashing it; the slots from `k` on are the original ones. -/
theorem hashLoop_slots (x : Deps) (Q : Node → Node → Prop) (hQnil : Q .nil (.value []))
    (hP : ∀ c s cc kc s1, c.isNil = false → hash x c false s = (.ok (cc, kc, none), s1) →
      Q c cc)
    (cs : List Node) (k : Nat) (s : State) (ccs kcs : List Node) (e : Option Error)
    (s' : State) (h : hashLoop x cs k s = (.ok (ccs, kcs, e), s')) :
    ccs.length = cs.length ∧
    (∀ i c, i < k → cs.get? i = some c → ∃ c', ccs.get? i = some c' ∧ Q c c') ∧
    (∀ i, k ≤ i → ccs.get? i = cs.get? i) := by
  refine (hash_ok_induction x (P := fun _ _ _ _ _ _ => True)
    (C := fun _ _ _ _ _ => True)
    (L := fun cs k _ ccs _ _ => ccs.length = cs.length ∧
      (∀ i c, i < k → cs.get? i = some c → ∃ c', ccs.get? i = some c' ∧ Q c c') ∧
      (∀ i, k ≤ i → ccs.get? i = cs.get? i))
    ?_ ?_ ?_ ?_ ?_ ?_ ?_ ?_ ?_ ?_ ?_ ?_ ?_ ?_).2.2 cs k s ccs kcs e s' h
  · intros; trivial
  · intros; trivial
  · intros; trivial
  · intros; trivial
  · intros; trivial
  · intros; trivial
  · intros; trivial
  · intros; trivial
  · intros; trivial
  · intros; trivial
  · intro k s
    exact ⟨rfl, fun i c _ hc => by simp at hc, fun _ _ => rfl⟩
  · intro cs s
    exact ⟨rfl, fun i c hi _ => by omega, fun _ _ => rfl⟩
  · intro cs k s ccs kcs s' _ ih
    obtain ⟨h1, h2, h3⟩ := ih
    refine ⟨by simp [h1], ?_, ?_⟩
    · intro i c hi hc
      cases i with
      | zero =>
        simp only [List.get?_cons_zero, Option.some.injEq] at hc
        subst hc
        exact ⟨_, rfl, hQnil⟩
      | succ i =>
        simp only [List.get?_cons_succ] at hc ⊢
        exact h2 i c (by omega) hc
    · intro i hi
      cases i with
      | zero => omega
      | succ i =>
        simp only [List.get?_cons_succ]
        exact h3 i (by omega)
  · intro c cs k s cc kc s1 ccs kcs s' hc hh _ _ ih
    obtain ⟨h1, h2, h3⟩ := ih
    refine ⟨by simp [h1], ?_, ?_⟩
    · intro i d hi hd
      cases i with
      | zero =>
        simp only [List.get?_cons_zero, Option.some.injEq] at hd
        subst hd
        exact ⟨_, rfl, hP _ _ _ _ _ hc hh⟩
      | succ i =>
        simp only [List.get?_cons_succ] at hd ⊢
        exact h2 i d (by omega) hd
    · intro i hi
      cases i with
      | zero => omega
      | succ i =>
        simp only [List.get?_cons_succ]
        exact h3 i (by omega)

theorem fixSlot16_get_ne (cs : List Node) (i : Nat) (hi : i ≠ 16) :
    (fixSlot16 cs).get? i = cs.get? i := by
  unfold fixSlot16
  split
  · simp only [List.get?_eq_getElem?]
    rw [List.getElem?_set_ne (Ne.symm hi)]
  · rfl

theorem fixSlot16_get_16_nil (cs : List Node) (h : cs.get? 16 = some .nil) :
    (fixSlot16 cs).get? 16 = some (.value []) := by
  have hlen : 16 < cs.length := by
    by_contra hc
    rw [List.get?_eq_none.2 (by omega)] at h
    cases h
  unfold fixSlot16
  rw [h]
  simp only [List.get?_eq_getElem?]
  rw [List.getElem?_set_self hlen]

theorem fixSlot16_get_16_other (cs : List Node) (h : cs.get? 16 ≠ some .nil) :
    (fixSlot16 cs).get? 16 = cs.get? 16 := by
  unfold fixSlot16
  split
  · rename_i heq
    exact absurd heq h
  · rfl

theorem nilToEmpty_not_nil (n : Node) : (nilToEmpty n).isNil = false := by
  cases n <;> rfl

theorem nilToEmpty_of_not_nil (n : Node) (h : n.isNil = false) : nilToEmpty n = n := by
  cases n <;> first | rfl | simp [Node.isNil] at h

/-- How `hashChildren` returns on a `ShortNode`: the value is kept when it is a
`ValueNode`, and is otherwise replaced by the results of hashing it. -/
theorem hashChildren_short_inv (x : Deps) (k : Bytes) (v : Node) (f : NodeFlag) (s : State)
    (col cac : Node) (e : Option Error) (s' : State)
    (h : hashChildren x (.short k v f) s = (.ok (col, cac, e), s')) :
    (v.isValue = true ∧ col = .short (x.hexToCompact k) v f ∧ cac = .short k v f ∧ s' = s) ∨
    (v.isValue = false ∧ ∃ cv kv, hash x v false s = (.ok (cv, kv, none), s') ∧
      col = .short (x.hexToCompact k) (nilToEmpty cv) f ∧ cac = .short k kv f) := by
  by_cases hv : v.isValue = true
  · left
    cases v <;> simp [Node.isValue] at hv
    rw [hashChildren_short_value] at h
    simp only [Prod.mk.injEq, Outcome.ok.injEq] at h
    exact ⟨rfl, h.1.1.symm, h.1.2.1.symm, h.2.symm⟩
  · right
    simp only [Bool.not_eq_true] at hv
    refine ⟨hv, ?_⟩
    rw [hashChildren_short x k v f s hv] at h
    split at h
    · simp at h
    · rename_i heq
      exact absurd ((no_error x).1 _ _ _ _ _ _ _ heq) (by simp)
    · rename_i cv kv s1 heq
      simp only [Prod.mk.injEq, Outcome.ok.injEq] at h
      obtain ⟨⟨rfl, rfl, -⟩, rfl⟩ := h
      exact ⟨cv, kv, heq, rfl, rfl⟩

/-- How `hashChildren` returns on a `FullNode`: through the slot loop over the
first sixteen slots and the fix of the 17th. -/
theorem hashChildren_full_inv (x : Deps) (cs : List Node) (f : NodeFlag) (s : State)
    (col cac : Node) (e : Option Error) (s' : State)
    (h : hashChildren x (.full cs f) s = (.ok (col, cac, e), s')) :
    ∃ ccs kcs, hashLoop x cs 16 s = (.ok (ccs, kcs, none), s') ∧
      col = .full (fixSlot16 ccs) f ∧ cac = .full kcs f := by
  rw [hashChildren_full] at h
  split at h
  · simp at h
  · rename_i heq
    exact absurd ((no_error x).2.2 _ _ _ _ _ _ _ heq) (by simp)
  · rename_i ccs kcs s2 heq
    simp only [Prod.mk.injEq, Outcome.ok.injEq] at h
    obtain ⟨⟨rfl, rfl, -⟩, rfl⟩ := h
    exact ⟨ccs, kcs, heq, rfl, rfl⟩

/-- The slots of the collapsed copy of a `FullNode` with at most 17 slots, after
the fix of the 17th: each is related by `Q` to the original slot, when `Q`
holds between a nil slot and the empty value, between a non-nil slot among the
first sixteen and the first result of hashing it, and between a non-nil 17th
slot and itself. -/
theorem collapsed_slots (x : Deps) (Q : Node → Node → Prop) (hQnil : Q .nil (.value []))
    (hP : ∀ c s cc kc s1, c.isNil = false → hash x c false s = (.ok (cc, kc, none), s1) →
      Q c cc)
    (cs : List Node) (s : State) (ccs kcs : List Node) (s' : State) (hlen : cs.length ≤ 17)
    (h16 : ∀ c, cs.get? 16 = some c → c.isNil = false → Q c c)
    (h : hashLoop x cs 16 s = (.ok (ccs, kcs, none), s')) :
    (fixSlot16 ccs).length = cs.length ∧
    ∀ i c, cs.get? i = some c → ∃ c', (fixSlot16 ccs).get? i = some c' ∧ Q c c' := by
  obtain ⟨h1, h2, h3⟩ := hashLoop_slots x Q hQnil hP cs 16 s ccs kcs none s' h
  refine ⟨by rw [fixSlot16_length, h1], ?_⟩
  intro i c hc
  have hi : i < cs.length := by
    by_contra hcon
    rw [List.get?_eq_none.2 (by omega)] at hc
    cases hc
  by_cases hlt : i < 16
  · rw [fixSlot16_get_ne ccs i (by omega)]
    exact h2 i c hlt hc
  · have hi16 : i = 16 := by omega
    subst hi16
    have hcc : ccs.get? 16 = some c := by rw [h3 16 (le_refl _), hc]
    by_cases hn : c.isNil = true
    · cases c <;> simp [Node.isNil] at hn
      exact ⟨_, fixSlot16_get_16_nil ccs hcc, hQnil⟩
    · simp only [Bool.not_eq_true] at hn
      have hne : ccs.get? 16 ≠ some .nil := by
        rw [hcc]
        intro hcon
        simp only [Option.some.injEq] at hcon
        rw [hcon] at hn
        simp [Node.isNil] at hn
      exact ⟨c, by rw [fixSlot16_get_16_other ccs hne, hcc], h16 c hc hn⟩

theorem mem_of_slots {Q : Node → Node → Prop} {R : Node → Prop} (cs ccs : List Node)
    (hlen : ccs.length = cs.length)
    (h : ∀ i c, cs.get? i = some c → ∃ c', ccs.get? i = some c' ∧ Q c c')
    (hQ : ∀ c c', Q c c' → R c') : ∀ c' ∈ ccs, R c' := by
  intro c' hc'
  obtain ⟨i, hi⟩ := List.get?_of_mem hc'
  have hi' : i < cs.length := by
    by_contra hcon
    rw [List.get?_eq_none.2 (by omega)] at hi
    cases hi
  obtain ⟨c'', h1, h2⟩ := h i (cs.get ⟨i, hi'⟩) (List.get?_eq_get hi')
  rw [hi] at h1
  simp only [Option.some.injEq] at h1
  rw [h1]
  exact hQ _ _ h2

/-- C12: when `hashChildren` returns on a `ShortNode` or `FullNode`, the
collapsed copy has no nil child. The value of a collapsed `ShortNode` is not
nil. In the collapsed copy of a `FullNode` (of at most 17 slots) no slot is
nil: every nil slot of the original holds the empty `ValueNode`, and every
non-nil slot among the first sixteen holds the non-nil first result of hashing
it. -/
theorem collapsed_has_no_nil (x : Deps) (n : Node) (s : State) (col cac : Node)
    (e : Option Error) (s' : State) (h : hashChildren x n s = (.ok (col, cac, e), s')) :
    (∀ k v f, n = .short k v f →
      ∃ cv, col = .short (x.hexToCompact k) cv f ∧ cv.isNil = false) ∧
    (∀ cs f, n = .full cs f → cs.length ≤ 17 →
      ∃ ccs, col = .full ccs f ∧ ccs.length = cs.length ∧
        (∀ c ∈ ccs, c.isNil = false) ∧
        (∀ i, cs.get? i = some .nil → ccs.get? i = some (.value [])) ∧
        (∀ i c, i < 16 → cs.get? i = some c → c.isNil = false →
          ∃ sa cc kc sb, hash x c false sa = (.ok (cc, kc, none), sb) ∧
            cc.isNil = false ∧ ccs.get? i = some cc)) := by
  constructor
  · rintro k v f rfl
    rcases hashChildren_short_inv x k v f s col cac e s' h with
      ⟨hv, rfl, -, -⟩ | ⟨-, cv, kv, -, rfl, -⟩
    · exact ⟨v, rfl, by cases v <;> simp_all [Node.isValue, Node.isNil]⟩
    · exact ⟨_, rfl, nilToEmpty_not_nil cv⟩
  · rintro cs f rfl hlen
    obtain ⟨ccs, kcs, hl, rfl, -⟩ := hashChildren_full_inv x cs f s col cac e s' h
    have hP : ∀ c sa cc kc sb, c.isNil = false →
        hash x c false sa = (.ok (cc, kc, none), sb) →
        cc.isNil = false ∧ (c.isNil = true → cc = .value []) := by
      intro c sa cc kc sb hc hh
      refine ⟨hash_ok_not_nil x c false sa cc kc none sb hh, fun hc' => ?_⟩
      rw [hc] at hc'
      cases hc'
    have h16 : ∀ c, cs.get? 16 = some c → c.isNil = false →
        c.isNil = false ∧ (c.isNil = true → c = .value []) := by
      intro c _ hc
      refine ⟨hc, fun hc' => ?_⟩
      rw [hc] at hc'
      cases hc'
    have key := collapsed_slots x
      (fun c c' => c'.isNil = false ∧ (c.isNil = true → c' = .value []))
      ⟨rfl, fun _ => rfl⟩ hP cs s ccs kcs s' hlen h16 hl
    obtain ⟨k1, k2⟩ := key
    refine ⟨_, rfl, k1, ?_, ?_, ?_⟩
    · exact mem_of_slots cs _ k1 k2 (fun _ _ hq => hq.1)
    · intro i hi
      obtain ⟨c', h1, h2⟩ := k2 i .nil hi
      rw [h1, h2.2 rfl]
    · intro i c hi hc hn
      obtain ⟨ccs0, kcs0, hl0, hcol, -⟩ := hashChildren_full_inv x cs f s _ cac e s' h
      simp only [Node.full.injEq, and_true] at hcol
      have hQ0 : Node.nil.isNil = false →
          ∃ sa kc sb, hash x .nil false sa = (.ok (.value [], kc, none), sb) := by
        intro hc
        simp [Node.isNil] at hc
      obtain ⟨-, h2, -⟩ := hashLoop_slots x
        (fun c c' => c.isNil = false →
          ∃ sa kc sb, hash x c false sa = (.ok (c', kc, none), sb))
        hQ0 (fun c sa cc kc sb _ hh _ => ⟨sa, kc, sb, hh⟩) cs 16 s ccs0 kcs0 none s' hl0
      obtain ⟨c', h3, h4⟩ := h2 i c hi hc
      obtain ⟨sa, kc, sb, hh⟩ := h4 hn
      refine ⟨sa, c', kc, sb, hh, hash_ok_not_nil x c false sa c' kc none sb hh, ?_⟩
      rw [hcol, fixSlot16_get_ne ccs0 i (by omega), h3]

/-- C19 (amended): the first result of a returning `hash` with `force` false is
a `HashNode` or a node whose encoding is shorter than 32 bytes. Hence the value
of a collapsed `ShortNode`, and each of the sixteen branch slots of a collapsed
`FullNode` (of at most 17 slots), holds a hash reference, a `ValueNode`, or a
node whose encoding is shorter than 32 bytes. The 17th slot is copied unhashed,
nil becoming the empty `ValueNode`; so when it is empty or a `ValueNode` in the
original, every slot of the collapsed copy is of that kind. -/
theorem collapsed_children_inline (x : Deps) :
    (∀ n s a b e s', hash x n false s = (.ok (a, b, e), s') →
      a.isHash = true ∨ ∃ blob, x.encode a = some blob ∧ blob.length < 32) ∧
    (∀ k v f s col cac e s', hashChildren x (.short k v f) s = (.ok (col, cac, e), s') →
      ∃ cv, col = .short (x.hexToCompact k) cv f ∧ SlotOk x cv) ∧
    (∀ cs f s col cac e s', hashChildren x (.full cs f) s = (.ok (col, cac, e), s') →
      cs.length ≤ 17 →
      ∃ ccs, col = .full ccs f ∧ ccs.length = cs.length ∧
        (∀ i c, i < 16 → ccs.get? i = some c → SlotOk x c) ∧
        (∀ c, cs.get? 16 = some c → ccs.get? 16 = some (nilToEmpty c)) ∧
        ((∀ c, cs.get? 16 = some c → c.isNil = true ∨ c.isValue = true) →
          ∀ c ∈ ccs, SlotOk x c)) := by
  have small : ∀ n s a b e s', hash x n false s = (.ok (a, b, e), s') → SlotOk x a := by
    intro n s a b e s' h
    rcases hash_ok_hash_or_small x n s a b e s' h with h1 | h1
    · exact Or.inl h1
    · exact Or.inr (Or.inr h1)
  refine ⟨hash_ok_hash_or_small x, ?_, ?_⟩
  · intro k v f s col cac e s' h
    rcases hashChildren_short_inv x k v f s col cac e s' h with
      ⟨hv, rfl, -, -⟩ | ⟨-, cv, kv, hh, rfl, -⟩
    · exact ⟨v, rfl, Or.inr (Or.inl hv)⟩
    · rw [nilToEmpty_of_not_nil cv (hash_ok_not_nil x v false s cv kv none s' hh)]
      exact ⟨cv, rfl, small _ _ _ _ _ _ hh⟩
  · intro cs f s col cac e s' h hlen
    obtain ⟨ccs, kcs, hl, rfl, -⟩ := hashChildren_full_inv x cs f s col cac e s' h
    obtain ⟨h1, h2, h3⟩ := hashLoop_slots x (fun _ c' => SlotOk x c')
      (Or.inr (Or.inl rfl)) (fun c sa cc kc sb _ hh => small _ _ _ _ _ _ hh)
      cs 16 s ccs kcs none s' hl
    refine ⟨_, rfl, by rw [fixSlot16_length, h1], ?_, ?_, ?_⟩
    · intro i c hi hc
      rw [fixSlot16_get_ne ccs i (by omega)] at hc
      have hic : i < cs.length := by
        by_contra hcon
        rw [List.get?_eq_none.2 (by omega)] at hc
        cases hc
      obtain ⟨c', k1, k2⟩ := h2 i (cs.get ⟨i, hic⟩) hi (List.get?_eq_get hic)
      rw [hc] at k1
      simp only [Option.some.injEq] at k1
      rw [k1]
      exact k2
    · intro c hc
      have hcc : ccs.get? 16 = some c := by rw [h3 16 (le_refl _), hc]
      by_cases hn : c.isNil = true
      · cases c <;> simp [Node.isNil] at hn
        exact fixSlot16_get_16_nil ccs hcc
      · simp only [Bool.not_eq_true] at hn
        have hne : ccs.get? 16 ≠ some .nil := by
          rw [hcc]
          intro hcon
          simp only [Option.some.injEq] at hcon
          rw [hcon] at hn
          simp [Node.isNil] at hn
        rw [fixSlot16_get_16_other ccs hne, hcc, nilToEmpty_of_not_nil c hn]
    · intro h16
      obtain ⟨k1, k2⟩ := collapsed_slots x (fun _ c' => SlotOk x c')
        (Or.inr (Or.inl rfl)) (fun c sa cc kc sb _ hh => small _ _ _ _ _ _ hh)
        cs s ccs kcs s' hlen
        (fun c hc hn => (h16 c hc).elim (fun h1 => by rw [hn] at h1; cases h1)
          (fun h1 => Or.inr (Or.inl h1))) hl
      exact mem_of_slots cs _ k1 k2 (fun _ _ hq => hq)

/-- Witness for C12: the collapsed form of scenario C has 17 slots, none of them
nil. -/
theorem collapsed_has_no_nil_witness :
    ∃ ccs, demoTreeCollapsed = .full ccs newFlag ∧
      ccs.length = (List.replicate 3 Node.nil ++ bigLeaf newFlag ::
        List.replicate 13 Node.nil).length ∧
      (∀ c ∈ ccs, c.isNil = false) ∧
      (∀ i, (List.replicate 3 Node.nil ++ bigLeaf newFlag ::
        List.replicate 13 Node.nil).get? i = some .nil → ccs.get? i = some (.value [])) ∧
      (∀ i c, i < 16 → (List.replicate 3 Node.nil ++ bigLeaf newFlag ::
        List.replicate 13 Node.nil).get? i = some c → c.isNil = false →
        ∃ sa cc kc sb, hash demoDeps c false sa = (.ok (cc, kc, none), sb) ∧
          cc.isNil = false ∧ ccs.get? i = some cc) :=
  (collapsed_has_no_nil demoDeps demoTree (demoState (some Database.empty) false)
    demoTreeCollapsed _ none _ rfl).2 _ newFlag rfl (by decide)

/-- Witness for C19: the sixteen branch slots of the collapsed form of scenario
C are hash references or values, and its 17th slot is the empty value. -/
theorem collapsed_children_inline_witness :
    ∃ ccs, demoTreeCollapsed = .full ccs newFlag ∧
      ccs.length = (List.replicate 3 Node.nil ++ bigLeaf newFlag ::
        List.replicate 13 Node.nil).length ∧
      (∀ i c, i < 16 → ccs.get? i = some c → SlotOk demoDeps c) ∧
      (∀ c, (List.replicate 3 Node.nil ++ bigLeaf newFlag ::
        List.replicate 13 Node.nil).get? 16 = some c → ccs.get? 16 = some (nilToEmpty c)) ∧
      ((∀ c, (List.replicate 3 Node.nil ++ bigLeaf newFlag ::
        List.replicate 13 Node.nil).get? 16 = some c → c.isNil = true ∨ c.isValue = true) →
        ∀ c ∈ ccs, SlotOk demoDeps c) :=
  (collapsed_children_inline demoDeps).2.2
    (List.replicate 3 Node.nil ++ bigLeaf newFlag :: List.replicate 13 Node.nil) newFlag
    (demoState (some Database.empty) false) demoTreeCollapsed _ none _ rfl (by decide)

/-- C19 (counterexample): `hashChildren` on a `FullNode` whose 17th slot holds a
`ShortNode` returns, and the 17th slot of the collapsed copy still holds that
`ShortNode`, unhashed: it is neither a hash reference nor a `ValueNode`, and its
encoding has 47 bytes. -/
theorem slot16_node_kept_unhashed :
    hashChildren demoDeps slot16Branch (demoState (some Database.empty) false) =
      (.ok (.full (List.replicate 16 (.value []) ++ [bigLeaf newFlag]) newFlag,
          slot16Branch, none), demoState (some Database.empty) false) ∧
    (bigLeaf newFlag).isHash = false ∧ (bigLeaf newFlag).isValue = false ∧
    demoDeps.encode (bigLeaf newFlag) = some bigLeafRawBlob ∧
    bigLeafRawBlob.length = 47 ∧
    ¬ SlotOk demoDeps (bigLeaf newFlag) :=
  ⟨rfl, rfl, rfl, rfl, rfl, fun h => h.elim (fun h1 => by cases h1)
    (fun h2 => h2.elim (fun h3 => by cases h3)
      (fun ⟨blob, hb, hl⟩ => by
        have e : some bigLeafRawBlob = some blob := hb
        cases e
        revert hl
        decide))⟩

theorem hash_hashNode (x : Deps) (h : Bytes) (force : Bool) (s : State) :
    hash x (.hash h) force s = (.ok (.hash h, .hash h, none), s) := rfl

/-- C18: when `hash` on a `ShortNode` or `FullNode` with a database attached
returns a `HashNode` and a cached node, hashing that cached node again in the
state the first call left returns the same `HashNode` first, with a nil error,
and leaves the hasher and the database as they are; the only call it may make
is the count of an unload: no encoding, insert, reference or leaf callback. -/
theorem rehash_cached_is_noop (x : Deps) (n : Node) (force : Bool) (s : State) (d : Database)
    (H : Bytes) (c : Node) (e : Option Error) (s' : State) (hb : n.isBranch = true)
    (hd : s.db = some d) (h : hash x n force s = (.ok (.hash H, c, e), s')) :
    ∃ c2 s2, hash x c force s' = (.ok (.hash H, c2, none), s2) ∧ s2.db = s'.db ∧
      s2.h = s'.h ∧ (s2.trace = s'.trace ∨ s2.trace = s'.trace ++ [.unload]) := by
  have he : e = none := (no_error x).1 _ _ _ _ _ _ _ h
  subst he
  rcases hash_cases x n force s with ⟨rfl, _⟩ | ⟨hh, _, c2, _⟩ | ⟨hh, _, _, _, h1⟩ |
    ⟨hh, _, _, _, h1⟩ | ⟨c1, _⟩
  · simp [Node.isBranch] at hb
  · rw [hd] at c2; cases c2
  · rw [h1] at h
    simp only [Prod.mk.injEq, Outcome.ok.injEq, Node.hash.injEq] at h
    obtain ⟨⟨rfl, rfl, -⟩, rfl⟩ := h
    exact ⟨_, _, hash_hashNode x hh force _, rfl, rfl, Or.inl rfl⟩
  · have h2 := h
    rw [h1] at h
    simp only [Prod.mk.injEq, Outcome.ok.injEq, Node.hash.injEq] at h
    obtain ⟨⟨rfl, rfl, -⟩, rfl⟩ := h
    exact ⟨_, _, h2, rfl, rfl, Or.inl rfl⟩
  · obtain ⟨-, col, cac, s1, hc, hst, rfl⟩ := hash_slow_ok x n force s _ _ none s' c1 h
    obtain ⟨-, -, -, -, -, c6⟩ := hashChildren_shape x n s col cac none s1 hc
    have hdb : s'.db.isSome = true := by
      have := ((hash_frame x s).1 n force).1
      rw [h] at this
      simp only [] at this
      rw [this, hd]; rfl
    have hcache : (setFlags (.hash H) s'.db cac).Cache = (some H, false) := by
      rw [setFlags_cache _ _ _ (by rw [c6, hb]), hdb]; rfl
    rcases hash_cases x (setFlags (.hash H) s'.db cac) force s' with ⟨h3, _⟩ |
      ⟨hh, _, c2, _⟩ | ⟨hh, c2, _, _, h3⟩ | ⟨hh, c2, _, _, h3⟩ | ⟨⟨_, c2⟩, _⟩
    · rw [h3] at hcache; simp [Node.Cache] at hcache
    · rw [c2] at hdb; cases hdb
    · rw [hcache] at c2
      simp only [Option.some.injEq] at c2
      subst c2
      exact ⟨_, _, h3, rfl, rfl, Or.inr rfl⟩
    · rw [hcache] at c2
      simp only [Prod.mk.injEq, Option.some.injEq, and_true] at c2
      subst c2
      exact ⟨_, _, h3, rfl, rfl, Or.inl rfl⟩
    · rw [hcache] at c2
      rcases c2 with c2 | ⟨_, c2, _⟩
      · cases c2
      · cases c2

/-- Witness for C18: scenario C, hashed and hashed again. -/
theorem rehash_cached_is_noop_witness :
    ∃ c2 s2, hash demoDeps demoTreeCached false
        (hash demoDeps demoTree false (demoState (some Database.empty) false)).2 =
        (.ok (.hash demoTreeHash, c2, none), s2) ∧
      s2.db = (hash demoDeps demoTree false (demoState (some Database.empty) false)).2.db ∧
      s2.h = (hash demoDeps demoTree false (demoState (some Database.empty) false)).2.h ∧
      (s2.trace = (hash demoDeps demoTree false
          (demoState (some Database.empty) false)).2.trace ∨
        s2.trace = (hash demoDeps demoTree false
          (demoState (some Database.empty) false)).2.trace ++ [.unload]) :=
  rehash_cached_is_noop demoDeps demoTree false (demoState (some Database.empty) false)
    Database.empty demoTreeHash demoTreeCached none
    (hash demoDeps demoTree false (demoState (some Database.empty) false)).2 rfl rfl rfl

theorem store_panic (x : Deps) (n : Node) (force : Bool) (s : State) (p : Panic) (s' : State)
    (h : store x n force s = (.panic p, s')) :
    p = .encodeError ∧ x.encode n = none ∧ n.isNil = false ∧ n.isHash = false := by
  by_cases hn : n.isNil = true
  · cases n <;> simp [Node.isNil] at hn
    rw [store_nil] at h; simp at h
  by_cases hh : n.isHash = true
  · cases n <;> simp [Node.isHash] at hh
    rw [store_hash] at h; simp at h
  simp only [Bool.not_eq_true] at hn hh
  cases he : x.encode n with
  | none =>
    rw [store_encode_none x n force s hn hh he] at h
    simp only [Prod.mk.injEq, Outcome.panic.injEq] at h
    exact ⟨h.1.symm, rfl, hn, hh⟩
  | some blob =>
    by_cases hl : blob.length < 32 ∧ force = false
    · obtain ⟨hl1, rfl⟩ := hl
      rw [store_inline x n s blob hn hh he hl1] at h
      simp at h
    · have hl' : 32 ≤ blob.length ∨ force = true := by
        by_cases h32 : blob.length < 32
        · right
          cases force
          · exact absurd ⟨h32, rfl⟩ hl
          · rfl
        · left; omega
      rw [store_hashed x n force s blob hn hh he hl'] at h
      simp at h

/-- On a tree in which no `ShortNode` has a nil value, the only panic of
`hash` (on a non-nil node), `hashChildren` and the slot loop is the encode
panic of `store`. -/
theorem panic_is_encode (x : Deps) :
    (∀ n force s, n.isNil = false → n.wellFormed = true →
      ∀ p s', hash x n force s = (.panic p, s') → p = .encodeError) ∧
    (∀ n s, n.wellFormed = true →
      ∀ p s', hashChildren x n s = (.panic p, s') → p = .encodeError) ∧
    (∀ cs k s, (∀ c ∈ cs, c.wellFormed = true) →
      ∀ p s', hashLoop x cs k s = (.panic p, s') → p = .encodeError) := by
  refine hash_induction x
    (P := fun n _ _ r => n.isNil = false → n.wellFormed = true →
      ∀ p s', r = (.panic p, s') → p = .encodeError)
    (C := fun n _ r => n.wellFormed = true → ∀ p s', r = (.panic p, s') → p = .encodeError)
    (L := fun cs _ _ r => (∀ c ∈ cs, c.wellFormed = true) →
      ∀ p s', r = (.panic p, s') → p = .encodeError)
    ?_ ?_ ?_ ?_ ?_ ?_ ?_ ?_ ?_ ?_ ?_
  · intro n force s ih hn hw p s' h
    rcases hash_cases x n force s with ⟨rfl, _⟩ | ⟨hh, _, _, h1⟩ | ⟨hh, _, _, _, h1⟩ |
      ⟨hh, _, _, _, h1⟩ | ⟨_, h1⟩
    · simp [Node.isNil] at hn
    · rw [h1] at h; simp at h
    · rw [h1] at h; simp at h
    · rw [h1] at h; simp at h
    · rw [h1] at h
      unfold hashSlow at h
      split at h
      · rename_i heq
        simp only [Prod.mk.injEq, Outcome.panic.injEq] at h
        rw [← h.1]
        exact ih hw _ _ heq
      · simp at h
      · split at h
        · rename_i heq
          simp only [Prod.mk.injEq, Outcome.panic.injEq] at h
          rw [← h.1]
          exact (store_panic x _ _ _ _ _ heq).1
        · simp at h
        · simp at h
  · intro k v f s _ p s' h
    rw [hashChildren_short_value] at h; simp at h
  · intro k v f s hv ih hw p s' h
    simp only [Node.wellFormed, Bool.and_eq_true, Bool.not_eq_true'] at hw
    rw [hashChildren_short x k v f s hv] at h
    split at h
    · rename_i heq
      simp only [Prod.mk.injEq, Outcome.panic.injEq] at h
      rw [← h.1]
      exact ih hw.1 hw.2 _ _ heq
    · simp at h
    · simp at h
  · intro cs f s ih hw p s' h
    simp only [Node.wellFormed] at hw
    rw [hashChildren_full] at h
    split at h
    · rename_i heq
      simp only [Prod.mk.injEq, Outcome.panic.injEq] at h
      rw [← h.1]
      exact ih (wellFormedList_mem cs hw) _ _ heq
    · simp at h
    · simp at h
  · intro s _ p s' h; rw [hashChildren_nil] at h; simp at h
  · intro hh s _ p s' h; rw [hashChildren_hash] at h; simp at h
  · intro v s _ p s' h; rw [hashChildren_value] at h; simp at h
  · intro k s _ p s' h; rw [hashLoop_nil] at h; simp at h
  · intro cs s _ p s' h; rw [hashLoop_zero] at h; simp at h
  · intro cs k s ih hw p s' h
    rw [hashLoop_cons_nil] at h
    split at h
    · rename_i heq
      simp only [Prod.mk.injEq, Outcome.panic.injEq] at h
      rw [← h.1]
      exact ih (fun c hc => hw c (List.mem_cons_of_mem _ hc)) _ _ heq
    · simp at h
    · simp at h
  · intro c cs k s hc ih ihl hw p s' h
    rw [hashLoop_cons x c cs k s hc] at h
    split at h
    · rename_i heq
      simp only [Prod.mk.injEq, Outcome.panic.injEq] at h
      rw [← h.1]
      exact ih hc (hw c (List.mem_cons_self _ _)) _ _ heq
    · simp at h
    · split at h
      · rename_i heq
        simp only [Prod.mk.injEq, Outcome.panic.injEq] at h
        rw [← h.1]
        exact ihl _ (fun c hc => hw c (List.mem_cons_of_mem _ hc)) _ _ heq
      · simp at h
      · simp at h

/-- C20: `store`, `hash` and `hashChildren` never return a non-nil error: on
every input on which they return, the error result is nil, so the branches of
`hash` and `hashChildren` that pass an error on are never taken. A panic of
`store` is always the encode panic, raised exactly when the codec fails; and on
a non-nil tree in which no `ShortNode` has a nil value, a pass that does not
return has panicked with that encode panic. -/
theorem errors_are_nil (x : Deps) :
    (∀ n force s a e s', store x n force s = (.ok (a, e), s') → e = none) ∧
    (∀ n force s a b e s', hash x n force s = (.ok (a, b, e), s') → e = none) ∧
    (∀ n s a b e s', hashChildren x n s = (.ok (a, b, e), s') → e = none) ∧
    (∀ n force s p s', store x n force s = (.panic p, s') →
      p = .encodeError ∧ x.encode n = none) ∧
    (∀ n force s p s', n.isNil = false → n.wellFormed = true →
      hash x n force s = (.panic p, s') → p = .encodeError) ∧
    (∀ n s p s', n.wellFormed = true →
      hashChildren x n s = (.panic p, s') → p = .encodeError) := by
  refine ⟨?_, (no_error x).1, (no_error x).2.1, ?_, ?_, ?_⟩
  · intro n force s a e s' h
    cases e with
    | none => rfl
    | some err => exact absurd h (store_no_error x n force s a err s')
  · intro n force s p s' h
    exact ⟨(store_panic x n force s p s' h).1, (store_panic x n force s p s' h).2.1⟩
  · intro n force s p s' hn hw h
    exact (panic_is_encode x).1 n force s hn hw p s' h
  · intro n s p s' hw h
    exact (panic_is_encode x).2.1 n s hw p s' h

/-- Witness for C20: scenario C returns with a nil error, and hashing the leaf
that the strict codec rejects panics with the encode error. -/
theorem errors_are_nil_witness :
    (∃ a b e s', hash demoDeps demoTree false (demoState (some Database.empty) false) =
      (.ok (a, b, e), s') ∧ e = none) ∧
    (∃ p s', hash strictDeps emptyLeaf true (demoState (some Database.empty) true) =
      (.panic p, s') ∧ p = .encodeError) :=
  ⟨⟨.hash demoTreeHash, demoTreeCached, none,
      (hash demoDeps demoTree false (demoState (some Database.empty) false)).2, rfl,
      (errors_are_nil demoDeps).2.1 demoTree false (demoState (some Database.empty) false)
        (.hash demoTreeHash) demoTreeCached none
        (hash demoDeps demoTree false (demoState (some Database.empty) false)).2 rfl⟩,
    ⟨.encodeError, demoState (some Database.empty) true, rfl,
      (errors_are_nil strictDeps).2.2.2.2.1 emptyLeaf true
        (demoState (some Database.empty) true) .encodeError
        (demoState (some Database.empty) true) rfl rfl rfl⟩⟩

theorem sameButBuffers_refl (s : State) : SameButBuffers s s := ⟨rfl, rfl, rfl, rfl, rfl⟩

theorem storeRefs_db_congr (x : Deps) (key : Bytes) (cs : List Node) (s t : State)
    (h : s.db = t.db) : (storeRefs x key cs s).db = (storeRefs x key cs t).db := by
  induction cs generalizing s t with
  | nil => simpa [storeRefs] using h
  | cons c cs ih =>
    cases c <;> simp only [storeRefs] <;> try exact ih s t h
    exact ih _ _ (by simp [State.reference, h])

theorem persist_congr (x : Deps) (n : Node) (hash : Bytes) (s t : State)
    (h : SameButBuffers s t) (htmp : s.h.tmp = t.h.tmp) :
    SameButBuffers (persist x n hash s) (persist x n hash t) := by
  obtain ⟨h1, h2, h3, h4, h5⟩ := h
  refine ⟨?_, ?_, ?_, ?_, ?_⟩
  · cases hd : s.db with
    | none =>
      rw [persist_none x n hash s hd, persist_none x n hash t (by rw [← h1, hd])]
      exact h1
    | some d =>
      have hd' : t.db = some d := by rw [← h1, hd]
      have key := storeRefs_db_congr x (x.bytesToHash hash) (storeSlots n)
        (((s.emit .lock).onDb fun d => d.insert (x.bytesToHash hash) (s.emit .lock).h.tmp).emit
          (.insert (x.bytesToHash hash) (s.emit .lock).h.tmp))
        (((t.emit .lock).onDb fun d => d.insert (x.bytesToHash hash) (t.emit .lock).h.tmp).emit
          (.insert (x.bytesToHash hash) (t.emit .lock).h.tmp))
        (by simp [h1, htmp])
      simp only [persist, hd, hd']
      split <;> split <;> simp only [storeLeaves_db, emit_db] <;> exact key
  · cases hd : s.db with
    | none =>
      rw [persist_none x n hash s hd, persist_none x n hash t (by rw [← h1, hd])]
      exact h2
    | some d =>
      rw [persist_trace x n hash s d hd, persist_trace x n hash t d (by rw [← h1, hd]),
        h2, htmp, h5]
  · rw [persist_h, persist_h]; exact h3
  · rw [persist_h, persist_h]; exact h4
  · rw [persist_h, persist_h]; exact h5

theorem store_congr (x : Deps) (n : Node) (force : Bool) (s t : State)
    (h : SameButBuffers s t) :
    (store x n force s).1 = (store x n force t).1 ∧
    SameButBuffers (store x n force s).2 (store x n force t).2 := by
  by_cases hn : n.isNil = true
  · cases n <;> simp [Node.isNil] at hn
    exact ⟨rfl, h⟩
  by_cases hh : n.isHash = true
  · cases n <;> simp [Node.isHash] at hh
    exact ⟨rfl, h⟩
  simp only [Bool.not_eq_true] at hn hh
  obtain ⟨h1, h2, h3, h4, h5⟩ := h
  cases he : x.encode n with
  | none =>
    rw [store_encode_none x n force s hn hh he, store_encode_none x n force t hn hh he]
    exact ⟨rfl, h1, h2, h3, h4, h5⟩
  | some blob =>
    by_cases hl : blob.length < 32 ∧ force = false
    · obtain ⟨hl1, rfl⟩ := hl
      rw [store_inline x n s blob hn hh he hl1, store_inline x n t blob hn hh he hl1]
      exact ⟨rfl, h1, by simp [h2], h3, h4, h5⟩
    · have hl' : 32 ≤ blob.length ∨ force = true := by
        by_cases h32 : blob.length < 32
        · right
          cases force
          · exact absurd ⟨h32, rfl⟩ hl
          · rfl
        · left; omega
      rw [store_hashed x n force s blob hn hh he hl', store_hashed x n force t blob hn hh he hl']
      refine ⟨rfl, persist_congr x n _ _ _ ⟨?_, ?_, ?_, ?_, ?_⟩ ?_⟩
      · rw [sumHash_db, sumHash_db]; exact h1
      · rw [sumHash_trace, sumHash_trace]; simp [h2]
      · rw [sumHash_cachegen, sumHash_cachegen]; exact h3
      · rw [sumHash_cachelimit, sumHash_cachelimit]; exact h4
      · rw [sumHash_onleaf, sumHash_onleaf]; exact h5
      · rw [sumHash_tmp, sumHash_tmp]; rfl

theorem hashSlow_congr (x : Deps) (hc : State → HashResult) (n : Node) (force : Bool)
    (s t : State) (hhc : (hc s).1 = (hc t).1 ∧ SameButBuffers (hc s).2 (hc t).2) :
    (hashSlow x hc n force s).1 = (hashSlow x hc n force t).1 ∧
    SameButBuffers (hashSlow x hc n force s).2 (hashSlow x hc n force t).2 := by
  unfold hashSlow
  rcases hs : hc s with ⟨o1, s1⟩
  rcases ht : hc t with ⟨o2, t1⟩
  rw [hs, ht] at hhc
  obtain ⟨h1, h2⟩ := hhc
  simp only [] at h1 h2
  subst h1
  rcases o1 with ⟨col, cac, _ | err⟩ | p
  · simp only []
    have key := store_congr x col force s1 t1 h2
    rcases hs2 : store x col force s1 with ⟨q1, s2⟩
    rcases ht2 : store x col force t1 with ⟨q2, t2⟩
    rw [hs2, ht2] at key
    obtain ⟨k1, k2⟩ := key
    simp only [] at k1 k2
    subst k1
    rcases q1 with ⟨a, _ | err⟩ | p
    · simp only []
      exact ⟨by rw [k2.1], k2⟩
    · exact ⟨rfl, k2⟩
    · exact ⟨rfl, k2⟩
  · exact ⟨rfl, h2⟩
  · exact ⟨rfl, h2⟩

theorem hashWith_cached (x : Deps) (hc : State → HashResult) (n : Node) (force : Bool)
    (s : State) (hh : Bytes) (d : Bool) (h : n.Cache = (some hh, d)) :
    hashWith x hc n force s =
      match s.db with
      | none => (.ok (.hash hh, n, none), s)
      | some _ =>
        if x.canUnload n s.h.cachegen s.h.cachelimit then
          (.ok (.hash hh, .hash hh, none), s.emit .unload)
        else if !d then (.ok (.hash hh, n, none), s)
        else hashSlow x hc n force s := by
  cases n with
  | short k v f =>
    rcases f with ⟨fh, g, fd⟩
    simp only [Node.Cache, Prod.mk.injEq] at h
    obtain ⟨rfl, rfl⟩ := h
    rfl
  | full cs f =>
    rcases f with ⟨fh, g, fd⟩
    simp only [Node.Cache, Prod.mk.injEq] at h
    obtain ⟨rfl, rfl⟩ := h
    rfl
  | nil => simp [Node.Cache] at h
  | hash _ => simp [Node.Cache] at h
  | value _ => simp [Node.Cache] at h

theorem hashWith_congr (x : Deps) (hc : State → HashResult) (n : Node) (force : Bool)
    (s t : State) (h : SameButBuffers s t)
    (hhc : (hc s).1 = (hc t).1 ∧ SameButBuffers (hc s).2 (hc t).2) :
    (hashWith x hc n force s).1 = (hashWith x hc n force t).1 ∧
    SameButBuffers (hashWith x hc n force s).2 (hashWith x hc n force t).2 := by
  have slow := hashSlow_congr x hc n force s t hhc
  obtain ⟨h1, h2, h3, h4, h5⟩ := h
  have fast : ∀ hh d, n.Cache = (some hh, d) →
      (hashWith x hc n force s).1 = (hashWith x hc n force t).1 ∧
      SameButBuffers (hashWith x hc n force s).2 (hashWith x hc n force t).2 := by
    intro hh d hcache
    rw [hashWith_cached x hc n force s hh d hcache, hashWith_cached x hc n force t hh d hcache,
      ← h1, ← h3, ← h4]
    cases s.db with
    | none => exact ⟨rfl, h1, h2, h3, h4, h5⟩
    | some db =>
      simp only []
      split
      · exact ⟨rfl, h1, by simp [h2], h3, h4, h5⟩
      · split
        · exact ⟨rfl, h1, h2, h3, h4, h5⟩
        · exact slow
  cases n with
  | nil => exact ⟨rfl, h1, h2, h3, h4, h5⟩
  | hash hh => exact slow
  | value v => exact slow
  | short k v g =>
    rcases g with ⟨_ | hh, gen, d⟩
    · exact slow
    · exact fast hh d rfl
  | full cs g =>
    rcases g with ⟨_ | hh, gen, d⟩
    · exact slow
    · exact fast hh d rfl

/-- Runs of `hash`, `hashChildren` and the slot loop from two states that differ
only in the scratch buffer and the digest give the same outcome and end in
states that again differ at most there. -/
theorem hash_congr (x : Deps) :
    (∀ n force s t, SameButBuffers s t →
      (hash x n force s).1 = (hash x n force t).1 ∧
      SameButBuffers (hash x n force s).2 (hash x n force t).2) ∧
    (∀ n s t, SameButBuffers s t →
      (hashChildren x n s).1 = (hashChildren x n t).1 ∧
      SameButBuffers (hashChildren x n s).2 (hashChildren x n t).2) ∧
    (∀ cs k s t, SameButBuffers s t →
      (hashLoop x cs k s).1 = (hashLoop x cs k t).1 ∧
      SameButBuffers (hashLoop x cs k s).2 (hashLoop x cs k t).2) := by
  have key := hash_induction x
    (P := fun n force s r => ∀ t, SameButBuffers s t →
      r.1 = (hash x n force t).1 ∧ SameButBuffers r.2 (hash x n force t).2)
    (C := fun n s r => ∀ t, SameButBuffers s t →
      r.1 = (hashChildren x n t).1 ∧ SameButBuffers r.2 (hashChildren x n t).2)
    (L := fun cs k s r => ∀ t, SameButBuffers s t →
      r.1 = (hashLoop x cs k t).1 ∧ SameButBuffers r.2 (hashLoop x cs k t).2)
    ?_ ?_ ?_ ?_ ?_ ?_ ?_ ?_ ?_ ?_ ?_
  · exact ⟨fun n force s t h => key.1 n force s t h, fun n s t h => key.2.1 n s t h,
      fun cs k s t h => key.2.2 cs k s t h⟩
  · intro n force s ih t hR
    exact hashWith_congr x (hashChildren x n) n force s t hR (ih t hR)
  · intro k v f s t hR
    exact ⟨rfl, hR⟩
  · intro k v f s hv ih t hR
    rw [hashChildren_short x k v f s hv, hashChildren_short x k v f t hv]
    have key := ih t hR
    rcases hs : hash x v false s with ⟨o1, s1⟩
    rcases ht : hash x v false t with ⟨o2, t1⟩
    rw [hs, ht] at key
    obtain ⟨k1, k2⟩ := key
    simp only [] at k1 k2
    subst k1
    rcases o1 with ⟨cv, kv, _ | err⟩ | p <;> exact ⟨rfl, k2⟩
  · intro cs f s ih t hR
    rw [hashChildren_full, hashChildren_full]
    have key := ih t hR
    rcases hs : hashLoop x cs 16 s with ⟨o1, s1⟩
    rcases ht : hashLoop x cs 16 t with ⟨o2, t1⟩
    rw [hs, ht] at key
    obtain ⟨k1, k2⟩ := key
    simp only [] at k1 k2
    subst k1
    rcases o1 with ⟨cv, kv, _ | err⟩ | p <;> exact ⟨rfl, k2⟩
  · intro s t hR; exact ⟨rfl, hR⟩
  · intro h s t hR; exact ⟨rfl, hR⟩
  · intro v s t hR; exact ⟨rfl, hR⟩
  · intro k s t hR
    rw [hashLoop_nil, hashLoop_nil]; exact ⟨rfl, hR⟩
  · intro cs s t hR
    rw [hashLoop_zero, hashLoop_zero]; exact ⟨rfl, hR⟩
  · intro cs k s ih t hR
    rw [hashLoop_cons_nil, hashLoop_cons_nil]
    have key := ih t hR
    rcases hs : hashLoop x cs k s with ⟨o1, s1⟩
    rcases ht : hashLoop x cs k t with ⟨o2, t1⟩
    rw [hs, ht] at key
    obtain ⟨k1, k2⟩ := key
    simp only [] at k1 k2
    subst k1
    rcases o1 with ⟨cv, kv, _ | err⟩ | p <;> exact ⟨rfl, k2⟩
  · intro c cs k s hc ih ihl t hR
    rw [hashLoop_cons x c cs k s hc, hashLoop_cons x c cs k t hc]
    have key := ih t hR
    rcases hs : hash x c false s with ⟨o1, s1⟩
    rcases ht : hash x c false t with ⟨o2, t1⟩
    rw [hs, ht] at key
    obtain ⟨k1, k2⟩ := key
    simp only [] at k1 k2
    subst k1
    rcases o1 with ⟨cc, kc, _ | err⟩ | p
    · simp only []
      have key2 := ihl s1 t1 k2
      rcases hs2 : hashLoop x cs k s1 with ⟨q1, s2⟩
      rcases ht2 : hashLoop x cs k t1 with ⟨q2, t2⟩
      rw [hs2, ht2] at key2
      obtain ⟨j1, j2⟩ := key2
      simp only [] at j1 j2
      subst j1
      rcases q1 with ⟨ccs, kcs, _ | err⟩ | p <;> exact ⟨rfl, j2⟩
    · exact ⟨rfl, k2⟩
    · exact ⟨rfl, k2⟩

/-- The run of `hashChildren` on the empty `FullNode`. -/
theorem hashChildren_empty (x : Deps) (f : NodeFlag) (s : State) :
    hashChildren x (.full (List.replicate 17 .nil) f) s =
      (.ok (.full (List.replicate 17 (.value [])) f, .full (List.replicate 17 .nil) f, none),
        s) := by
  have h0 : hashLoop x [Node.nil] 0 s = (.ok ([.nil], [.nil], none), s) := hashLoop_zero _ _ _
  have h1 := hashLoop_replicate_nil x 16 0 _ _ _ _ _ h0
  have e1 : List.replicate 17 Node.nil = List.replicate 16 Node.nil ++ [Node.nil] := rfl
  rw [hashChildren_full, e1, h1]
  rfl

/-- C13: hashing does not depend on what the scratch buffer and the digest of
the hasher held before. Two runs of `hash` on the same tree with the same
`force`, from states with the same database, trace and hasher settings, give
the same outcome (collapsed node or hash, cached node, error, or panic) and
leave the same database and the same trace, so they issue the same calls in the
same order. E.g. with `force` set the empty `FullNode` gets the digest of its
encoding as its hash from every hasher state. -/
theorem hash_independent_of_buffers (x : Deps) :
    (∀ n force s t, SameButBuffers s t →
      (hash x n force s).1 = (hash x n force t).1 ∧
      SameButBuffers (hash x n force s).2 (hash x n force t).2) ∧
    (∀ f s blob, f.hash = none →
      x.encode (.full (List.replicate 17 (.value [])) f) = some blob →
      ∃ c, (hash x (.full (List.replicate 17 .nil) f) true s).1 =
        .ok (.hash (x.keccak256 blob), c, none)) := by
  refine ⟨(hash_congr x).1, ?_⟩
  intro f s blob hf he
  have hst := store_hashed x (.full (List.replicate 17 (.value [])) f) true s blob rfl rfl he
    (Or.inr rfl)
  have hh : storedHash x (.full (List.replicate 17 (.value [])) f) blob = x.keccak256 blob := by
    simp [storedHash, Node.Cache, hf]
  rw [hh] at hst
  have hp : slowPath x (.full (List.replicate 17 .nil) f) s := ⟨rfl, Or.inl hf⟩
  rw [hash_of_slowPath x (.full (List.replicate 17 .nil) f) true s hp,
    hashSlow_of_ok x _ _ true s s _ _ _ _ (hashChildren_empty x f s) hst]
  exact ⟨_, rfl⟩

/-- Witness for C13: the empty `FullNode` hashed with `force` by a fresh hasher
and by one with leftovers in its buffer and digest gets the same hash. -/
theorem hash_independent_of_buffers_witness :
    SameButBuffers (usedState [] [] (some Database.empty))
      (usedState [1, 2, 3] [9, 9] (some Database.empty)) ∧
    (hash demoDeps emptyBranch true (usedState [] [] (some Database.empty))).1 =
      (hash demoDeps emptyBranch true (usedState [1, 2, 3] [9, 9] (some Database.empty))).1 ∧
    (hash demoDeps emptyBranch true (usedState [1, 2, 3] [9, 9] (some Database.empty))).1 =
      .ok (.hash (standInDigest (rlpNode emptyBranchCollapsed)),
        .full (List.replicate 17 .nil)
          (cleanFlag (standInDigest (rlpNode emptyBranchCollapsed))), none) :=
  ⟨sameButBuffers_refl _,
    ((hash_independent_of_buffers demoDeps).1 emptyBranch true
      (usedState [] [] (some Database.empty))
      (usedState [1, 2, 3] [9, 9] (some Database.empty)) ⟨rfl, rfl, rfl, rfl, rfl⟩).1,
    rfl⟩

end Trie
